import Mathlib

/-!
Verification development for the CIT actor scheduler (`src/scheduler.js`).

The JavaScript source is shallowly embedded: JS objects used as string-keyed
maps become association lists (`aGet`/`aSet`, preserving JS insertion-order
semantics, where re-assignment of an existing key keeps its position) or total
functions with an explicit default (mirroring `x || fallback` reads in the
source); JS `Set` becomes an insertion-ordered duplicate-free list; JS numbers
used as counters become `Int`; the `maxPMRatio` fraction becomes `Rat` (every
claim settled here depends only on comparisons that agree between `Rat` and
IEEE doubles: the `=== 0` test, and expressions evaluated identically on both
sides of an equivalence); `new Date(y, m-1, d).getDay()` is embedded as the
Gregorian day-of-week function (Sakamoto's method), which is what the JS
builtin computes for in-range date components; `Array.prototype.sort`, stable
with a consistent comparator per ECMAScript 2019+, is embedded as
`List.insertionSort` with the relation `cmp a b ≤ 0`, which is the unique
sorted stable permutation for such comparators.

JS object keys `week0`, `week1`, ... are modelled by their numeric index.
`usageCount`, `pmCount` and `eligibleCount` are modelled as total functions
defaulting to 0; the JS code only creates these keys for actors listed in
`config.actors`, so the model and the code agree on all inputs whose approved
actors are all listed in `config.actors` (otherwise the JS code propagates
`NaN` through dead comparisons).
-/

namespace CIT

/-- One shift of a training day (`SHIFTS = ["AM", "PM"]`). -/
inductive Shift where
  | AM
  | PM
deriving DecidableEq, Repr, BEq

def Shift.str : Shift → String
  | .AM => "AM"
  | .PM => "PM"

/-- One of the three training-day slots (`SLOT_KEYS`). -/
inductive SlotKey where
  | slot1
  | slot2
  | slot3
deriving DecidableEq, Repr, BEq

def SLOT_KEYS : List SlotKey := [.slot1, .slot2, .slot3]

def SHIFTS : List Shift := [.AM, .PM]

/-- A raw per-person-per-day availability value as stored in the availability
object: a boolean, a string, or absent (`undefined`). -/
inductive RawAvail where
  | bool (b : Bool)
  | str (s : String)
  | undef
deriving DecidableEq, Repr

/-- `normalizeAvail` from scheduler.js. JS returns `"both" | "am" | "pm" | false`;
the `false` outcome is modelled as `none`. -/
def normalizeAvail (val : RawAvail) : Option String :=
  if val = .bool true ∨ val = .str "both" then some "both"
  else if val = .str "am" then some "am"
  else if val = .str "pm" then some "pm"
  else none

/-- `isAvailableForShift` from scheduler.js. -/
def isAvailableForShift (availValue : RawAvail) (shift : Shift) : Bool :=
  match normalizeAvail availValue with
  | none => false
  | some norm =>
    if norm = "both" then true
    else (norm = "am" && shift = Shift.AM) || (norm = "pm" && shift = Shift.PM)

def MONTHS_SHORT : List String :=
  ["Jan","Feb","Mar","Apr","May","Jun","Jul","Aug","Sep","Oct","Nov","Dec"]

def DAYS_SHORT : List String := ["Sun","Mon","Tue","Wed","Thu","Fri","Sat"]

def DAYS_LONG : List String :=
  ["Sunday","Monday","Tuesday","Wednesday","Thursday","Friday","Saturday"]

/-- `"2026-03-10".split("-").map(Number)`. -/
def parse3 (s : String) : Nat × Nat × Nat :=
  match (s.splitOn "-").map (fun t => t.toNat?.getD 0) with
  | [y, m, d] => (y, m, d)
  | _ => (0, 0, 0)

/-- Gregorian day of week, 0 = Sunday (Sakamoto's method); the value of
`new Date(y, m - 1, d).getDay()` for in-range date components. -/
def dowIndex (y m d : Nat) : Nat :=
  let t : List Nat := [0, 3, 2, 5, 0, 3, 5, 1, 4, 6, 2, 4]
  let y' := if m < 3 then y - 1 else y
  (y' + y' / 4 - y' / 100 + y' / 400 + t.getD (m - 1) 0 + d) % 7

/-- `DAYS_LONG[new Date(y, m-1, d).getDay()]` for a date string. -/
def dowLong (date : String) : String :=
  let (y, m, d) := parse3 date
  DAYS_LONG.getD (dowIndex y m d) ""

/-- `fmtDateShort` from scheduler.js: `"2026-03-10" → "Tue 3/10"`. -/
def fmtDateShort (date : String) : String :=
  let (y, m, d) := parse3 date
  DAYS_SHORT.getD (dowIndex y m d) "" ++ " " ++ toString m ++ "/" ++ toString d

/-- An optional per-actor constraint record (`config.actorConstraints[actor]`).
`allowedDays = []` models both an absent and an empty `allowedDays` list,
the two being indistinguishable to every read (`?.length > 0`). -/
structure AConstraint where
  allowedDays : List String
  maxPMRatio : Option Rat
  preferAM : Bool
deriving DecidableEq, Repr

/-- A conflict rule (`config.conflicts[i]`). -/
structure CRule where
  scope : String
  actor_cannot_play : List String
deriving DecidableEq, Repr

/-- The configuration consumed by the solver. String-keyed JS objects read
via `obj[k] || []` are modelled as total functions (the default stands for
the absent key). -/
structure Config where
  actors : List String
  scenarioActors : String → List String
  slotScenarios : SlotKey → List String
  conflicts : List CRule
  actorConstraints : String → Option AConstraint
  defaultDays : SlotKey → String

/-- One business-day entry of a week (`{ date, dayName, dow }`; the `dow`
field is never read by the scheduler). -/
structure WeekDay where
  date : String
  dayName : String
deriving DecidableEq, Repr

/-- A week plan: each slot key maps to a concrete date or `null` (canceled). -/
def WeekPlan : Type := SlotKey → Option String

/-- `getDefaultWeekPlan` from scheduler.js. -/
def getDefaultWeekPlan (weekDays : List WeekDay) (config : Config) : WeekPlan :=
  fun slotKey =>
    match weekDays.find? (fun wd => wd.dayName = config.defaultDays slotKey) with
    | some wd => some wd.date
    | none => none

/-- `weekPlans[weekKey] || getDefaultWeekPlan(weeks[wi], config)`. The result
of `getDefaultWeekPlan` is always a truthy object, so the subsequent
`if (!wp) continue` in the source never fires; the resolved plan is total. -/
def resolvePlan (weeks : List (List WeekDay)) (weekPlans : Nat → Option WeekPlan)
    (config : Config) (wi : Nat) : WeekPlan :=
  match weekPlans wi with
  | some p => p
  | none => getDefaultWeekPlan (weeks.getD wi []) config

/-! ### Association lists with JS object assignment semantics -/

/-- Key lookup in an insertion-ordered association list. -/
def aGet {α β : Type} [DecidableEq α] (k : α) : List (α × β) → Option β
  | [] => none
  | (k', v) :: rest => if k' = k then some v else aGet k rest

/-- JS object assignment `obj[k] = v`: update in place if the key exists
(keeping its position), otherwise append. -/
def aSet {α β : Type} [DecidableEq α] (k : α) (v : β) : List (α × β) → List (α × β)
  | [] => [(k, v)]
  | (k', v') :: rest => if k' = k then (k', v) :: rest else (k', v') :: aSet k v rest

/-- Apply `f` to the value at key `k`, if present. Used for JS assignments
into nested objects whose outer keys are known to exist. -/
def mapAt {α β : Type} [DecidableEq α] (k : α) (f : β → β) : List (α × β) → List (α × β)
  | [] => []
  | (k', v) :: rest => (if k' = k then (k', f v) else (k', v)) :: mapAt k f rest

/-! ### Schedule structure -/

/-- One non-canceled training day of the output tree:
`{ date, AM: {scenario: actor|null}, PM: {...} }`. -/
structure DaySched where
  date : String
  am : List (String × Option String)
  pm : List (String × Option String)
deriving DecidableEq, Repr

def DaySched.byShift (ds : DaySched) : Shift → List (String × Option String)
  | .AM => ds.am
  | .PM => ds.pm

/-- The output tree `week → daySlot → (null | DaySched)`, week keys modelled
by their index. -/
def Schedule : Type := List (Nat × List (SlotKey × Option DaySched))

/-- A slot position: (week, day-slot, shift, scenario). -/
abbrev Pos := Nat × SlotKey × Shift × String

/-- Value of the schedule cell at a position: `none` if the cell does not
exist (missing week, missing slot or canceled day), `some v` otherwise, where
`v` is the assigned actor or `none` for an unfilled cell. -/
def cellVal (s : Schedule) (p : Pos) : Option (Option String) :=
  match aGet p.1 s with
  | none => none
  | some wk =>
    match aGet p.2.1 wk with
    | none => none
    | some none => none
    | some (some ds) => aGet p.2.2.2 (ds.byShift p.2.2.1)

/-- `schedule[weekKey][slotKey][shift][scenario] = v`. The JS code only ever
performs this on cells created by the skeleton; on a missing week or slot
entry (where JS would fault) the model leaves the schedule unchanged. -/
def cellAssign (s : Schedule) (wi : Nat) (sk : SlotKey) (sh : Shift)
    (scn : String) (v : Option String) : Schedule :=
  mapAt wi (fun wk =>
    mapAt sk (fun od =>
      od.map (fun ds =>
        match sh with
        | .AM => { ds with am := aSet scn v ds.am }
        | .PM => { ds with pm := aSet scn v ds.pm })) wk) s

/-- Whether a (week, day-slot) pair leads to a live day object in the tree. -/
def pathOk (s : Schedule) (wi : Nat) (sk : SlotKey) : Bool :=
  match aGet wi s with
  | none => false
  | some wk =>
    match aGet sk wk with
    | some (some _) => true
    | _ => false

/-! ### Slots and search state -/

/-- A solver slot `{ wi, weekKey, slotKey, shift, scenario, date }`
(the redundant `weekKey` string is `wi` itself here). -/
structure Slot where
  wi : Nat
  slotKey : SlotKey
  shift : Shift
  scenario : String
  date : String
deriving DecidableEq, Repr

def dSlot : Slot := ⟨0, .slot1, .AM, "", ""⟩

instance : Inhabited Slot := ⟨dSlot⟩

/-- The search state: the partial schedule, `wa[week][shift][actor]`
(a JS `Set` of scenario names, modelled as an insertion-ordered list with an
empty list standing for the absent key), the usage counters and the
expansion counter. -/
structure SState where
  schedule : Schedule
  wa : Nat → Shift → String → List String
  usageCount : String → Int
  pmCount : String → Int
  backtrackCount : Nat

/-- JS `Set.add`: append if not present. -/
def setAdd (x : String) (l : List String) : List String :=
  if x ∈ l then l else l ++ [x]

/-- Pointwise update of a counter map. -/
def bump (a : String) (d : Int) (f : String → Int) : String → Int :=
  fun x => if x = a then f x + d else f x

def waAdd (wa : Nat → Shift → String → List String) (wi : Nat) (sh : Shift)
    (actor scn : String) : Nat → Shift → String → List String :=
  fun wi' sh' a' =>
    if wi' = wi ∧ sh' = sh ∧ a' = actor then setAdd scn (wa wi' sh' a')
    else wa wi' sh' a'

def waRemove (wa : Nat → Shift → String → List String) (wi : Nat) (sh : Shift)
    (actor scn : String) : Nat → Shift → String → List String :=
  fun wi' sh' a' =>
    if wi' = wi ∧ sh' = sh ∧ a' = actor then (wa wi' sh' a').erase scn
    else wa wi' sh' a'

/-- `applyAssign` from scheduler.js. -/
def applyAssign (st : SState) (slot : Slot) (actor : String) : SState :=
  { schedule := cellAssign st.schedule slot.wi slot.slotKey slot.shift slot.scenario (some actor)
    wa := waAdd st.wa slot.wi slot.shift actor slot.scenario
    usageCount := bump actor 1 st.usageCount
    pmCount := if slot.shift = Shift.PM then bump actor 1 st.pmCount else st.pmCount
    backtrackCount := st.backtrackCount }

/-- `undoAssign` from scheduler.js. -/
def undoAssign (st : SState) (slot : Slot) (actor : String) : SState :=
  { schedule := cellAssign st.schedule slot.wi slot.slotKey slot.shift slot.scenario none
    wa := waRemove st.wa slot.wi slot.shift actor slot.scenario
    usageCount := bump actor (-1) st.usageCount
    pmCount := if slot.shift = Shift.PM then bump actor (-1) st.pmCount else st.pmCount
    backtrackCount := st.backtrackCount }

/-! ### Constraint filter -/

/-- `hasConflict` from scheduler.js. -/
def hasConflict (actor scenario : String) (shift : Shift)
    (weekAssignments : Shift → String → List String) (conflicts : List CRule) : Bool :=
  if conflicts.isEmpty then false
  else
    let actorScenarios := weekAssignments shift actor
    if actorScenarios.isEmpty then false
    else
      conflicts.any (fun rule =>
        rule.scope = "same_shift" &&
        (let pair := rule.actor_cannot_play
         decide (2 ≤ pair.length) && pair.contains scenario &&
         pair.any (fun other => other ≠ scenario && actorScenarios.contains other)))

/-- The `ec?.allowedDays?.length > 0 && !includes(weekday)` test shared by
the eligibility profiler, `getEligible` and `explainElim`. -/
def allowedDaysViolated (ac : Option AConstraint) (date : String) : Bool :=
  match ac with
  | none => false
  | some c => !c.allowedDays.isEmpty && !(c.allowedDays.contains (dowLong date))

/-- The `relax < 1` PM-ratio test of `getEligible`: bars the actor outright
when `maxPMRatio === 0`, otherwise once `pmCount/usageCount ≥ maxPMRatio`
with at least one prior assignment. -/
def pmRatioBars (ac : Option AConstraint) (st : SState) (actor : String) : Bool :=
  match ac with
  | none => false
  | some c =>
    match c.maxPMRatio with
    | none => false
    | some r =>
      if r = 0 then true
      else decide (0 < st.usageCount actor) &&
        decide (r ≤ (st.pmCount actor : Rat) / (st.usageCount actor : Rat))

/-- The filter body of `getEligible`: the early `return false` tests in
source order. -/
def eligOk (cfg : Config) (avail : String → String → RawAvail)
    (slot : Slot) (st : SState) (relaxLevel : Nat) (actor : String) : Bool :=
  let dayAvail := avail slot.date
  let w := st.wa slot.wi
  if !isAvailableForShift (dayAvail actor) slot.shift then false
  else if !(w slot.shift actor).isEmpty then false
  else
    let ac := cfg.actorConstraints actor
    if decide (relaxLevel < 3) && hasConflict actor slot.scenario slot.shift w cfg.conflicts then
      false
    else if decide (relaxLevel < 2) && allowedDaysViolated ac slot.date then false
    else if decide (relaxLevel < 1) && slot.shift = Shift.PM && pmRatioBars ac st actor then
      false
    else true

/-- `getEligible` from scheduler.js
(`relaxLevel: 0=strict, 1=ignore PM cap, 2=+ignore allowedDays, 3=+ignore conflicts`). -/
def getEligible (cfg : Config) (avail : String → String → RawAvail)
    (slot : Slot) (st : SState) (relaxLevel : Nat) : List String :=
  (cfg.scenarioActors slot.scenario).filter (eligOk cfg avail slot st relaxLevel)

/-! ### Candidate ranking (stable sort) -/

/-- ECMAScript stable sort with a consistent comparator: the unique sorted
stable permutation, realised by `List.insertionSort` on `cmp a b ≤ 0`. -/
def jsSortBy {α : Type} (cmp : α → α → Int) (l : List α) : List α :=
  List.insertionSort (fun a b => cmp a b ≤ 0) l

def prefAMVal (cfg : Config) (a : String) : Int :=
  match cfg.actorConstraints a with
  | some c => if c.preferAM then 1 else 0
  | none => 0

/-- The comparator of `rankCandidates`. -/
def rankCmp (cfg : Config) (eligCnt : String → Int) (st : SState) (shift : Shift)
    (a b : String) : Int :=
  let ud := st.usageCount a - st.usageCount b
  if ud ≠ 0 then ud
  else if shift = Shift.PM ∧ prefAMVal cfg a ≠ prefAMVal cfg b then
    prefAMVal cfg a - prefAMVal cfg b
  else eligCnt a - eligCnt b

/-- `rankCandidates` from scheduler.js. -/
def rankCandidates (cfg : Config) (eligCnt : String → Int)
    (candidates : List String) (shift : Shift) (st : SState) : List String :=
  jsSortBy (rankCmp cfg eligCnt st shift) candidates

/-! ### Eligibility profiler -/

/-- The pre-computed per-actor eligible-opportunity count (fairness
tie-break), per occurrence in an approved list. -/
def eligibleCountF (weeks : List (List WeekDay)) (weekPlans : Nat → Option WeekPlan)
    (avail : String → String → RawAvail) (cfg : Config) (actor : String) : Int :=
  (((List.range weeks.length).map (fun wi =>
    let plan := resolvePlan weeks weekPlans cfg wi
    ((SLOT_KEYS.map (fun sk =>
      match plan sk with
      | none => 0
      | some date =>
        ((SHIFTS.map (fun sh =>
          (((cfg.slotScenarios sk).map (fun scn =>
            ((cfg.scenarioActors scn).filter (fun a =>
              a = actor && isAvailableForShift (avail date a) sh &&
              !(allowedDaysViolated (cfg.actorConstraints a) date))).length)).sum))).sum))).sum))).sum : Nat)

/-! ### Slot enumeration and skeleton -/

/-- The scenario cells of one shift of one day slot, all `null`, in JS object
key order (first occurrence wins on duplicates). -/
def initCells (cfg : Config) (sk : SlotKey) : List (String × Option String) :=
  (cfg.slotScenarios sk).foldl (fun m scn => aSet scn none m) []

/-- One week of the skeleton. -/
def initWeek (cfg : Config) (plan : WeekPlan) : List (SlotKey × Option DaySched) :=
  SLOT_KEYS.map (fun sk =>
    (sk, match plan sk with
      | none => none
      | some date => some { date := date, am := initCells cfg sk, pm := initCells cfg sk }))

/-- The schedule skeleton (all cells `null`). -/
def initSchedule (weeks : List (List WeekDay)) (weekPlans : Nat → Option WeekPlan)
    (cfg : Config) : Schedule :=
  (List.range weeks.length).map (fun wi =>
    (wi, initWeek cfg (resolvePlan weeks weekPlans cfg wi)))

/-- `allSlots`: the flat slot enumeration, in weeks → daySlots → shifts →
scenarios order. -/
def enumSlots (weeks : List (List WeekDay)) (weekPlans : Nat → Option WeekPlan)
    (cfg : Config) : List Slot :=
  (List.range weeks.length).flatMap (fun wi =>
    let plan := resolvePlan weeks weekPlans cfg wi
    SLOT_KEYS.flatMap (fun sk =>
      match plan sk with
      | none => []
      | some date =>
        SHIFTS.flatMap (fun sh =>
          (cfg.slotScenarios sk).map (fun scn => ⟨wi, sk, sh, scn, date⟩))))

/-- `freshState` from scheduler.js. -/
def freshState (weeks : List (List WeekDay)) (weekPlans : Nat → Option WeekPlan)
    (cfg : Config) : SState :=
  { schedule := initSchedule weeks weekPlans cfg
    wa := fun _ _ _ => []
    usageCount := fun _ => 0
    pmCount := fun _ => 0
    backtrackCount := 0 }

/-! ### List indexing helpers (mirroring JS array index operations) -/

def lset {α : Type} : List α → Nat → α → List α
  | [], _, _ => []
  | _ :: rest, 0, v => v :: rest
  | x :: rest, n + 1, v => x :: lset rest n v

/-- `[a[i], a[j]] = [a[j], a[i]]`. -/
def lswap {α : Type} (l : List α) (i j : Nat) : List α :=
  match l.get? i, l.get? j with
  | some x, some y => lset (lset l i y) j x
  | _, _ => l

/-! ### Backtracking search -/

/-- One MRV comparison step (`cnt < mrvCount`, with `none` as `Infinity`). -/
def mrvStep (cntF : Nat → Nat) (acc : Nat × Option Nat) (i : Nat) : Nat × Option Nat :=
  match acc.2 with
  | none => (i, some (cntF i))
  | some best => if cntF i < best then (i, some (cntF i)) else acc

/-- The MRV scan: index (earliest wins) of the slot with the fewest eligible
candidates among positions `idx .. idx+cnt-1`. -/
def mrvScan (cfg : Config) (avail : String → String → RawAvail) (relax : Nat)
    (slots : List Slot) (idx cnt : Nat) (st : SState) : Nat :=
  ((List.range' idx cnt).foldl
    (mrvStep (fun i =>
      (getEligible cfg avail ((slots.get? i).getD dSlot) st relax).length))
    (idx, none)).1

/-- The forward check: no slot among positions `idx+1 .. idx+cnt` may drop
to zero eligible candidates. -/
def forwardOk (cfg : Config) (avail : String → String → RawAvail) (relax : Nat)
    (slots : List Slot) (idx cnt : Nat) (st : SState) : Bool :=
  (List.range' (idx + 1) cnt).all (fun i =>
    !(getEligible cfg avail ((slots.get? i).getD dSlot) st relax).isEmpty)

/-- The candidate loop of `backtrack`: try each ranked candidate in order;
`next` is the recursive call at position `idx + 1`. -/
def btTry (cfg : Config) (avail : String → String → RawAvail) (relax : Nat)
    (next : List Slot → SState → Bool × List Slot × SState)
    (fwdCnt idx : Nat) (slot : Slot) :
    List String → List Slot → SState → Bool × List Slot × SState
  | [], slots, st => (false, slots, st)
  | c :: rest, slots, st =>
    let st1 := applyAssign st slot c
    if forwardOk cfg avail relax slots idx fwdCnt st1 then
      match next slots st1 with
      | (true, slots', st') => (true, slots', st')
      | (false, slots', st') =>
        btTry cfg avail relax next fwdCnt idx slot rest slots' (undoAssign st' slot c)
    else btTry cfg avail relax next fwdCnt idx slot rest slots (undoAssign st1 slot c)

/-- `backtrack` from scheduler.js, with the remaining-slot count
`rem = slots.length - idx` made the structural recursion argument
(all operations preserve the array's length, so `rem = 0` is exactly the
`idx === slots.length` success test). -/
def btGo (cfg : Config) (avail : String → String → RawAvail)
    (eligCnt : String → Int) (relax : Nat) :
    Nat → List Slot → Nat → SState → Bool × List Slot × SState
  | 0, slots, _, st => (true, slots, st)
  | rem + 1, slots, idx, st =>
    let st := { st with backtrackCount := st.backtrackCount + 1 }
    if 50000 < st.backtrackCount then (false, slots, st)
    else
      let m := mrvScan cfg avail relax slots idx (rem + 1) st
      let slots2 := lswap slots idx m
      let slot := (slots2.get? idx).getD dSlot
      let cands :=
        rankCandidates cfg eligCnt (getEligible cfg avail slot st relax) slot.shift st
      if cands.isEmpty then (false, lswap slots2 idx m, st)
      else
        match btTry cfg avail relax
            (fun sl s => btGo cfg avail eligCnt relax rem sl (idx + 1) s)
            rem idx slot cands slots2 st with
        | (true, slots', st') => (true, slots', st')
        | (false, slots', st') => (false, lswap slots' idx m, st')

/-- One relaxation-level attempt: a fresh state and a full backtracking
search over a copy of `allSlots`. -/
def runAttempt (weeks : List (List WeekDay)) (weekPlans : Nat → Option WeekPlan)
    (avail : String → String → RawAvail) (cfg : Config) (relax : Nat) :
    Bool × List Slot × SState :=
  let allSlots := enumSlots weeks weekPlans cfg
  btGo cfg avail (eligibleCountF weeks weekPlans avail cfg) relax
    allSlots.length allSlots 0 (freshState weeks weekPlans cfg)

/-! ### Greedy fallback and diagnostics -/

/-- `candidateCount` from scheduler.js. -/
def candidateCount (scenario : String) (dayAvail : String → RawAvail)
    (scenarioActors : String → List String) (shift : Shift) : Nat :=
  ((scenarioActors scenario).filter (fun actor =>
    isAvailableForShift (dayAvail actor) shift)).length

/-- `Math.round` on a non-negative rational. -/
def jsRound (q : Rat) : Int := (q + 1 / 2).floor

/-- `explainElim` from scheduler.js: the first failing strict-level reason
for an approved actor, or `none` if the actor is eligible. -/
def explainElim (cfg : Config) (avail : String → String → RawAvail)
    (actor : String) (slot : Slot) (st : SState) : Option String :=
  let dayAvail := avail slot.date
  let w := st.wa slot.wi
  let ac := cfg.actorConstraints actor
  if !isAvailableForShift (dayAvail actor) slot.shift then
    some (match normalizeAvail (dayAvail actor) with
      | some norm =>
        "Only available " ++ (if norm = "am" then "AM" else "PM") ++ " on " ++
          fmtDateShort slot.date
      | none => "Not marked available on " ++ fmtDateShort slot.date)
  else if !(w slot.shift actor).isEmpty then
    some ("Already used in " ++ slot.shift.str ++ " (" ++
      String.intercalate ", " (w slot.shift actor) ++ ")")
  else if allowedDaysViolated ac slot.date then
    some ("Only available on " ++
      String.intercalate "/" ((ac.map AConstraint.allowedDays).getD []) ++
      " (this is " ++ dowLong slot.date ++ ")")
  else
    let pmMsg : Option String :=
      if slot.shift = Shift.PM then
        match ac with
        | some c =>
          match c.maxPMRatio with
          | some r =>
            if r = 0 then some "PM not permitted"
            else if 0 < st.usageCount actor ∧
                r ≤ (st.pmCount actor : Rat) / (st.usageCount actor : Rat) then
              some ("PM cap reached (" ++ toString (jsRound (r * 100)) ++ "% max)")
            else none
          | none => none
        | none => none
      else none
    match pmMsg with
    | some msg => some msg
    | none =>
      if hasConflict actor slot.scenario slot.shift w cfg.conflicts then
        some "Conflict rule with already-assigned scenario"
      else none

/-- A structured diagnostic record pushed by the greedy fallback
(the JS `weekKey` string `week${wi}` is modelled by `wi`). -/
structure ErrRec where
  slotLabel : String
  scenario : String
  shift : Shift
  date : String
  weekKey : Nat
  slotKey : SlotKey
  approvedActors : List String
  eliminations : List (String × String)
  suggestion : String
deriving DecidableEq, Repr

/-- The diagnostic record for one unfillable (slot, scenario) pair. -/
def mkErr (cfg : Config) (avail : String → String → RawAvail)
    (slot : Slot) (st : SState) : ErrRec :=
  let approved := cfg.scenarioActors slot.scenario
  let eliminations := approved.filterMap (fun actor =>
    (explainElim cfg avail actor slot st).map (fun r => (actor, r)))
  let filledCount := approved.length - eliminations.length
  { slotLabel := "Wk" ++ toString (slot.wi + 1) ++ " " ++ fmtDateShort slot.date ++
      " " ++ slot.shift.str
    scenario := slot.scenario
    shift := slot.shift
    date := slot.date
    weekKey := slot.wi
    slotKey := slot.slotKey
    approvedActors := approved
    eliminations := eliminations
    suggestion :=
      if filledCount = 0 then
        "All " ++ toString approved.length ++ " approved actor" ++
          (if approved.length ≠ 1 then "s" else "") ++
          " blocked. Approve more actors for " ++ slot.scenario ++
          " or adjust availability."
      else
        toString filledCount ++ " actor" ++ (if filledCount ≠ 1 then "s" else "") ++
          " eligible but already placed this shift. Approve more actors for " ++
          slot.scenario ++ "." }

/-- The innermost fallback loop: each scenario of one (day, shift), in
scarcity order. -/
def fbScens (cfg : Config) (avail : String → String → RawAvail)
    (eligCnt : String → Int) (wi : Nat) (sk : SlotKey) (date : String) (sh : Shift) :
    List String → SState → List ErrRec → SState × List ErrRec
  | [], st, errs => (st, errs)
  | scn :: rest, st, errs =>
    let slot : Slot := ⟨wi, sk, sh, scn, date⟩
    let candidates :=
      rankCandidates cfg eligCnt (getEligible cfg avail slot st 0) sh st
    match candidates with
    | [] => fbScens cfg avail eligCnt wi sk date sh rest st
        (errs ++ [mkErr cfg avail slot st])
    | c :: _ => fbScens cfg avail eligCnt wi sk date sh rest (applyAssign st slot c) errs

/-- The per-shift fallback loop: scenarios sorted ascending by
approved-and-available candidate count. -/
def fbShifts (cfg : Config) (avail : String → String → RawAvail)
    (eligCnt : String → Int) (wi : Nat) (sk : SlotKey) (date : String) :
    List Shift → SState → List ErrRec → SState × List ErrRec
  | [], st, errs => (st, errs)
  | sh :: rest, st, errs =>
    let scenarioOrder := jsSortBy
      (fun a b => (candidateCount a (avail date) cfg.scenarioActors sh : Int) -
        (candidateCount b (avail date) cfg.scenarioActors sh : Int))
      (cfg.slotScenarios sk)
    let (st', errs') := fbScens cfg avail eligCnt wi sk date sh scenarioOrder st errs
    fbShifts cfg avail eligCnt wi sk date rest st' errs'

/-- The per-day fallback loop. -/
def fbSlots (cfg : Config) (avail : String → String → RawAvail)
    (eligCnt : String → Int) (wi : Nat) (plan : WeekPlan) :
    List SlotKey → SState → List ErrRec → SState × List ErrRec
  | [], st, errs => (st, errs)
  | sk :: rest, st, errs =>
    match plan sk with
    | none => fbSlots cfg avail eligCnt wi plan rest st errs
    | some date =>
      let (st', errs') := fbShifts cfg avail eligCnt wi sk date SHIFTS st errs
      fbSlots cfg avail eligCnt wi plan rest st' errs'

/-- The per-week fallback loop. -/
def fbWeeks (weeks : List (List WeekDay)) (weekPlans : Nat → Option WeekPlan)
    (avail : String → String → RawAvail) (cfg : Config) (eligCnt : String → Int) :
    List Nat → SState → List ErrRec → SState × List ErrRec
  | [], st, errs => (st, errs)
  | wi :: rest, st, errs =>
    let plan := resolvePlan weeks weekPlans cfg wi
    let (st', errs') := fbSlots cfg avail eligCnt wi plan SLOT_KEYS st errs
    fbWeeks weeks weekPlans avail cfg eligCnt rest st' errs'

/-- The greedy fallback: strict-level fills plus diagnostics. -/
def fallbackRun (weeks : List (List WeekDay)) (weekPlans : Nat → Option WeekPlan)
    (avail : String → String → RawAvail) (cfg : Config) : Schedule × List ErrRec :=
  let (st, errs) := fbWeeks weeks weekPlans avail cfg
    (eligibleCountF weeks weekPlans avail cfg)
    (List.range weeks.length) (freshState weeks weekPlans cfg) []
  (st.schedule, errs)

/-- `generateSchedule` from scheduler.js: backtracking at relaxation levels
0 to 3, first success wins with an empty error list; otherwise the greedy
fallback result. -/
def generateSchedule (weeks : List (List WeekDay)) (weekPlans : Nat → Option WeekPlan)
    (avail : String → String → RawAvail) (cfg : Config) : Schedule × List ErrRec :=
  match runAttempt weeks weekPlans avail cfg 0 with
  | (true, _, st) => (st.schedule, [])
  | _ =>
  match runAttempt weeks weekPlans avail cfg 1 with
  | (true, _, st) => (st.schedule, [])
  | _ =>
  match runAttempt weeks weekPlans avail cfg 2 with
  | (true, _, st) => (st.schedule, [])
  | _ =>
  match runAttempt weeks weekPlans avail cfg 3 with
  | (true, _, st) => (st.schedule, [])
  | _ => fallbackRun weeks weekPlans avail cfg

end CIT

namespace CIT

/-! ## Association-list and cell lemmas -/

theorem aGet_aSet_self {α β : Type} [DecidableEq α] (k : α) (v : β) (l : List (α × β)) :
    aGet k (aSet k v l) = some v := by
  induction l with
  | nil => simp [aSet, aGet]
  | cons p rest ih =>
    by_cases h : p.1 = k
    · simp [aSet, aGet, h]
    · simp only [aSet, h, if_false]
      simpa [aGet, h] using ih

theorem aGet_aSet_ne {α β : Type} [DecidableEq α] {k k' : α} (h : k' ≠ k) (v : β)
    (l : List (α × β)) : aGet k' (aSet k v l) = aGet k' l := by
  induction l with
  | nil => simp [aSet, aGet, Ne.symm h]
  | cons p rest ih =>
    obtain ⟨k1, v1⟩ := p
    by_cases hp : k1 = k
    · subst hp
      simp [aSet, aGet, Ne.symm h]
    · simp [aSet, aGet, hp, ih]

theorem aGet_mapAt_self {α β : Type} [DecidableEq α] (k : α) (f : β → β)
    (l : List (α × β)) : aGet k (mapAt k f l) = (aGet k l).map f := by
  induction l with
  | nil => simp [mapAt, aGet]
  | cons p rest ih =>
    obtain ⟨k1, v1⟩ := p
    rw [mapAt]
    by_cases h : k1 = k
    · subst h
      rw [if_pos rfl]
      simp [aGet]
    · rw [if_neg h]
      simp [aGet, h, ih]

theorem aGet_mapAt_ne {α β : Type} [DecidableEq α] {k k' : α} (h : k' ≠ k) (f : β → β)
    (l : List (α × β)) : aGet k' (mapAt k f l) = aGet k' l := by
  induction l with
  | nil => simp [mapAt, aGet]
  | cons p rest ih =>
    obtain ⟨k1, v1⟩ := p
    rw [mapAt]
    by_cases hp : k1 = k
    · subst hp
      rw [if_pos rfl]
      simp [aGet, Ne.symm h, ih]
    · rw [if_neg hp]
      by_cases hq : k1 = k' <;> simp [aGet, hq, ih]

/-- The single cell-update law: assignment hits exactly its own position,
provided the (week, slot) path is live; everything else is unchanged. -/
theorem cellVal_cellAssign (s : Schedule) (wi : Nat) (sk : SlotKey) (sh : Shift)
    (scn : String) (v : Option String) (q : Pos) :
    cellVal (cellAssign s wi sk sh scn v) q =
      if q = (wi, sk, sh, scn) ∧ pathOk s wi sk = true then some v else cellVal s q := by
  obtain ⟨qw, qk, qs, qn⟩ := q
  by_cases hw : qw = wi
  · subst hw
    rw [cellVal, cellAssign, aGet_mapAt_self]
    rw [cellVal, pathOk]
    cases hwk : aGet qw s with
    | none => simp
    | some wk =>
      simp only [Option.map_some']
      by_cases hk : qk = sk
      · subst hk
        rw [aGet_mapAt_self]
        cases hsk : aGet qk wk with
        | none => simp
        | some od =>
          cases od with
          | none => simp
          | some ds =>
            simp only [Option.map_some']
            by_cases hs : qs = sh
            · subst hs
              cases hqs : qs with
              | AM =>
                by_cases hn : qn = scn
                · subst hn
                  simp [DaySched.byShift, aGet_aSet_self]
                · simp [DaySched.byShift, aGet_aSet_ne hn, hn]
              | PM =>
                by_cases hn : qn = scn
                · subst hn
                  simp [DaySched.byShift, aGet_aSet_self]
                · simp [DaySched.byShift, aGet_aSet_ne hn, hn]
            · cases hqs2 : qs <;> cases hsh2 : sh <;>
                simp_all [DaySched.byShift]
      · rw [aGet_mapAt_ne hk]
        simp [hk]
  · rw [cellVal, cellAssign, aGet_mapAt_ne hw, cellVal]
    simp [hw]

theorem pathOk_cellAssign (s : Schedule) (wi : Nat) (sk : SlotKey) (sh : Shift)
    (scn : String) (v : Option String) (qw : Nat) (qk : SlotKey) :
    pathOk (cellAssign s wi sk sh scn v) qw qk = pathOk s qw qk := by
  by_cases hw : qw = wi
  · subst hw
    rw [pathOk, cellAssign, aGet_mapAt_self, pathOk]
    cases hwk : aGet qw s with
    | none => simp
    | some wk =>
      simp only [Option.map_some']
      by_cases hk : qk = sk
      · subst hk
        rw [aGet_mapAt_self]
        cases hsk : aGet qk wk with
        | none => simp
        | some od => cases od <;> simp
      · rw [aGet_mapAt_ne hk]
  · rw [pathOk, cellAssign, aGet_mapAt_ne hw, pathOk]

/-! ## Stable-sort lemmas -/

theorem jsSortBy_perm {α : Type} (cmp : α → α → Int) (l : List α) :
    List.Perm (jsSortBy cmp l) l :=
  List.perm_insertionSort _ l

theorem mem_jsSortBy {α : Type} (cmp : α → α → Int) (l : List α) (x : α) :
    x ∈ jsSortBy cmp l ↔ x ∈ l :=
  (jsSortBy_perm cmp l).mem_iff

theorem jsSortBy_sorted {α : Type} (cmp : α → α → Int)
    (htot : ∀ a b, cmp a b ≤ 0 ∨ cmp b a ≤ 0)
    (htr : ∀ a b c, cmp a b ≤ 0 → cmp b c ≤ 0 → cmp a c ≤ 0) (l : List α) :
    List.Sorted (fun a b => cmp a b ≤ 0) (jsSortBy cmp l) := by
  haveI : IsTotal α (fun a b => cmp a b ≤ 0) := ⟨htot⟩
  haveI : IsTrans α (fun a b => cmp a b ≤ 0) := ⟨fun a b c => htr a b c⟩
  exact List.sorted_insertionSort _ l

theorem filter_orderedInsert_cmp {α : Type} (cmp : α → α → Int) (P : α → Bool)
    (hcl : ∀ x y, P x = true → P y = true → cmp x y ≤ 0) (a : α) :
    ∀ l : List α,
      (List.orderedInsert (fun x y => cmp x y ≤ 0) a l).filter P =
        if P a then a :: l.filter P else l.filter P
  | [] => by
    by_cases h : P a <;> simp [List.orderedInsert, List.filter, h]
  | b :: l => by
    by_cases hab : cmp a b ≤ 0
    · cases ha : P a <;>
        simp [List.orderedInsert, if_pos hab, List.filter_cons, ha]
    · have step := filter_orderedInsert_cmp cmp P hcl a l
      cases ha : P a with
      | true =>
        have hb : P b = false := by
          cases hb : P b with
          | true => exact absurd (hcl a b ha hb) hab
          | false => rfl
        simp [List.orderedInsert, if_neg hab, List.filter_cons, hb, step, ha]
      | false =>
        cases hb : P b <;>
          simp [List.orderedInsert, if_neg hab, List.filter_cons, hb, step, ha]

theorem filter_jsSortBy {α : Type} (cmp : α → α → Int) (P : α → Bool)
    (hcl : ∀ x y, P x = true → P y = true → cmp x y ≤ 0) :
    ∀ l : List α, (jsSortBy cmp l).filter P = l.filter P
  | [] => rfl
  | b :: l => by
    have ih := filter_jsSortBy cmp P hcl l
    unfold jsSortBy at ih ⊢
    rw [List.insertionSort, filter_orderedInsert_cmp cmp P hcl, ih]
    by_cases hb : P b <;> simp [List.filter_cons, hb]

end CIT

namespace CIT

/-! ## C8: availability normalization -/

theorem normalizeAvail_eq_some {v : RawAvail} {n : String}
    (h : normalizeAvail v = some n) : n = "both" ∨ n = "am" ∨ n = "pm" := by
  unfold normalizeAvail at h
  split_ifs at h <;> simp_all

/-- C8: `normalizeAvail` maps `true` and `"both"` to both, `"am"` to
morning-only, `"pm"` to evening-only, and every other value (booleans,
absent values and unrecognized strings included) to unavailable; and
`isAvailableForShift` holds exactly when the normalized value is both or
matches the requested shift. -/
theorem availability_normalization_spec :
    (∀ v : RawAvail,
      (normalizeAvail v = some "both" ↔ (v = RawAvail.bool true ∨ v = RawAvail.str "both")) ∧
      (normalizeAvail v = some "am" ↔ v = RawAvail.str "am") ∧
      (normalizeAvail v = some "pm" ↔ v = RawAvail.str "pm") ∧
      (normalizeAvail v = none ↔
        v ≠ RawAvail.bool true ∧ v ≠ RawAvail.str "both" ∧ v ≠ RawAvail.str "am" ∧
          v ≠ RawAvail.str "pm")) ∧
    (∀ (v : RawAvail) (shift : Shift),
      isAvailableForShift v shift = true ↔
        (normalizeAvail v = some "both" ∨
          (normalizeAvail v = some "am" ∧ shift = Shift.AM) ∨
          (normalizeAvail v = some "pm" ∧ shift = Shift.PM))) := by
  constructor
  · intro v
    cases v with
    | undef => refine ⟨?_, ?_, ?_, ?_⟩ <;> simp [normalizeAvail]
    | bool b => cases b <;> (refine ⟨?_, ?_, ?_, ?_⟩ <;> simp [normalizeAvail])
    | str s =>
      by_cases hb : s = "both"
      · subst hb
        refine ⟨?_, ?_, ?_, ?_⟩ <;> simp [normalizeAvail]
      · by_cases ha : s = "am"
        · subst ha
          refine ⟨?_, ?_, ?_, ?_⟩ <;> simp [normalizeAvail]
        · by_cases hp : s = "pm"
          · subst hp
            refine ⟨?_, ?_, ?_, ?_⟩ <;> simp [normalizeAvail]
          · refine ⟨?_, ?_, ?_, ?_⟩ <;> simp [normalizeAvail, hb, ha, hp]
  · intro v shift
    unfold isAvailableForShift
    cases hn : normalizeAvail v with
    | none => simp
    | some n =>
      rcases normalizeAvail_eq_some hn with rfl | rfl | rfl <;>
        cases shift <;> simp

/-! ## C7: candidate ranking -/

/-- The three-part ranking key from the specification: cumulative usage
count, then (for evening shifts only) the `preferMorning` flag, then the
precomputed eligible count. -/
def rankKey (cfg : Config) (eligCnt : String → Int) (st : SState) (shift : Shift)
    (a : String) : Int × Int × Int :=
  (st.usageCount a, if shift = Shift.PM then prefAMVal cfg a else 0, eligCnt a)

/-- Lexicographic order on ranking keys. -/
def lexLe3 (x y : Int × Int × Int) : Prop :=
  x.1 < y.1 ∨ (x.1 = y.1 ∧ (x.2.1 < y.2.1 ∨ (x.2.1 = y.2.1 ∧ x.2.2 ≤ y.2.2)))

theorem rankCmp_le_iff (cfg : Config) (eligCnt : String → Int) (st : SState)
    (shift : Shift) (a b : String) :
    rankCmp cfg eligCnt st shift a b ≤ 0 ↔
      lexLe3 (rankKey cfg eligCnt st shift a) (rankKey cfg eligCnt st shift b) := by
  unfold rankCmp rankKey lexLe3
  by_cases hPM : shift = Shift.PM <;> split_ifs <;> simp_all <;> omega

theorem rankKey_eq_cmp_le (cfg : Config) (eligCnt : String → Int) (st : SState)
    (shift : Shift) (a b : String)
    (h : rankKey cfg eligCnt st shift a = rankKey cfg eligCnt st shift b) :
    rankCmp cfg eligCnt st shift a b ≤ 0 := by
  rw [rankCmp_le_iff, h]
  unfold lexLe3
  omega

/-- C7: `rankCandidates` returns a permutation of the eligible candidates
that is sorted by ascending usage count, then (for PM shifts only) placing
`preferAM` candidates later, then ascending eligible count; candidates with
equal keys keep their original relative order (stable sort), expressed by
filter invariance over every key class. -/
theorem rankCandidates_ordering (cfg : Config) (eligCnt : String → Int)
    (st : SState) (shift : Shift) (cands : List String) :
    List.Perm (rankCandidates cfg eligCnt cands shift st) cands ∧
    List.Sorted
      (fun a b =>
        lexLe3 (rankKey cfg eligCnt st shift a) (rankKey cfg eligCnt st shift b))
      (rankCandidates cfg eligCnt cands shift st) ∧
    (∀ k : Int × Int × Int,
      (rankCandidates cfg eligCnt cands shift st).filter
          (fun a => decide (rankKey cfg eligCnt st shift a = k)) =
        cands.filter (fun a => decide (rankKey cfg eligCnt st shift a = k))) := by
  have htot : ∀ a b, rankCmp cfg eligCnt st shift a b ≤ 0 ∨
      rankCmp cfg eligCnt st shift b a ≤ 0 := by
    intro a b
    rw [rankCmp_le_iff, rankCmp_le_iff]
    unfold lexLe3
    omega
  have htr : ∀ a b c, rankCmp cfg eligCnt st shift a b ≤ 0 →
      rankCmp cfg eligCnt st shift b c ≤ 0 → rankCmp cfg eligCnt st shift a c ≤ 0 := by
    intro a b c
    rw [rankCmp_le_iff, rankCmp_le_iff, rankCmp_le_iff]
    unfold lexLe3
    omega
  refine ⟨jsSortBy_perm _ _, ?_, ?_⟩
  · have hs := jsSortBy_sorted (rankCmp cfg eligCnt st shift) htot htr cands
    exact hs.imp (fun h => (rankCmp_le_iff cfg eligCnt st shift _ _).mp h)
  · intro k
    refine filter_jsSortBy _ _ ?_ cands
    intro x y hx hy
    have hxk : rankKey cfg eligCnt st shift x = k := of_decide_eq_true hx
    have hyk : rankKey cfg eligCnt st shift y = k := of_decide_eq_true hy
    exact rankKey_eq_cmp_le cfg eligCnt st shift x y (hxk.trans hyk.symm)

/-! ## C5: determinism -/

/-- C5: `generateSchedule` is a pure function of its four inputs: calls on
identical inputs return identical schedules and error lists. -/
theorem generateSchedule_deterministic
    (w1 w2 : List (List WeekDay)) (p1 p2 : Nat → Option WeekPlan)
    (a1 a2 : String → String → RawAvail) (c1 c2 : Config)
    (hw : w1 = w2) (hp : p1 = p2) (ha : a1 = a2) (hc : c1 = c2) :
    generateSchedule w1 p1 a1 c1 = generateSchedule w2 p2 a2 c2 := by
  subst hw hp ha hc
  rfl

/-! ### Concrete inputs shared by witnesses and counterexamples -/

/-- Everyone available for both shifts. -/
def exAvail : String → String → RawAvail := fun _ _ => RawAvail.bool true

def exWeeks : List (List WeekDay) := [[⟨"2026-03-02", "Monday"⟩]]

def exPlans : Nat → Option WeekPlan :=
  fun wi =>
    if wi = 0 then
      some (fun sk => match sk with | .slot1 => some "2026-03-02" | _ => none)
    else none

/-- Two actors, one scenario on slot 1, one conflict rule. -/
def exCfg : Config :=
  { actors := ["A", "B"]
    scenarioActors := fun s => if s = "X" then ["A", "B"] else []
    slotScenarios := fun sk => match sk with | .slot1 => ["X"] | _ => []
    conflicts := [{ scope := "same_shift", actor_cannot_play := ["X", "Y"] }]
    actorConstraints := fun _ => none
    defaultDays := fun _ => "Tuesday" }

theorem generateSchedule_deterministic_witness :
    generateSchedule exWeeks exPlans exAvail exCfg =
      generateSchedule exWeeks exPlans exAvail exCfg :=
  generateSchedule_deterministic exWeeks exWeeks exPlans exPlans exAvail exAvail
    exCfg exCfg rfl rfl rfl rfl

end CIT

namespace CIT

/-! ## Characterization of the constraint filter -/

theorem eligOk_true_iff (cfg : Config) (avail : String → String → RawAvail)
    (slot : Slot) (st : SState) (relax : Nat) (a : String) :
    eligOk cfg avail slot st relax a = true ↔
      isAvailableForShift (avail slot.date a) slot.shift = true ∧
      st.wa slot.wi slot.shift a = [] ∧
      (relax < 3 →
        hasConflict a slot.scenario slot.shift (st.wa slot.wi) cfg.conflicts = false) ∧
      (relax < 2 → allowedDaysViolated (cfg.actorConstraints a) slot.date = false) ∧
      (relax < 1 → slot.shift = Shift.PM →
        pmRatioBars (cfg.actorConstraints a) st a = false) := by
  by_cases h1 : isAvailableForShift (avail slot.date a) slot.shift = true
  · cases hwa : st.wa slot.wi slot.shift a with
    | cons x xs => simp [eligOk, h1, hwa]
    | nil =>
      simp only [eligOk, h1, hwa, Bool.not_true, List.isEmpty_nil, Bool.not_false,
        if_false, if_true, Bool.false_eq_true]
      by_cases hr3 : relax < 3 <;>
        by_cases hb3 : hasConflict a slot.scenario slot.shift (st.wa slot.wi)
          cfg.conflicts = true <;>
        by_cases hr2 : relax < 2 <;>
        by_cases hb4 : allowedDaysViolated (cfg.actorConstraints a) slot.date = true <;>
        by_cases hr1 : relax < 1 <;>
        by_cases hpm : slot.shift = Shift.PM <;>
        by_cases hb5 : pmRatioBars (cfg.actorConstraints a) st a = true <;>
        simp [hr3, hb3, hr2, hb4, hr1, hpm, hb5]
  · have h1' : isAvailableForShift (avail slot.date a) slot.shift = false := by
      simpa using h1
    simp [eligOk, h1']

theorem mem_getEligible_iff (cfg : Config) (avail : String → String → RawAvail)
    (slot : Slot) (st : SState) (relax : Nat) (a : String) :
    a ∈ getEligible cfg avail slot st relax ↔
      a ∈ cfg.scenarioActors slot.scenario ∧
      isAvailableForShift (avail slot.date a) slot.shift = true ∧
      st.wa slot.wi slot.shift a = [] ∧
      (relax < 3 →
        hasConflict a slot.scenario slot.shift (st.wa slot.wi) cfg.conflicts = false) ∧
      (relax < 2 → allowedDaysViolated (cfg.actorConstraints a) slot.date = false) ∧
      (relax < 1 → slot.shift = Shift.PM →
        pmRatioBars (cfg.actorConstraints a) st a = false) := by
  rw [getEligible, List.mem_filter, eligOk_true_iff]

theorem getEligible_wa_empty {cfg : Config} {avail : String → String → RawAvail}
    {slot : Slot} {st : SState} {relax : Nat} {a : String}
    (h : a ∈ getEligible cfg avail slot st relax) :
    st.wa slot.wi slot.shift a = [] :=
  ((mem_getEligible_iff cfg avail slot st relax a).mp h).2.2.1

theorem getEligible_approved {cfg : Config} {avail : String → String → RawAvail}
    {slot : Slot} {st : SState} {relax : Nat} {a : String}
    (h : a ∈ getEligible cfg avail slot st relax) :
    a ∈ cfg.scenarioActors slot.scenario :=
  ((mem_getEligible_iff cfg avail slot st relax a).mp h).1

/-- At the strict level, a `maxPMRatio = 0` constraint bars every PM slot. -/
theorem getEligible_zero_ratio_pm {cfg : Config} {avail : String → String → RawAvail}
    {slot : Slot} {st : SState} {a : String} {c : AConstraint}
    (hc : cfg.actorConstraints a = some c) (hr : c.maxPMRatio = some 0)
    (hsh : slot.shift = Shift.PM) :
    a ∉ getEligible cfg avail slot st 0 := by
  intro h
  have hb := ((mem_getEligible_iff cfg avail slot st 0 a).mp h).2.2.2.2.2
    (by omega) hsh
  rw [hc] at hb
  simp [pmRatioBars, hr] at hb

/-! ## Apply/undo algebra -/

theorem waAdd_self (wa : Nat → Shift → String → List String) (wi : Nat) (sh : Shift)
    (a scn : String) : waAdd wa wi sh a scn wi sh a = setAdd scn (wa wi sh a) := by
  simp [waAdd]

theorem waAdd_ne (wa : Nat → Shift → String → List String) (wi : Nat) (sh : Shift)
    (a scn : String) (wi' : Nat) (sh' : Shift) (a' : String)
    (h : ¬(wi' = wi ∧ sh' = sh ∧ a' = a)) :
    waAdd wa wi sh a scn wi' sh' a' = wa wi' sh' a' := by
  simp [waAdd, h]

theorem waRemove_waAdd (wa : Nat → Shift → String → List String) (wi : Nat)
    (sh : Shift) (a scn : String) (h : wa wi sh a = []) :
    waRemove (waAdd wa wi sh a scn) wi sh a scn = wa := by
  funext wi' sh' a'
  by_cases hc : wi' = wi ∧ sh' = sh ∧ a' = a
  · obtain ⟨h1, h2, h3⟩ := hc
    subst h1; subst h2; subst h3
    simp [waRemove, waAdd, setAdd, h]
  · simp [waRemove, waAdd, hc]

theorem bump_cancel (a : String) (f : String → Int) :
    bump a (-1) (bump a 1 f) = f := by
  funext x
  by_cases h : x = a <;> simp [bump, h]

theorem undoAssign_applyAssign_wa (st : SState) (slot : Slot) (c : String)
    (h : st.wa slot.wi slot.shift c = []) :
    (undoAssign (applyAssign st slot c) slot c).wa = st.wa := by
  simp only [undoAssign, applyAssign]
  exact waRemove_waAdd st.wa slot.wi slot.shift c slot.scenario h

theorem undoAssign_applyAssign_usage (st : SState) (slot : Slot) (c : String) :
    (undoAssign (applyAssign st slot c) slot c).usageCount = st.usageCount := by
  simp only [undoAssign, applyAssign]
  exact bump_cancel c st.usageCount

theorem undoAssign_applyAssign_pm (st : SState) (slot : Slot) (c : String) :
    (undoAssign (applyAssign st slot c) slot c).pmCount = st.pmCount := by
  simp only [undoAssign, applyAssign]
  by_cases h : slot.shift = Shift.PM
  · simp [h, bump_cancel]
  · simp [h]

/-! ## The no-double-booking invariant -/

def posOf (s : Slot) : Pos := (s.wi, s.slotKey, s.shift, s.scenario)

/-- The search-state invariant: per (week, shift, actor) the scenario set has
at most one element, and every assigned cell is registered in it. -/
def InvC (sched : Schedule) (wa : Nat → Shift → String → List String) : Prop :=
  (∀ wi sh a, (wa wi sh a).length ≤ 1) ∧
  (∀ (wi : Nat) (sk : SlotKey) (sh : Shift) (scn a : String),
    cellVal sched (wi, sk, sh, scn) = some (some a) → scn ∈ wa wi sh a)

/-- Schedules relate by `SchedLE` when every cell is unchanged or nulled. -/
def SchedLE (s s' : Schedule) : Prop :=
  ∀ q : Pos, cellVal s' q = cellVal s q ∨ cellVal s' q = some none

theorem schedLE_refl (s : Schedule) : SchedLE s s := fun _ => Or.inl (Eq.refl _)

theorem SchedLE.trans {s1 s2 s3 : Schedule} (h1 : SchedLE s1 s2) (h2 : SchedLE s2 s3) :
    SchedLE s1 s3 := by
  intro q
  rcases h2 q with h | h
  · rw [h]
    exact h1 q
  · exact Or.inr h

theorem InvC_of_schedLE {sched sched' : Schedule}
    {wa : Nat → Shift → String → List String} (hi : InvC sched wa)
    (hs : SchedLE sched sched') : InvC sched' wa := by
  refine ⟨hi.1, fun wi sk sh scn a hc => ?_⟩
  rcases hs (wi, sk, sh, scn) with h | h
  · exact hi.2 wi sk sh scn a (h ▸ hc)
  · rw [h] at hc
    cases hc

theorem InvC_applyAssign {st : SState} {slot : Slot} {c : String}
    (hi : InvC st.schedule st.wa) (hw : st.wa slot.wi slot.shift c = []) :
    InvC (applyAssign st slot c).schedule (applyAssign st slot c).wa := by
  constructor
  · intro wi sh a
    by_cases hc : wi = slot.wi ∧ sh = slot.shift ∧ a = c
    · obtain ⟨h1, h2, h3⟩ := hc
      subst h1; subst h2; subst h3
      simp [applyAssign, waAdd, hw, setAdd]
    · simpa [applyAssign, waAdd, hc] using hi.1 wi sh a
  · intro wi sk sh scn a hc
    simp only [applyAssign] at hc ⊢
    rw [cellVal_cellAssign] at hc
    split_ifs at hc with hq
    · obtain ⟨hq1, _⟩ := hq
      simp only [Prod.mk.injEq] at hq1
      obtain ⟨e1, _, e3, e4⟩ := hq1
      simp only [Option.some.injEq] at hc
      subst e1; subst e3; subst e4; subst hc
      rw [waAdd_self]
      unfold setAdd
      split_ifs with hmem
      · exact hmem
      · simp
    · have hold := hi.2 wi sk sh scn a hc
      by_cases hk : wi = slot.wi ∧ sh = slot.shift ∧ a = c
      · obtain ⟨h1, h2, h3⟩ := hk
        subst h1; subst h2; subst h3
        rw [hw] at hold
        cases hold
      · rwa [waAdd_ne _ _ _ _ _ _ _ _ hk]

/-- The central invariant consequence: no actor holds two different
scenarios in the same week and shift. -/
theorem InvC_no_double {sched : Schedule} {wa : Nat → Shift → String → List String}
    (hi : InvC sched wa) {wi : Nat} {sk1 sk2 : SlotKey} {sh : Shift}
    {scn1 scn2 a : String}
    (h1 : cellVal sched (wi, sk1, sh, scn1) = some (some a))
    (h2 : cellVal sched (wi, sk2, sh, scn2) = some (some a)) : scn1 = scn2 := by
  have m1 := hi.2 wi sk1 sh scn1 a h1
  have m2 := hi.2 wi sk2 sh scn2 a h2
  have hlen := hi.1 wi sh a
  match hl : wa wi sh a, hlen' : (wa wi sh a).length with
  | [], _ =>
    rw [hl] at m1
    cases m1
  | [x], _ =>
    rw [hl] at m1 m2
    rcases List.mem_singleton.mp m1 with rfl
    rcases List.mem_singleton.mp m2 with rfl
    rfl
  | x :: y :: rest, _ =>
    rw [hl] at hlen
    simp at hlen

end CIT

namespace CIT

/-! ## List index lemmas -/

theorem lset_length {α : Type} : ∀ (l : List α) (i : Nat) (v : α),
    (lset l i v).length = l.length
  | [], _, _ => rfl
  | _ :: rest, 0, v => rfl
  | x :: rest, n + 1, v => by simp [lset, lset_length rest n v]

theorem get?_lset {α : Type} : ∀ (l : List α) (i j : Nat) (v : α),
    (lset l i v).get? j =
      if j = i then (if j < l.length then some v else none) else l.get? j
  | [], i, j, v => by simp [lset]
  | x :: rest, 0, 0, v => by simp [lset]
  | x :: rest, 0, j + 1, v => by simp [lset]
  | x :: rest, i + 1, 0, v => by simp [lset]
  | x :: rest, i + 1, j + 1, v => by
    simp only [lset, List.get?_cons_succ, List.length_cons]
    rw [get?_lset rest i j v]
    by_cases h : j = i <;> simp [h]

theorem lswap_length {α : Type} (l : List α) (i j : Nat) :
    (lswap l i j).length = l.length := by
  unfold lswap
  cases hx : l.get? i <;> cases hy : l.get? j <;>
    simp [lset_length]

theorem get?_lswap {α : Type} (l : List α) (i j : Nat) (hi : i < l.length)
    (hj : j < l.length) (n : Nat) :
    (lswap l i j).get? n =
      if n = i then l.get? j else if n = j then l.get? i else l.get? n := by
  cases hx : l.get? i with
  | none => exact absurd (List.get?_eq_none.mp hx) (by omega)
  | some x =>
    cases hy : l.get? j with
    | none => exact absurd (List.get?_eq_none.mp hy) (by omega)
    | some y =>
      unfold lswap
      rw [hx, hy, get?_lset, get?_lset, lset_length]
      rcases eq_or_ne n j with rfl | hnj
      · rcases eq_or_ne n i with rfl | hni
        · rw [hx] at hy
          injection hy with hxy
          subst hxy
          simp [hj, hx]
        · simp [hj, hni, hx]
      · rcases eq_or_ne n i with rfl | hni
        · simp [hnj, hi, hy]
        · simp [hnj, hni]

theorem lswap_lswap {α : Type} (l : List α) (i j : Nat) (hi : i < l.length)
    (hj : j < l.length) : lswap (lswap l i j) i j = l := by
  have hi' : i < (lswap l i j).length := by rw [lswap_length]; exact hi
  have hj' : j < (lswap l i j).length := by rw [lswap_length]; exact hj
  apply List.ext
  intro n
  rw [get?_lswap _ _ _ hi' hj' n]
  by_cases hni : n = i
  · rw [if_pos hni, get?_lswap l i j hi hj j, hni]
    by_cases hji : j = i
    · rw [if_pos hji, hji]
    · rw [if_neg hji, if_pos rfl]
  · rw [if_neg hni]
    by_cases hnj : n = j
    · rw [if_pos hnj, get?_lswap l i j hi hj i, if_pos rfl, hnj]
    · rw [if_neg hnj, get?_lswap l i j hi hj n, if_neg hni, if_neg hnj]

theorem mem_drop_lswap {α : Type} (l : List α) (i j : Nat) (hij : i ≤ j)
    (hj : j < l.length) (x : α) :
    x ∈ (lswap l i j).drop i ↔ x ∈ l.drop i := by
  have hi : i < l.length := lt_of_le_of_lt hij hj
  constructor
  · intro hx
    obtain ⟨n, hn⟩ := List.mem_iff_get?.mp hx
    rw [List.get?_drop, get?_lswap l i j hi hj] at hn
    split_ifs at hn with h1 h2
    · exact List.mem_iff_get?.mpr ⟨j - i, by
        rw [List.get?_drop, Nat.add_sub_cancel' hij]; exact hn⟩
    · exact List.mem_iff_get?.mpr ⟨0, by rw [List.get?_drop, Nat.add_zero]; exact hn⟩
    · exact List.mem_iff_get?.mpr ⟨n, by rw [List.get?_drop]; exact hn⟩
  · intro hx
    obtain ⟨n, hn⟩ := List.mem_iff_get?.mp hx
    rw [List.get?_drop] at hn
    rcases eq_or_ne (i + n) i with he | hne
    · refine List.mem_iff_get?.mpr ⟨j - i, ?_⟩
      rw [List.get?_drop, Nat.add_sub_cancel' hij, get?_lswap l i j hi hj j]
      rcases eq_or_ne j i with rfl | hji
      · rw [if_pos rfl]
        exact he ▸ hn
      · rw [if_neg hji, if_pos rfl]
        exact he ▸ hn
    · rcases eq_or_ne (i + n) j with he | hne2
      · refine List.mem_iff_get?.mpr ⟨0, ?_⟩
        rw [List.get?_drop, Nat.add_zero, get?_lswap l i j hi hj i, if_pos rfl]
        exact he ▸ hn
      · refine List.mem_iff_get?.mpr ⟨n, ?_⟩
        rw [List.get?_drop, get?_lswap l i j hi hj (i + n), if_neg hne, if_neg hne2]
        exact hn

theorem drop_eq_cons_of_get? {α : Type} : ∀ {l : List α} {i : Nat} {x : α},
    l.get? i = some x → l.drop i = x :: l.drop (i + 1)
  | [], i, x, h => by simp at h
  | y :: t, 0, x, h => by
    simp only [List.get?_cons_zero, Option.some.injEq] at h
    subst h
    rfl
  | y :: t, i + 1, x, h => by
    have := @drop_eq_cons_of_get? _ t i x (by simpa using h)
    simpa [List.drop] using this

end CIT

namespace CIT

/-! ## MRV scan lemmas -/

theorem mrvFold_spec (cntF : Nat → Nat) :
    ∀ (is : List Nat) (acc : Nat × Option Nat),
      (∀ c, acc.2 = some c → c = cntF acc.1) →
      ((is.foldl (mrvStep cntF) acc).1 = acc.1 ∨
        (is.foldl (mrvStep cntF) acc).1 ∈ is) ∧
      (∀ c, (is.foldl (mrvStep cntF) acc).2 = some c →
        c = cntF (is.foldl (mrvStep cntF) acc).1) ∧
      (∀ i ∈ is, ∀ c, (is.foldl (mrvStep cntF) acc).2 = some c → c ≤ cntF i) ∧
      (∀ c0, acc.2 = some c0 →
        ∃ c, (is.foldl (mrvStep cntF) acc).2 = some c ∧ c ≤ c0) ∧
      (acc.2.isSome → (is.foldl (mrvStep cntF) acc).2.isSome)
  | [], acc, hacc => by
    refine ⟨Or.inl rfl, hacc, ?_, ?_, ?_⟩
    · intro i hi
      cases hi
    · intro c0 h0
      exact ⟨c0, h0, le_refl c0⟩
    · exact fun h => h
  | i0 :: is, acc, hacc => by
    obtain ⟨a1, a2⟩ := acc
    have hred : ∀ acc' : Nat × Option Nat,
        ((i0 :: is).foldl (mrvStep cntF) acc') =
          is.foldl (mrvStep cntF) (mrvStep cntF acc' i0) := fun _ => rfl
    cases a2 with
    | none =>
      have hstep : mrvStep cntF (a1, none) i0 = (i0, some (cntF i0)) := rfl
      rw [hred, hstep]
      obtain ⟨ih1, ih2, ih3, ih4, ih5⟩ :=
        mrvFold_spec cntF is (i0, some (cntF i0)) (by intro c hc; simp at hc ⊢; omega)
      refine ⟨?_, ih2, ?_, ?_, fun _ => ih5 (by simp)⟩
      · rcases ih1 with h | h
        · exact Or.inr (by rw [h]; exact List.mem_cons_self i0 is)
        · exact Or.inr (List.mem_cons_of_mem i0 h)
      · intro i hi c hc
        rcases List.mem_cons.mp hi with rfl | hi'
        · obtain ⟨c2, hc2, hle2⟩ := ih4 (cntF i) rfl
          rw [hc] at hc2
          injection hc2 with he
          subst he
          exact hle2
        · exact ih3 i hi' c hc
      · intro c0 h0
        cases h0
    | some best =>
      have hbest : best = cntF a1 := hacc best rfl
      by_cases hlt : cntF i0 < best
      · have hstep : mrvStep cntF (a1, some best) i0 = (i0, some (cntF i0)) := by
          simp [mrvStep, hlt]
        rw [hred, hstep]
        obtain ⟨ih1, ih2, ih3, ih4, ih5⟩ :=
          mrvFold_spec cntF is (i0, some (cntF i0)) (by intro c hc; simp at hc ⊢; omega)
        refine ⟨?_, ih2, ?_, ?_, fun _ => ih5 (by simp)⟩
        · rcases ih1 with h | h
          · exact Or.inr (by rw [h]; exact List.mem_cons_self i0 is)
          · exact Or.inr (List.mem_cons_of_mem i0 h)
        · intro i hi c hc
          rcases List.mem_cons.mp hi with rfl | hi'
          · obtain ⟨c2, hc2, hle2⟩ := ih4 (cntF i) rfl
            rw [hc] at hc2
            injection hc2 with he
            subst he
            exact hle2
          · exact ih3 i hi' c hc
        · intro c0 h0
          injection h0 with h0'
          subst h0'
          obtain ⟨c, hc, hle⟩ := ih4 (cntF i0) rfl
          exact ⟨c, hc, le_trans hle (le_of_lt hlt)⟩
      · have hstep : mrvStep cntF (a1, some best) i0 = (a1, some best) := by
          simp [mrvStep, hlt]
        rw [hred, hstep]
        obtain ⟨ih1, ih2, ih3, ih4, ih5⟩ :=
          mrvFold_spec cntF is (a1, some best) hacc
        refine ⟨?_, ih2, ?_, ?_, fun _ => ih5 (by simp)⟩
        · rcases ih1 with h | h
          · exact Or.inl h
          · exact Or.inr (List.mem_cons_of_mem i0 h)
        · intro i hi c hc
          rcases List.mem_cons.mp hi with rfl | hi'
          · obtain ⟨c2, hc2, hle2⟩ := ih4 best rfl
            rw [hc] at hc2
            injection hc2 with he
            subst he
            omega
          · exact ih3 i hi' c hc
        · intro c0 h0
          injection h0 with h0'
          subst h0'
          exact ih4 best rfl

/-- The chosen MRV index lies in the scanned range and minimizes the
eligible-candidate count over it. -/
theorem mrvScan_spec (cfg : Config) (avail : String → String → RawAvail)
    (relax : Nat) (slots : List Slot) (idx cnt : Nat) (st : SState) (h : 0 < cnt) :
    (idx ≤ mrvScan cfg avail relax slots idx cnt st ∧
      mrvScan cfg avail relax slots idx cnt st < idx + cnt) ∧
    (∀ i, idx ≤ i → i < idx + cnt →
      (getEligible cfg avail
        ((slots.get? (mrvScan cfg avail relax slots idx cnt st)).getD dSlot)
        st relax).length ≤
      (getEligible cfg avail ((slots.get? i).getD dSlot) st relax).length) := by
  obtain ⟨n, rfl⟩ := Nat.exists_eq_succ_of_ne_zero (Nat.pos_iff_ne_zero.mp h)
  unfold mrvScan
  rw [List.range'_succ]
  set cntF := fun i =>
    (getEligible cfg avail ((slots.get? i).getD dSlot) st relax).length with hcnt
  have hred : ((idx :: List.range' (idx + 1) n).foldl (mrvStep cntF) (idx, none)) =
      (List.range' (idx + 1) n).foldl (mrvStep cntF) (idx, some (cntF idx)) := rfl
  obtain ⟨ih1, ih2, ih3, ih4, ih5⟩ :=
    mrvFold_spec cntF (List.range' (idx + 1) n) (idx, some (cntF idx))
      (by intro c hc; simp at hc ⊢; omega)
  rw [hred]
  set r := (List.range' (idx + 1) n).foldl (mrvStep cntF) (idx, some (cntF idx)) with hr
  have hrsome : r.2.isSome := ih5 (by simp)
  obtain ⟨c, hc⟩ := Option.isSome_iff_exists.mp hrsome
  constructor
  · rcases ih1 with h' | h'
    · simp at h'
      omega
    · have := List.mem_range'_1.mp h'
      omega
  · intro i hidx hlt
    have hcr : c = cntF r.1 := ih2 c hc
    show cntF r.1 ≤ cntF i
    rcases eq_or_lt_of_le hidx with heq | hgt
    · subst heq
      obtain ⟨c2, hc2, hle2⟩ := ih4 (cntF idx) rfl
      rw [hc] at hc2
      injection hc2 with he
      subst he
      rw [← hcr]
      exact hle2
    · have hi : i ∈ List.range' (idx + 1) n := List.mem_range'_1.mpr (by omega)
      have := ih3 i hi c hc
      rw [← hcr]
      exact this

end CIT

namespace CIT

/-! ## Search posts and step lemmas -/

/-- Path liveness is identical in two schedules. -/
def PathEq (s s' : Schedule) : Prop := ∀ w k, pathOk s' w k = pathOk s w k

theorem pathEq_refl (s : Schedule) : PathEq s s := fun _ _ => rfl

theorem pathEq_trans {s1 s2 s3 : Schedule} (h1 : PathEq s1 s2) (h2 : PathEq s2 s3) :
    PathEq s1 s3 := fun w k => (h2 w k).trans (h1 w k)

/-- Every slot of `L` holds an assigned (non-null) cell. -/
def AllAssigned (sched : Schedule) (L : List Slot) : Prop :=
  ∀ s ∈ L, ∃ a, cellVal sched (posOf s) = some (some a)

/-- Cells outside the positions of `L` are unchanged between two schedules. -/
def UntouchedOutside (L : List Slot) (s s' : Schedule) : Prop :=
  ∀ q : Pos, q ∉ L.map posOf → cellVal s' q = cellVal s q

theorem untouched_refl (L : List Slot) (s : Schedule) : UntouchedOutside L s s :=
  fun _ _ => rfl

theorem untouched_trans {L : List Slot} {s1 s2 s3 : Schedule}
    (h1 : UntouchedOutside L s1 s2) (h2 : UntouchedOutside L s2 s3) :
    UntouchedOutside L s1 s3 := fun q hq => (h2 q hq).trans (h1 q hq)

theorem untouched_mono {L L' : List Slot} {s s' : Schedule}
    (h : UntouchedOutside L s s') (hsub : ∀ p ∈ L.map posOf, p ∈ L'.map posOf) :
    UntouchedOutside L' s s' := fun q hq => h q (fun hmem => hq (hsub q hmem))

/-- Failure post of a search call: the slot array is restored exactly, the
logical state (`wa`, usage and PM counters) is restored exactly, every cell
is unchanged or nulled, cells outside the searched region are unchanged, and
the expansion counter is monotone. -/
def BTFailR (slots : List Slot) (region : List Slot) (st : SState)
    (r : Bool × List Slot × SState) : Prop :=
  r.2.1 = slots ∧ r.2.2.wa = st.wa ∧ r.2.2.usageCount = st.usageCount ∧
  r.2.2.pmCount = st.pmCount ∧ SchedLE st.schedule r.2.2.schedule ∧
  UntouchedOutside region st.schedule r.2.2.schedule ∧
  st.backtrackCount ≤ r.2.2.backtrackCount

/-- Success post of a search call: the invariant transfers, every slot of the
searched region is assigned, cells outside it are unchanged, and the
expansion counter is monotone. -/
def BTSuccR (region : List Slot) (st : SState)
    (r : Bool × List Slot × SState) : Prop :=
  (InvC st.schedule st.wa → InvC r.2.2.schedule r.2.2.wa) ∧
  AllAssigned r.2.2.schedule region ∧
  UntouchedOutside region st.schedule r.2.2.schedule ∧
  st.backtrackCount ≤ r.2.2.backtrackCount

theorem cellVal_applyAssign (st : SState) (slot : Slot) (c : String) (q : Pos) :
    cellVal (applyAssign st slot c).schedule q =
      if q = posOf slot ∧ pathOk st.schedule slot.wi slot.slotKey = true
      then some (some c) else cellVal st.schedule q :=
  cellVal_cellAssign st.schedule slot.wi slot.slotKey slot.shift slot.scenario
    (some c) q

theorem cellVal_undoAssign (st : SState) (slot : Slot) (c : String) (q : Pos) :
    cellVal (undoAssign st slot c).schedule q =
      if q = posOf slot ∧ pathOk st.schedule slot.wi slot.slotKey = true
      then some none else cellVal st.schedule q :=
  cellVal_cellAssign st.schedule slot.wi slot.slotKey slot.shift slot.scenario
    none q

theorem pathEq_applyAssign (st : SState) (slot : Slot) (c : String) :
    PathEq st.schedule (applyAssign st slot c).schedule := fun w k =>
  pathOk_cellAssign st.schedule slot.wi slot.slotKey slot.shift slot.scenario
    (some c) w k

theorem pathEq_undoAssign (st : SState) (slot : Slot) (c : String) :
    PathEq st.schedule (undoAssign st slot c).schedule := fun w k =>
  pathOk_cellAssign st.schedule slot.wi slot.slotKey slot.shift slot.scenario
    none w k

theorem mem_rankCandidates {cfg : Config} {eligCnt : String → Int}
    {cands : List String} {shift : Shift} {st : SState} {x : String} :
    x ∈ rankCandidates cfg eligCnt cands shift st ↔ x ∈ cands :=
  mem_jsSortBy _ cands x

theorem rankCandidates_isEmpty {cfg : Config} {eligCnt : String → Int}
    {cands : List String} {shift : Shift} {st : SState} :
    (rankCandidates cfg eligCnt cands shift st).isEmpty = true ↔ cands = [] := by
  rw [List.isEmpty_iff]
  constructor
  · intro h
    have := (jsSortBy_perm (rankCmp cfg eligCnt st shift) cands).symm
    rw [rankCandidates] at h
    rw [h] at this
    exact List.Perm.eq_nil this
  · intro h
    subst h
    rfl

end CIT

namespace CIT

/-- Restart composition: posts relative to a restored state `st2` lift to
posts relative to the original state `st`. -/
theorem btPost_compose {slots region : List Slot} {st st2 : SState}
    {r : Bool × List Slot × SState}
    (hwa : st2.wa = st.wa) (husage : st2.usageCount = st.usageCount)
    (hpm : st2.pmCount = st.pmCount) (hsched : SchedLE st.schedule st2.schedule)
    (hunt : UntouchedOutside region st.schedule st2.schedule)
    (hcnt : st.backtrackCount ≤ st2.backtrackCount)
    (hpe : PathEq st.schedule st2.schedule)
    (hfail : r.1 = false → BTFailR slots region st2 r)
    (hsucc : r.1 = true → BTSuccR region st2 r)
    (hpe2 : PathEq st2.schedule r.2.2.schedule) :
    (r.1 = false → BTFailR slots region st r) ∧
    (r.1 = true → BTSuccR region st r) ∧
    PathEq st.schedule r.2.2.schedule := by
  refine ⟨?_, ?_, pathEq_trans hpe hpe2⟩
  · intro h
    obtain ⟨f1, f2, f3, f4, f5, f6, f7⟩ := hfail h
    exact ⟨f1, f2.trans hwa, f3.trans husage, f4.trans hpm,
      SchedLE.trans hsched f5, untouched_trans hunt f6, le_trans hcnt f7⟩
  · intro h
    obtain ⟨s1, s2, s3, s4⟩ := hsucc h
    refine ⟨?_, s2, untouched_trans hunt s3, le_trans hcnt s4⟩
    intro hi
    have hi2 : InvC st2.schedule st.wa := InvC_of_schedLE hi hsched
    rw [← hwa] at hi2
    exact s1 hi2

/-- Undo right after apply: the slot's cell is nulled, everything else is
exactly restored. -/
theorem cellVal_undo_apply (st : SState) (slot : Slot) (c : String) (q : Pos) :
    cellVal (undoAssign (applyAssign st slot c) slot c).schedule q =
      if q = posOf slot ∧ pathOk st.schedule slot.wi slot.slotKey = true
      then some none else cellVal st.schedule q := by
  rw [cellVal_undoAssign]
  have hp : pathOk (applyAssign st slot c).schedule slot.wi slot.slotKey =
      pathOk st.schedule slot.wi slot.slotKey :=
    pathEq_applyAssign st slot c slot.wi slot.slotKey
  rw [hp, cellVal_applyAssign]
  by_cases hq : q = posOf slot ∧ pathOk st.schedule slot.wi slot.slotKey = true
  · simp [hq]
  · simp [hq]

/-- The candidate loop: each tried candidate is applied, checked forward,
recursed on and undone; the posts compose across the loop. -/
theorem btTry_post (cfg : Config) (avail : String → String → RawAvail) (relax : Nat)
    (next : List Slot → SState → Bool × List Slot × SState)
    (fwdCnt idx : Nat) (slot : Slot) (slots : List Slot)
    (hnext : ∀ st1 : SState,
      (∀ s ∈ slots.drop (idx + 1), pathOk st1.schedule s.wi s.slotKey = true) →
      ((next slots st1).1 = false →
        BTFailR slots (slots.drop (idx + 1)) st1 (next slots st1)) ∧
      ((next slots st1).1 = true →
        BTSuccR (slots.drop (idx + 1)) st1 (next slots st1)) ∧
      PathEq st1.schedule (next slots st1).2.2.schedule) :
    ∀ (cands : List String) (st : SState),
      (∀ c ∈ cands, st.wa slot.wi slot.shift c = []) →
      pathOk st.schedule slot.wi slot.slotKey = true →
      (∀ s ∈ slots.drop (idx + 1), pathOk st.schedule s.wi s.slotKey = true) →
      ((btTry cfg avail relax next fwdCnt idx slot cands slots st).1 = false →
        BTFailR slots (slot :: slots.drop (idx + 1)) st
          (btTry cfg avail relax next fwdCnt idx slot cands slots st)) ∧
      ((btTry cfg avail relax next fwdCnt idx slot cands slots st).1 = true →
        BTSuccR (slot :: slots.drop (idx + 1)) st
          (btTry cfg avail relax next fwdCnt idx slot cands slots st)) ∧
      PathEq st.schedule
        (btTry cfg avail relax next fwdCnt idx slot cands slots st).2.2.schedule
  | [], st, hc, hpok, hpokL => by
    refine ⟨?_, ?_, pathEq_refl _⟩
    · intro _
      exact ⟨rfl, rfl, rfl, rfl, schedLE_refl _, untouched_refl _ _, le_refl _⟩
    · intro h
      cases h
  | c :: rest, st, hc, hpok, hpokL => by
    have hcc : st.wa slot.wi slot.shift c = [] := hc c (List.mem_cons_self c rest)
    have hcrest : ∀ c' ∈ rest, st.wa slot.wi slot.shift c' = [] :=
      fun c' h' => hc c' (List.mem_cons_of_mem c h')
    have heq : btTry cfg avail relax next fwdCnt idx slot (c :: rest) slots st =
        (let st1 := applyAssign st slot c
         if forwardOk cfg avail relax slots idx fwdCnt st1 then
           match next slots st1 with
           | (true, slots', st') => (true, slots', st')
           | (false, slots', st') =>
             btTry cfg avail relax next fwdCnt idx slot rest slots'
               (undoAssign st' slot c)
         else btTry cfg avail relax next fwdCnt idx slot rest slots
           (undoAssign st1 slot c)) := rfl
    rw [heq]
    set st1 := applyAssign st slot c with hst1
    have hpe1 : PathEq st.schedule st1.schedule := pathEq_applyAssign st slot c
    have hcnt1 : st1.backtrackCount = st.backtrackCount := rfl
    by_cases hfwd : forwardOk cfg avail relax slots idx fwdCnt st1 = true
    · rw [if_pos hfwd]
      have hpokL1 : ∀ s ∈ slots.drop (idx + 1),
          pathOk st1.schedule s.wi s.slotKey = true := by
        intro s hs
        rw [hpe1 s.wi s.slotKey]
        exact hpokL s hs
      obtain ⟨hnf, hns, hnp⟩ := hnext st1 hpokL1
      rcases hnx : next slots st1 with ⟨b, slots', st'⟩
      rw [hnx] at hnf hns hnp
      cases b with
      | true =>
        obtain ⟨s1, s2, s3, s4⟩ := hns rfl
        refine ⟨?_, ?_, ?_⟩
        · intro h
          cases h
        · intro _
          refine ⟨?_, ?_, ?_, ?_⟩
          · intro hi
            exact s1 (InvC_applyAssign hi hcc)
          · intro s hs
            rcases List.mem_cons.mp hs with hhead | hs'
            · rw [hhead]
              rcases Classical.em (posOf slot ∈ (slots.drop (idx + 1)).map posOf)
                with hpos | hpos
              · obtain ⟨s'', hs'', hpos''⟩ := List.mem_map.mp hpos
                obtain ⟨a, ha⟩ := s2 s'' hs''
                exact ⟨a, hpos'' ▸ ha⟩
              · refine ⟨c, ?_⟩
                have hu := s3 (posOf slot) hpos
                rw [hu, cellVal_applyAssign]
                simp [hpok]
            · exact s2 s hs'
          · intro q hq
            have hq1 : q ∉ (slots.drop (idx + 1)).map posOf := by
              intro hmem
              exact hq (by rw [List.map_cons]; exact List.mem_cons_of_mem _ hmem)
            have hq2 : q ≠ posOf slot := by
              intro he
              refine hq ?_
              rw [List.map_cons, he]
              exact List.mem_cons_self _ _
            have hu := s3 q hq1
            rw [hu, cellVal_applyAssign]
            simp [hq2]
          · calc st.backtrackCount = st1.backtrackCount := hcnt1.symm
              _ ≤ st'.backtrackCount := s4
        · exact pathEq_trans hpe1 hnp
      | false =>
        obtain ⟨f1, f2, f3, f4, f5, f6, f7⟩ := hnf rfl
        simp only at f1 f2 f3 f4 f5 f6 f7 hnp
        rw [f1]
        set st2 := undoAssign st' slot c with hst2
        have hwa2 : st2.wa = st.wa := by
          show waRemove st'.wa slot.wi slot.shift c slot.scenario = st.wa
          rw [f2]
          show waRemove (waAdd st.wa slot.wi slot.shift c slot.scenario)
            slot.wi slot.shift c slot.scenario = st.wa
          exact waRemove_waAdd st.wa slot.wi slot.shift c slot.scenario hcc
        have husage2 : st2.usageCount = st.usageCount := by
          show bump c (-1) st'.usageCount = st.usageCount
          rw [f3]
          show bump c (-1) (bump c 1 st.usageCount) = st.usageCount
          exact bump_cancel c st.usageCount
        have hpm2 : st2.pmCount = st.pmCount := by
          show (if slot.shift = Shift.PM then bump c (-1) st'.pmCount else st'.pmCount) =
            st.pmCount
          by_cases hsh : slot.shift = Shift.PM
          · rw [if_pos hsh, f4]
            show bump c (-1) (if slot.shift = Shift.PM then bump c 1 st.pmCount
              else st.pmCount) = st.pmCount
            rw [if_pos hsh]
            exact bump_cancel c st.pmCount
          · rw [if_neg hsh, f4]
            show (if slot.shift = Shift.PM then bump c 1 st.pmCount else st.pmCount) =
              st.pmCount
            rw [if_neg hsh]
        have hpath' : pathOk st'.schedule slot.wi slot.slotKey =
            pathOk st.schedule slot.wi slot.slotKey := by
          rw [pathEq_trans hpe1 hnp slot.wi slot.slotKey]
        have hcell2 : ∀ q : Pos, cellVal st2.schedule q =
            if q = posOf slot ∧ pathOk st.schedule slot.wi slot.slotKey = true
            then some none else cellVal st'.schedule q := by
          intro q
          rw [show cellVal st2.schedule q =
            cellVal (undoAssign st' slot c).schedule q from rfl]
          rw [cellVal_undoAssign, hpath']
        have hsched2 : SchedLE st.schedule st2.schedule := by
          intro q
          rw [hcell2 q]
          by_cases hq : q = posOf slot ∧
              pathOk st.schedule slot.wi slot.slotKey = true
          · rw [if_pos hq]
            exact Or.inr rfl
          · rw [if_neg hq]
            rcases f5 q with h | h
            · rw [h, cellVal_applyAssign]
              by_cases hq2 : q = posOf slot ∧
                  pathOk st.schedule slot.wi slot.slotKey = true
              · exact absurd hq2 hq
              · rw [if_neg hq2]
                exact Or.inl rfl
            · exact Or.inr h
        have hunt2 : UntouchedOutside (slot :: slots.drop (idx + 1))
            st.schedule st2.schedule := by
          intro q hq
          have hq1 : q ∉ (slots.drop (idx + 1)).map posOf := by
            intro hmem
            exact hq (by rw [List.map_cons]; exact List.mem_cons_of_mem _ hmem)
          have hq2 : q ≠ posOf slot := by
            intro he
            refine hq ?_
            rw [List.map_cons, he]
            exact List.mem_cons_self _ _
          rw [hcell2 q, if_neg (by intro hh; exact hq2 hh.1)]
          rw [f6 q hq1, cellVal_applyAssign]
          rw [if_neg (by intro hh; exact hq2 hh.1)]
        have hcnt2 : st.backtrackCount ≤ st2.backtrackCount := by
          show st.backtrackCount ≤ st'.backtrackCount
          exact le_trans (le_of_eq hcnt1.symm) f7
        have hpe2 : PathEq st.schedule st2.schedule := by
          intro w k
          show pathOk (undoAssign st' slot c).schedule w k = pathOk st.schedule w k
          rw [pathEq_undoAssign st' slot c w k]
          exact pathEq_trans hpe1 hnp w k
        have hpokrest : pathOk st2.schedule slot.wi slot.slotKey = true := by
          rw [hpe2 slot.wi slot.slotKey]
          exact hpok
        have hpokLrest : ∀ s ∈ slots.drop (idx + 1),
            pathOk st2.schedule s.wi s.slotKey = true := by
          intro s hs
          rw [hpe2 s.wi s.slotKey]
          exact hpokL s hs
        have hcrest2 : ∀ c' ∈ rest, st2.wa slot.wi slot.shift c' = [] := by
          intro c' h'
          rw [hwa2]
          exact hcrest c' h'
        obtain ⟨ihf, ihs, ihp⟩ := btTry_post cfg avail relax next fwdCnt idx slot
          slots hnext rest st2 hcrest2 hpokrest hpokLrest
        exact btPost_compose hwa2 husage2 hpm2 hsched2 hunt2 hcnt2 hpe2 ihf ihs ihp
    · rw [if_neg hfwd]
      set st2 := undoAssign st1 slot c with hst2
      have hwa2 : st2.wa = st.wa := undoAssign_applyAssign_wa st slot c hcc
      have husage2 : st2.usageCount = st.usageCount :=
        undoAssign_applyAssign_usage st slot c
      have hpm2 : st2.pmCount = st.pmCount := undoAssign_applyAssign_pm st slot c
      have hcell2 : ∀ q : Pos, cellVal st2.schedule q =
          if q = posOf slot ∧ pathOk st.schedule slot.wi slot.slotKey = true
          then some none else cellVal st.schedule q :=
        cellVal_undo_apply st slot c
      have hsched2 : SchedLE st.schedule st2.schedule := by
        intro q
        rw [hcell2 q]
        by_cases hq : q = posOf slot ∧ pathOk st.schedule slot.wi slot.slotKey = true
        · rw [if_pos hq]
          exact Or.inr rfl
        · rw [if_neg hq]
          exact Or.inl rfl
      have hunt2 : UntouchedOutside (slot :: slots.drop (idx + 1))
          st.schedule st2.schedule := by
        intro q hq
        have hq2 : q ≠ posOf slot := by
          intro he
          refine hq ?_
          rw [List.map_cons, he]
          exact List.mem_cons_self _ _
        rw [hcell2 q, if_neg (by intro hh; exact hq2 hh.1)]
      have hcnt2 : st.backtrackCount ≤ st2.backtrackCount := le_refl _
      have hpe2 : PathEq st.schedule st2.schedule := by
        intro w k
        show pathOk (undoAssign st1 slot c).schedule w k = pathOk st.schedule w k
        rw [pathEq_undoAssign st1 slot c w k]
        exact hpe1 w k
      have hpokrest : pathOk st2.schedule slot.wi slot.slotKey = true := by
        rw [hpe2 slot.wi slot.slotKey]
        exact hpok
      have hpokLrest : ∀ s ∈ slots.drop (idx + 1),
          pathOk st2.schedule s.wi s.slotKey = true := by
        intro s hs
        rw [hpe2 s.wi s.slotKey]
        exact hpokL s hs
      have hcrest2 : ∀ c' ∈ rest, st2.wa slot.wi slot.shift c' = [] := by
        intro c' h'
        rw [hwa2]
        exact hcrest c' h'
      obtain ⟨ihf, ihs, ihp⟩ := btTry_post cfg avail relax next fwdCnt idx slot
        slots hnext rest st2 hcrest2 hpokrest hpokLrest
      exact btPost_compose hwa2 husage2 hpm2 hsched2 hunt2 hcnt2 hpe2 ihf ihs ihp

end CIT

namespace CIT

/-- The backtracking search posts: on failure the slot array and the logical
state are restored exactly (cells at most nulled, cells outside the searched
region untouched); on success the invariant transfers, every remaining slot
is assigned, and untouched cells are preserved; paths are preserved and the
expansion counter is monotone throughout. -/
theorem btGo_post (cfg : Config) (avail : String → String → RawAvail)
    (eligCnt : String → Int) (relax : Nat) :
    ∀ (rem : Nat) (slots : List Slot) (idx : Nat) (st : SState),
      idx + rem = slots.length →
      (∀ s ∈ slots.drop idx, pathOk st.schedule s.wi s.slotKey = true) →
      ((btGo cfg avail eligCnt relax rem slots idx st).1 = false →
        BTFailR slots (slots.drop idx) st
          (btGo cfg avail eligCnt relax rem slots idx st)) ∧
      ((btGo cfg avail eligCnt relax rem slots idx st).1 = true →
        BTSuccR (slots.drop idx) st
          (btGo cfg avail eligCnt relax rem slots idx st)) ∧
      PathEq st.schedule (btGo cfg avail eligCnt relax rem slots idx st).2.2.schedule
  | 0, slots, idx, st, hlen, hpokL => by
    refine ⟨?_, ?_, pathEq_refl _⟩
    · intro h
      cases h
    · intro _
      refine ⟨fun hi => hi, ?_, untouched_refl _ _, le_refl _⟩
      intro s hs
      rw [List.drop_eq_nil_of_le (by omega)] at hs
      cases hs
  | rem + 1, slots, idx, st, hlen, hpokL => by
    simp only [btGo]
    by_cases hbud : 50000 < st.backtrackCount + 1
    · rw [if_pos hbud]
      refine ⟨?_, ?_, pathEq_refl _⟩
      · intro _
        exact ⟨rfl, rfl, rfl, rfl, schedLE_refl _, untouched_refl _ _, by
          show st.backtrackCount ≤ st.backtrackCount + 1
          omega⟩
      · intro h
        cases h
    · rw [if_neg hbud]
      set stb : SState := { st with backtrackCount := st.backtrackCount + 1 }
        with hstb
      set m := mrvScan cfg avail relax slots idx (rem + 1) stb with hmdef
      have hmspec := mrvScan_spec cfg avail relax slots idx (rem + 1) stb
        (by omega)
      have hil : idx ≤ m := hmspec.1.1
      have hmlen : m < slots.length := by
        have := hmspec.1.2
        omega
      have hidx : idx < slots.length := by omega
      set slots2 := lswap slots idx m with hs2
      have hlen2 : slots2.length = slots.length := lswap_length slots idx m
      have hmm : ∀ x : Slot, x ∈ slots2.drop idx ↔ x ∈ slots.drop idx :=
        mem_drop_lswap slots idx m hil hmlen
      cases hsm : slots.get? m with
      | none => exact absurd (List.get?_eq_none.mp hsm) (by omega)
      | some sm =>
      have hget2 : slots2.get? idx = some sm := by
        rw [hs2, get?_lswap slots idx m hidx hmlen idx, if_pos rfl]
        exact hsm
      have hgetD : (slots2.get? idx).getD dSlot = sm := by
        rw [hget2]
        rfl
      have hdrop2 : slots2.drop idx = sm :: slots2.drop (idx + 1) :=
        drop_eq_cons_of_get? hget2
      have hsm_mem : sm ∈ slots.drop idx := by
        refine List.mem_iff_get?.mpr ⟨m - idx, ?_⟩
        rw [List.get?_drop, Nat.add_sub_cancel' hil]
        exact hsm
      rw [hgetD]
      set cands := rankCandidates cfg eligCnt (getEligible cfg avail sm stb relax)
        sm.shift stb with hcands
      by_cases hemp : cands.isEmpty = true
      · rw [if_pos hemp]
        refine ⟨?_, ?_, pathEq_refl _⟩
        · intro _
          refine ⟨?_, rfl, rfl, rfl, schedLE_refl _, untouched_refl _ _, by
            show st.backtrackCount ≤ st.backtrackCount + 1
            omega⟩
          show lswap slots2 idx m = slots
          rw [hs2]
          exact lswap_lswap slots idx m hidx hmlen
        · intro h
          cases h
      · rw [if_neg hemp]
        have hsub : ∀ p ∈ (sm :: slots2.drop (idx + 1)).map posOf,
            p ∈ (slots.drop idx).map posOf := by
          intro p hp
          rcases List.mem_map.mp hp with ⟨s, hs, hps⟩
          rcases List.mem_cons.mp hs with hh | ht
          · exact List.mem_map.mpr ⟨s, by rw [hh]; exact hsm_mem, hps⟩
          · have : s ∈ slots2.drop idx := by
              rw [hdrop2]
              exact List.mem_cons_of_mem _ ht
            exact List.mem_map.mpr ⟨s, (hmm s).mp this, hps⟩
        have hnext : ∀ st1 : SState,
            (∀ s ∈ slots2.drop (idx + 1), pathOk st1.schedule s.wi s.slotKey = true) →
            ((btGo cfg avail eligCnt relax rem slots2 (idx + 1) st1).1 = false →
              BTFailR slots2 (slots2.drop (idx + 1)) st1
                (btGo cfg avail eligCnt relax rem slots2 (idx + 1) st1)) ∧
            ((btGo cfg avail eligCnt relax rem slots2 (idx + 1) st1).1 = true →
              BTSuccR (slots2.drop (idx + 1)) st1
                (btGo cfg avail eligCnt relax rem slots2 (idx + 1) st1)) ∧
            PathEq st1.schedule
              (btGo cfg avail eligCnt relax rem slots2 (idx + 1) st1).2.2.schedule := by
          intro st1 hpok1
          exact btGo_post cfg avail eligCnt relax rem slots2 (idx + 1) st1
            (by omega) hpok1
        have hcwa : ∀ c ∈ cands, stb.wa sm.wi sm.shift c = [] := by
          intro c hcmem
          rw [hcands] at hcmem
          exact getEligible_wa_empty (mem_rankCandidates.mp hcmem)
        have hpoksm : pathOk stb.schedule sm.wi sm.slotKey = true :=
          hpokL sm hsm_mem
        have hpokL2 : ∀ s ∈ slots2.drop (idx + 1),
            pathOk stb.schedule s.wi s.slotKey = true := by
          intro s hs
          refine hpokL s ((hmm s).mp ?_)
          rw [hdrop2]
          exact List.mem_cons_of_mem _ hs
        obtain ⟨tf, ts, tp⟩ := btTry_post cfg avail relax
          (fun sl s => btGo cfg avail eligCnt relax rem sl (idx + 1) s)
          rem idx sm slots2 hnext cands stb hcwa hpoksm hpokL2
        rcases hbt : btTry cfg avail relax
            (fun sl s => btGo cfg avail eligCnt relax rem sl (idx + 1) s)
            rem idx sm cands slots2 stb with ⟨b, slots'', st''⟩
        rw [hbt] at tf ts tp
        cases b with
        | true =>
          obtain ⟨s1, s2, s3, s4⟩ := ts rfl
          refine ⟨?_, ?_, ?_⟩
          · intro h
            cases h
          · intro _
            refine ⟨?_, ?_, ?_, ?_⟩
            · intro hi
              exact s1 hi
            · intro s hs
              have : s ∈ sm :: slots2.drop (idx + 1) := by
                rw [← hdrop2]
                exact (hmm s).mpr hs
              exact s2 s this
            · intro q hq
              refine s3 q ?_
              intro hmem
              exact hq (hsub q hmem)
            · show st.backtrackCount ≤ st''.backtrackCount
              calc st.backtrackCount ≤ st.backtrackCount + 1 := by omega
                _ = stb.backtrackCount := rfl
                _ ≤ st''.backtrackCount := s4
          · exact tp
        | false =>
          obtain ⟨f1, f2, f3, f4, f5, f6, f7⟩ := tf rfl
          simp only at f1 f2 f3 f4 f5 f6 f7
          refine ⟨?_, ?_, ?_⟩
          · intro _
            refine ⟨?_, f2, f3, f4, f5, ?_, ?_⟩
            · show lswap slots'' idx m = slots
              rw [f1, hs2]
              exact lswap_lswap slots idx m hidx hmlen
            · intro q hq
              refine f6 q ?_
              intro hmem
              exact hq (hsub q hmem)
            · show st.backtrackCount ≤ st''.backtrackCount
              calc st.backtrackCount ≤ st.backtrackCount + 1 := by omega
                _ = stb.backtrackCount := rfl
                _ ≤ st''.backtrackCount := f7
          · intro h
            cases h
          · exact tp

end CIT

namespace CIT

/-! ## Skeleton and enumeration lemmas -/

theorem aGet_append {α β : Type} [DecidableEq α] (k : α) :
    ∀ (l1 l2 : List (α × β)),
      aGet k (l1 ++ l2) =
        match aGet k l1 with
        | some v => some v
        | none => aGet k l2
  | [], l2 => rfl
  | (k', v) :: rest, l2 => by
    by_cases h : k' = k
    · simp [aGet, h]
    · simpa [aGet, h] using aGet_append k rest l2

theorem aGet_range_map {β : Type} (f : Nat → β) :
    ∀ (n k : Nat),
      aGet k ((List.range n).map (fun i => (i, f i))) =
        if k < n then some (f k) else none
  | 0, k => by simp [aGet]
  | n + 1, k => by
    rw [List.range_succ, List.map_append, aGet_append, aGet_range_map f n k]
    by_cases h : k < n
    · simp only [if_pos h, if_pos (by omega : k < n + 1)]
    · simp only [if_neg h]
      by_cases h2 : k = n
      · subst h2
        simp [aGet]
      · have : ¬k < n + 1 := by omega
        simp [aGet, this, h2, Ne.symm h2]

theorem aGet_slotKeys_map {β : Type} (g : SlotKey → β) (sk : SlotKey) :
    aGet sk (SLOT_KEYS.map (fun k => (k, g k))) = some (g sk) := by
  cases sk <;> simp [SLOT_KEYS, aGet]

theorem aGet_initSchedule (weeks : List (List WeekDay))
    (weekPlans : Nat → Option WeekPlan) (cfg : Config) (wi : Nat) :
    aGet wi (initSchedule weeks weekPlans cfg) =
      if wi < weeks.length then
        some (initWeek cfg (resolvePlan weeks weekPlans cfg wi))
      else none :=
  aGet_range_map _ weeks.length wi

theorem aGet_initWeek (cfg : Config) (plan : WeekPlan) (sk : SlotKey) :
    aGet sk (initWeek cfg plan) =
      some (match plan sk with
        | none => none
        | some date =>
          some { date := date, am := initCells cfg sk, pm := initCells cfg sk }) :=
  aGet_slotKeys_map _ sk

theorem pathOk_initSchedule (weeks : List (List WeekDay))
    (weekPlans : Nat → Option WeekPlan) (cfg : Config) (wi : Nat) (sk : SlotKey) :
    pathOk (initSchedule weeks weekPlans cfg) wi sk = true ↔
      wi < weeks.length ∧
        ∃ date, resolvePlan weeks weekPlans cfg wi sk = some date := by
  rw [pathOk, aGet_initSchedule]
  by_cases h : wi < weeks.length
  · rw [if_pos h]
    cases hp : resolvePlan weeks weekPlans cfg wi sk with
    | none => simp [aGet_initWeek, hp, h]
    | some date => simp [aGet_initWeek, hp, h]
  · rw [if_neg h]
    simp [h]

theorem aGet_initCells_of_mem (cfg : Config) (sk : SlotKey) :
    ∀ (l : List String) (init : List (String × Option String)) (k : String),
      (k ∈ l ∨ aGet k init = some none) →
      aGet k (l.foldl (fun m scn => aSet scn none m) init) = some none
  | [], init, k, h => by
    rcases h with h | h
    · cases h
    · exact h
  | scn :: rest, init, k, h => by
    show aGet k (rest.foldl (fun m scn => aSet scn none m) (aSet scn none init)) =
      some none
    apply aGet_initCells_of_mem cfg sk rest
    by_cases hk : k = scn
    · subst hk
      exact Or.inr (aGet_aSet_self k none init)
    · rcases h with h | h
      · rcases List.mem_cons.mp h with h' | h'
        · exact absurd h' hk
        · exact Or.inl h'
      · exact Or.inr (by rw [aGet_aSet_ne hk]; exact h)

theorem aGet_initCells_none (cfg : Config) (sk : SlotKey) :
    ∀ (l : List String) (init : List (String × Option String)) (k : String)
      (v : Option String),
      (∀ k' v', aGet k' init = some v' → v' = none) →
      aGet k (l.foldl (fun m scn => aSet scn none m) init) = some v → v = none
  | [], init, k, v, hinit, h => hinit k v h
  | scn :: rest, init, k, v, hinit, h => by
    refine aGet_initCells_none cfg sk rest (aSet scn none init) k v ?_ h
    intro k' v' h'
    by_cases hk : k' = scn
    · subst hk
      rw [aGet_aSet_self] at h'
      injection h' with h''
      exact h''.symm
    · rw [aGet_aSet_ne hk] at h'
      exact hinit k' v' h'

/-- All skeleton cells are null. -/
theorem cellVal_initSchedule_null (weeks : List (List WeekDay))
    (weekPlans : Nat → Option WeekPlan) (cfg : Config) (q : Pos) (v : Option String) :
    cellVal (initSchedule weeks weekPlans cfg) q = some v → v = none := by
  obtain ⟨wi, sk, sh, scn⟩ := q
  rw [cellVal]
  simp only
  rw [aGet_initSchedule]
  by_cases h : wi < weeks.length
  · rw [if_pos h]
    cases hp : resolvePlan weeks weekPlans cfg wi sk with
    | none =>
      simp only [aGet_initWeek, hp]
      intro hc
      cases hc
    | some date =>
      simp only [aGet_initWeek, hp]
      intro hc
      cases sh with
      | AM =>
        exact aGet_initCells_none cfg sk (cfg.slotScenarios sk) [] scn v
          (by intro k' v' h'; cases h') hc
      | PM =>
        exact aGet_initCells_none cfg sk (cfg.slotScenarios sk) [] scn v
          (by intro k' v' h'; cases h') hc
  · rw [if_neg h]
    intro hc
    cases hc

/-- Enumerated slot cells exist (as null) in the skeleton. -/
theorem cellVal_initSchedule_mem (weeks : List (List WeekDay))
    (weekPlans : Nat → Option WeekPlan) (cfg : Config) (wi : Nat) (sk : SlotKey)
    (sh : Shift) (scn : String) (date : String)
    (hwi : wi < weeks.length)
    (hplan : resolvePlan weeks weekPlans cfg wi sk = some date)
    (hscn : scn ∈ cfg.slotScenarios sk) :
    cellVal (initSchedule weeks weekPlans cfg) (wi, sk, sh, scn) = some none := by
  rw [cellVal]
  simp only
  rw [aGet_initSchedule, if_pos hwi]
  simp only [aGet_initWeek, hplan]
  cases sh with
  | AM => exact aGet_initCells_of_mem cfg sk (cfg.slotScenarios sk) [] scn (Or.inl hscn)
  | PM => exact aGet_initCells_of_mem cfg sk (cfg.slotScenarios sk) [] scn (Or.inl hscn)

/-- Membership in the slot enumeration. -/
theorem mem_enumSlots (weeks : List (List WeekDay))
    (weekPlans : Nat → Option WeekPlan) (cfg : Config) (s : Slot) :
    s ∈ enumSlots weeks weekPlans cfg ↔
      s.wi < weeks.length ∧
      resolvePlan weeks weekPlans cfg s.wi s.slotKey = some s.date ∧
      s.scenario ∈ cfg.slotScenarios s.slotKey := by
  obtain ⟨wi, sk, sh, scn, date⟩ := s
  rw [enumSlots]
  simp only [List.mem_flatMap, List.mem_range, List.mem_map]
  constructor
  · rintro ⟨wi', hwi', sk', hsk', hmem⟩
    cases hp : resolvePlan weeks weekPlans cfg wi' sk' with
    | none =>
      rw [hp] at hmem
      cases hmem
    | some date' =>
      rw [hp] at hmem
      simp only [List.mem_flatMap, List.mem_map] at hmem
      obtain ⟨sh', _, scn', hscn', heq⟩ := hmem
      injection heq with e1 e2 e3 e4 e5
      subst e1; subst e2; subst e3; subst e4; subst e5
      exact ⟨hwi', hp, hscn'⟩
  · rintro ⟨hwi, hp, hscn⟩
    refine ⟨wi, hwi, sk, by cases sk <;> simp [SLOT_KEYS], ?_⟩
    rw [hp]
    simp only [List.mem_flatMap, List.mem_map]
    exact ⟨sh, by cases sh <;> simp [SHIFTS], scn, hscn, rfl⟩

/-- The fresh search state satisfies the invariant. -/
theorem InvC_freshState (weeks : List (List WeekDay))
    (weekPlans : Nat → Option WeekPlan) (cfg : Config) :
    InvC (freshState weeks weekPlans cfg).schedule
      (freshState weeks weekPlans cfg).wa := by
  constructor
  · intro wi sh a
    show ([] : List String).length ≤ 1
    simp
  · intro wi sk sh scn a hc
    have := cellVal_initSchedule_null weeks weekPlans cfg (wi, sk, sh, scn)
      (some a) hc
    cases this

end CIT

namespace CIT

/-! ## explainElim characterization -/

theorem explainElim_none_iff (cfg : Config) (avail : String → String → RawAvail)
    (a : String) (slot : Slot) (st : SState) :
    explainElim cfg avail a slot st = none ↔
      (isAvailableForShift (avail slot.date a) slot.shift = true ∧
       st.wa slot.wi slot.shift a = [] ∧
       allowedDaysViolated (cfg.actorConstraints a) slot.date = false ∧
       (slot.shift = Shift.PM → pmRatioBars (cfg.actorConstraints a) st a = false) ∧
       hasConflict a slot.scenario slot.shift (st.wa slot.wi) cfg.conflicts = false) := by
  cases hA : isAvailableForShift (avail slot.date a) slot.shift with
  | false => simp [explainElim, hA]
  | true =>
    cases hwa : st.wa slot.wi slot.shift a with
    | cons x xs => simp [explainElim, hA, hwa]
    | nil =>
      cases hAD : allowedDaysViolated (cfg.actorConstraints a) slot.date with
      | true => simp [explainElim, hA, hwa, hAD]
      | false =>
        cases hsh : slot.shift with
        | AM =>
          rw [hsh] at hA hwa
          cases hHC : hasConflict a slot.scenario Shift.AM (st.wa slot.wi)
              cfg.conflicts <;>
            simp [explainElim, hA, hwa, hAD, hsh, hHC]
        | PM =>
          rw [hsh] at hA hwa
          cases hac : cfg.actorConstraints a with
          | none =>
            cases hHC : hasConflict a slot.scenario Shift.PM (st.wa slot.wi)
                cfg.conflicts <;>
              simp [explainElim, hA, hwa, hAD, hsh, hac, hHC, pmRatioBars,
                allowedDaysViolated]
          | some cst =>
            rw [hac] at hAD
            cases hr : cst.maxPMRatio with
            | none =>
              cases hHC : hasConflict a slot.scenario Shift.PM (st.wa slot.wi)
                  cfg.conflicts <;>
                simp [explainElim, hA, hwa, hAD, hsh, hac, hHC, pmRatioBars, hr]
            | some r =>
              by_cases hr0 : r = 0
              · simp [explainElim, hA, hwa, hAD, hsh, hac, pmRatioBars, hr, hr0]
              · by_cases hcond : 0 < st.usageCount a ∧
                    r ≤ (st.pmCount a : Rat) / (st.usageCount a : Rat)
                · simp [explainElim, hA, hwa, hAD, hsh, hac, pmRatioBars, hr, hr0,
                    hcond, hcond.1, hcond.2]
                · have hcond' : 0 < st.usageCount a →
                      (st.pmCount a : Rat) / (st.usageCount a : Rat) < r := by
                    intro hu
                    by_contra hle
                    exact hcond ⟨hu, not_lt.mp hle⟩
                  cases hHC : hasConflict a slot.scenario Shift.PM (st.wa slot.wi)
                      cfg.conflicts <;>
                    simp [explainElim, hA, hwa, hAD, hsh, hac, pmRatioBars, hr, hr0,
                      hcond, hHC]
                  all_goals exact hcond'

/-- `explainElim` returns a reason exactly when strict-level `getEligible`
rejects the actor. -/
theorem explainElim_none_iff_elig (cfg : Config) (avail : String → String → RawAvail)
    (a : String) (slot : Slot) (st : SState) :
    explainElim cfg avail a slot st = none ↔ eligOk cfg avail slot st 0 a = true := by
  rw [explainElim_none_iff, eligOk_true_iff]
  constructor
  · rintro ⟨h1, h2, h3, h4, h5⟩
    exact ⟨h1, h2, fun _ => h5, fun _ => h3, fun _ => h4⟩
  · rintro ⟨h1, h2, h3, h4, h5⟩
    exact ⟨h1, h2, h4 (by omega), fun hpm => h5 (by omega) hpm, h3 (by omega)⟩

/-- The all-blocked suggestion text. -/
def allBlockedMsg (approved : List String) (scenario : String) : String :=
  "All " ++ toString approved.length ++ " approved actor" ++
    (if approved.length ≠ 1 then "s" else "") ++
    " blocked. Approve more actors for " ++ scenario ++ " or adjust availability."

theorem filterMap_reasons_cover (f : String → Option String) :
    ∀ (l : List String), (∀ a ∈ l, (f a).isSome = true) →
      (l.filterMap (fun a => (f a).map (fun r => (a, r)))).map Prod.fst = l
  | [], _ => rfl
  | a :: rest, h => by
    cases he : f a with
    | none =>
      have ha := h a (List.mem_cons_self a rest)
      rw [he] at ha
      cases ha
    | some r =>
      rw [List.filterMap_cons, he]
      simp only [Option.map_some']
      rw [List.map_cons,
        filterMap_reasons_cover f rest (fun a' ha' => h a' (List.mem_cons_of_mem a ha'))]

/-- When no approved actor is eligible, every approved actor gets a reason,
the eliminations cover the whole approved list, and the all-blocked
suggestion is used. -/
theorem mkErr_allBlocked (cfg : Config) (avail : String → String → RawAvail)
    (slot : Slot) (st : SState)
    (hnone : getEligible cfg avail slot st 0 = []) :
    (mkErr cfg avail slot st).eliminations.map Prod.fst =
      (mkErr cfg avail slot st).approvedActors ∧
    (mkErr cfg avail slot st).suggestion =
      allBlockedMsg (cfg.scenarioActors slot.scenario) slot.scenario := by
  have hall : ∀ a ∈ cfg.scenarioActors slot.scenario,
      (explainElim cfg avail a slot st).isSome = true := by
    intro a ha
    cases he : explainElim cfg avail a slot st with
    | some r => rfl
    | none =>
      exfalso
      have helig : eligOk cfg avail slot st 0 a = true :=
        (explainElim_none_iff_elig cfg avail a slot st).mp he
      have : a ∈ getEligible cfg avail slot st 0 :=
        List.mem_filter.mpr ⟨ha, helig⟩
      rw [hnone] at this
      cases this
  have hmap := filterMap_reasons_cover
    (fun actor => explainElim cfg avail actor slot st)
    (cfg.scenarioActors slot.scenario) hall
  constructor
  · exact hmap
  · have hlen : ((cfg.scenarioActors slot.scenario).filterMap (fun actor =>
        (explainElim cfg avail actor slot st).map (fun r => (actor, r)))).length =
        (cfg.scenarioActors slot.scenario).length := by
      have hcg := congrArg List.length hmap
      rw [List.length_map] at hcg
      exact hcg
    show (mkErr cfg avail slot st).suggestion = _
    simp only [mkErr]
    rw [hlen]
    simp [allBlockedMsg]

end CIT

namespace CIT

/-! ## Fallback loop posts -/

theorem cellVal_some_pathOk {s : Schedule} {q : Pos} {v : Option String}
    (h : cellVal s q = some v) : pathOk s q.1 q.2.1 = true := by
  obtain ⟨wi, sk, sh, scn⟩ := q
  cases hw : aGet wi s with
  | none =>
    exfalso
    simp [cellVal, hw] at h
  | some wk =>
    cases hk : aGet sk wk with
    | none =>
      exfalso
      simp [cellVal, hw, hk] at h
    | some od =>
      cases od with
      | none =>
        exfalso
        simp [cellVal, hw, hk] at h
      | some ds =>
        simp [pathOk, hw, hk]

/-- A well-formed fallback diagnostic record. -/
def ErrGood (e : ErrRec) : Prop :=
  e.eliminations.map Prod.fst = e.approvedActors ∧
  e.suggestion = allBlockedMsg e.approvedActors e.scenario

/-- The per-scenario loop of the greedy fallback: error accumulation with
well-formed records, invariant preservation, untouched outside cells, a
filled-or-one-diagnostic outcome per scenario, and PM-exclusion
preservation for zero-ratio actors. -/
theorem fbScens_post (cfg : Config) (avail : String → String → RawAvail)
    (eligCnt : String → Int) (wi : Nat) (sk : SlotKey) (date : String) (sh : Shift) :
    ∀ (scens : List String) (st : SState) (errs : List ErrRec),
      ∃ Δ : List ErrRec,
        (fbScens cfg avail eligCnt wi sk date sh scens st errs).2 = errs ++ Δ ∧
        (∀ e ∈ Δ, e.weekKey = wi ∧ e.slotKey = sk ∧ e.shift = sh ∧
          e.scenario ∈ scens ∧ e.approvedActors = cfg.scenarioActors e.scenario ∧
          ErrGood e) ∧
        (InvC st.schedule st.wa →
          InvC (fbScens cfg avail eligCnt wi sk date sh scens st errs).1.schedule
            (fbScens cfg avail eligCnt wi sk date sh scens st errs).1.wa) ∧
        PathEq st.schedule
          (fbScens cfg avail eligCnt wi sk date sh scens st errs).1.schedule ∧
        (∀ q : Pos, ¬(q.1 = wi ∧ q.2.1 = sk ∧ q.2.2.1 = sh ∧ q.2.2.2 ∈ scens) →
          cellVal (fbScens cfg avail eligCnt wi sk date sh scens st errs).1.schedule q =
            cellVal st.schedule q) ∧
        (scens.Nodup →
          ∀ scn ∈ scens, cellVal st.schedule (wi, sk, sh, scn) = some none →
            ((∃ a, a ∈ cfg.scenarioActors scn ∧
                cellVal (fbScens cfg avail eligCnt wi sk date sh scens st
                  errs).1.schedule (wi, sk, sh, scn) = some (some a)) ∧
              (Δ.filter (fun e => decide (e.scenario = scn))).length = 0) ∨
            (cellVal (fbScens cfg avail eligCnt wi sk date sh scens st
                errs).1.schedule (wi, sk, sh, scn) = some none ∧
              (Δ.filter (fun e => decide (e.scenario = scn))).length = 1)) ∧
        (∀ (P : String) (cP : AConstraint), cfg.actorConstraints P = some cP →
          cP.maxPMRatio = some 0 →
          (∀ q : Pos, q.2.2.1 = Shift.PM → cellVal st.schedule q ≠ some (some P)) →
          (∀ q : Pos, q.2.2.1 = Shift.PM →
            cellVal (fbScens cfg avail eligCnt wi sk date sh scens st
              errs).1.schedule q ≠ some (some P)))
  | [], st, errs => by
    refine ⟨[], by simp [fbScens], ?_, fun hi => hi, pathEq_refl _, ?_, ?_, ?_⟩
    · intro e he
      cases he
    · intro q _
      rfl
    · intro _ scn hscn
      cases hscn
    · intro P cP _ _ h q hq
      exact h q hq
  | scn0 :: rest, st, errs => by
    simp only [fbScens]
    cases hcand : rankCandidates cfg eligCnt
        (getEligible cfg avail ⟨wi, sk, sh, scn0, date⟩ st 0) sh st with
    | nil =>
      have helig : getEligible cfg avail ⟨wi, sk, sh, scn0, date⟩ st 0 = [] := by
        have := @rankCandidates_isEmpty cfg eligCnt
          (getEligible cfg avail ⟨wi, sk, sh, scn0, date⟩ st 0) sh st
        rw [hcand] at this
        exact this.mp rfl
      set e0 := mkErr cfg avail ⟨wi, sk, sh, scn0, date⟩ st with he0
      obtain ⟨Δr, ih1, ih2, ih3, ih4, ih5, ih6, ih7⟩ :=
        fbScens_post cfg avail eligCnt wi sk date sh rest st (errs ++ [e0])
      refine ⟨e0 :: Δr, ?_, ?_, ih3, ih4, ?_, ?_, ih7⟩
      · rw [ih1, List.append_assoc]
        rfl
      · intro e he
        rcases List.mem_cons.mp he with rfl | he'
        · have hgood := mkErr_allBlocked cfg avail ⟨wi, sk, sh, scn0, date⟩ st helig
          exact ⟨rfl, rfl, rfl, List.mem_cons_self _ _, rfl, hgood.1, hgood.2⟩
        · obtain ⟨g1, g2, g3, g4, g5, g6⟩ := ih2 e he'
          exact ⟨g1, g2, g3, List.mem_cons_of_mem _ g4, g5, g6⟩
      · intro q hq
        refine ih5 q ?_
        rintro ⟨q1, q2, q3, q4⟩
        exact hq ⟨q1, q2, q3, List.mem_cons_of_mem _ q4⟩
      · intro hnd scn hscn hnull
        rcases List.mem_cons.mp hscn with rfl | hscn'
        · have hnotin : scn ∉ rest := by
            intro hmem
            exact (List.nodup_cons.mp hnd).1 hmem
          have hcell : cellVal (fbScens cfg avail eligCnt wi sk date sh rest st
              (errs ++ [e0])).1.schedule (wi, sk, sh, scn) = some none := by
            rw [ih5 (wi, sk, sh, scn) (by
              rintro ⟨_, _, _, q4⟩
              exact hnotin q4)]
            exact hnull
          refine Or.inr ⟨hcell, ?_⟩
          have hΔr : Δr.filter (fun e => decide (e.scenario = scn)) = [] := by
            rw [List.filter_eq_nil]
            intro e he
            have := (ih2 e he).2.2.2.1
            simp only [decide_eq_true_eq]
            intro heq
            rw [heq] at this
            exact hnotin this
          rw [List.filter_cons]
          have he0scn : (e0.scenario = scn) := rfl
          simp [he0scn, hΔr]
        · have ho := ih6 (List.nodup_cons.mp hnd).2 scn hscn' hnull
          have hne : Δr.filter (fun e => decide (e.scenario = scn)) =
              (e0 :: Δr).filter (fun e => decide (e.scenario = scn)) := by
            rw [List.filter_cons]
            have : ¬(e0.scenario = scn) := by
              show ¬(scn0 = scn)
              intro heq
              subst heq
              exact (List.nodup_cons.mp hnd).1 hscn'
            simp [this]
          rw [← hne]
          exact ho
    | cons c cs =>
      have hc : c ∈ getEligible cfg avail ⟨wi, sk, sh, scn0, date⟩ st 0 := by
        have : c ∈ rankCandidates cfg eligCnt
            (getEligible cfg avail ⟨wi, sk, sh, scn0, date⟩ st 0) sh st := by
          rw [hcand]
          exact List.mem_cons_self c cs
        exact mem_rankCandidates.mp this
      set st1 := applyAssign st ⟨wi, sk, sh, scn0, date⟩ c with hst1
      obtain ⟨Δr, ih1, ih2, ih3, ih4, ih5, ih6, ih7⟩ :=
        fbScens_post cfg avail eligCnt wi sk date sh rest st1 errs
      have hpe1 : PathEq st.schedule st1.schedule :=
        pathEq_applyAssign st ⟨wi, sk, sh, scn0, date⟩ c
      refine ⟨Δr, ih1, ?_, ?_, pathEq_trans hpe1 ih4, ?_, ?_, ?_⟩
      · intro e he
        obtain ⟨g1, g2, g3, g4, g5, g6⟩ := ih2 e he
        exact ⟨g1, g2, g3, List.mem_cons_of_mem _ g4, g5, g6⟩
      · intro hi
        exact ih3 (InvC_applyAssign hi (getEligible_wa_empty hc))
      · intro q hq
        rw [ih5 q (by
          rintro ⟨q1, q2, q3, q4⟩
          exact hq ⟨q1, q2, q3, List.mem_cons_of_mem _ q4⟩)]
        rw [cellVal_applyAssign]
        rw [if_neg]
        rintro ⟨hq1, _⟩
        refine hq ?_
        rw [hq1]
        exact ⟨rfl, rfl, rfl, List.mem_cons_self _ _⟩
      · intro hnd scn hscn hnull
        rcases List.mem_cons.mp hscn with rfl | hscn'
        · have hnotin : scn ∉ rest := (List.nodup_cons.mp hnd).1
          have hpok : pathOk st.schedule wi sk = true :=
            cellVal_some_pathOk hnull
          have hcell1 : cellVal st1.schedule (wi, sk, sh, scn) = some (some c) := by
            rw [cellVal_applyAssign]
            rw [if_pos ⟨rfl, hpok⟩]
          have hcell : cellVal (fbScens cfg avail eligCnt wi sk date sh rest st1
              errs).1.schedule (wi, sk, sh, scn) = some (some c) := by
            rw [ih5 (wi, sk, sh, scn) (by
              rintro ⟨_, _, _, q4⟩
              exact hnotin q4)]
            exact hcell1
          refine Or.inl ⟨⟨c, getEligible_approved hc, hcell⟩, ?_⟩
          rw [List.filter_eq_nil.mpr]
          · rfl
          · intro e he
            have := (ih2 e he).2.2.2.1
            simp only [decide_eq_true_eq]
            intro heq
            rw [heq] at this
            exact hnotin this
        · have hnull1 : cellVal st1.schedule (wi, sk, sh, scn) = some none := by
            rw [cellVal_applyAssign]
            rw [if_neg]
            · exact hnull
            · rintro ⟨hq1, _⟩
              have : scn = scn0 := by
                injection hq1 with e1 h2
                injection h2 with e2 h3
                injection h3 with e3 e4
              exact (List.nodup_cons.mp hnd).1 (this ▸ hscn')
          exact ih6 (List.nodup_cons.mp hnd).2 scn hscn' hnull1
      · intro P cP hcP hr0 hno
        refine ih7 P cP hcP hr0 ?_
        intro q hq
        rw [cellVal_applyAssign]
        by_cases hqpos : q = posOf ⟨wi, sk, sh, scn0, date⟩ ∧
            pathOk st.schedule wi sk = true
        · rw [if_pos hqpos]
          intro hcontra
          injection hcontra with hcontra'
          injection hcontra' with hcontra''
          have hshPM : sh = Shift.PM := by
            rw [hqpos.1] at hq
            exact hq
          have : c ∉ getEligible cfg avail ⟨wi, sk, sh, scn0, date⟩ st 0 := by
            rw [hcontra'']
            exact getEligible_zero_ratio_pm hcP hr0 hshPM
          rw [hcontra''] at hc
          exact this (hcontra'' ▸ hc)
        · rw [if_neg hqpos]
          exact hno q hq

end CIT

namespace CIT

/-- The scenario processing order used by the fallback for one shift. -/
def scenOrder (cfg : Config) (avail : String → String → RawAvail) (date : String)
    (sk : SlotKey) (sh : Shift) : List String :=
  jsSortBy (fun a b => (candidateCount a (avail date) cfg.scenarioActors sh : Int) -
    (candidateCount b (avail date) cfg.scenarioActors sh : Int)) (cfg.slotScenarios sk)

theorem fbShifts_cons (cfg : Config) (avail : String → String → RawAvail)
    (eligCnt : String → Int) (wi : Nat) (sk : SlotKey) (date : String)
    (sh : Shift) (rest : List Shift) (st : SState) (errs : List ErrRec) :
    fbShifts cfg avail eligCnt wi sk date (sh :: rest) st errs =
      fbShifts cfg avail eligCnt wi sk date rest
        (fbScens cfg avail eligCnt wi sk date sh (scenOrder cfg avail date sk sh) st errs).1
        (fbScens cfg avail eligCnt wi sk date sh (scenOrder cfg avail date sk sh) st errs).2 := by
  simp only [fbShifts, scenOrder]

/-- The per-shift fallback loop: lifted accumulation, invariant, outcome and
PM-exclusion facts. -/
theorem fbShifts_post (cfg : Config) (avail : String → String → RawAvail)
    (eligCnt : String → Int) (wi : Nat) (sk : SlotKey) (date : String) :
    ∀ (shs : List Shift) (st : SState) (errs : List ErrRec),
      ∃ Δ : List ErrRec,
        (fbShifts cfg avail eligCnt wi sk date shs st errs).2 = errs ++ Δ ∧
        (∀ e ∈ Δ, e.weekKey = wi ∧ e.slotKey = sk ∧ e.shift ∈ shs ∧
          e.scenario ∈ cfg.slotScenarios sk ∧
          e.approvedActors = cfg.scenarioActors e.scenario ∧ ErrGood e) ∧
        (InvC st.schedule st.wa →
          InvC (fbShifts cfg avail eligCnt wi sk date shs st errs).1.schedule
            (fbShifts cfg avail eligCnt wi sk date shs st errs).1.wa) ∧
        PathEq st.schedule
          (fbShifts cfg avail eligCnt wi sk date shs st errs).1.schedule ∧
        (∀ q : Pos, ¬(q.1 = wi ∧ q.2.1 = sk ∧ q.2.2.1 ∈ shs) →
          cellVal (fbShifts cfg avail eligCnt wi sk date shs st errs).1.schedule q =
            cellVal st.schedule q) ∧
        (shs.Nodup → (cfg.slotScenarios sk).Nodup →
          ∀ sh ∈ shs, ∀ scn ∈ cfg.slotScenarios sk,
            cellVal st.schedule (wi, sk, sh, scn) = some none →
              ((∃ a, a ∈ cfg.scenarioActors scn ∧
                  cellVal (fbShifts cfg avail eligCnt wi sk date shs st
                    errs).1.schedule (wi, sk, sh, scn) = some (some a)) ∧
                (Δ.filter (fun e => decide (e.shift = sh ∧ e.scenario = scn))).length = 0) ∨
              (cellVal (fbShifts cfg avail eligCnt wi sk date shs st
                  errs).1.schedule (wi, sk, sh, scn) = some none ∧
                (Δ.filter (fun e => decide (e.shift = sh ∧ e.scenario = scn))).length = 1)) ∧
        (∀ (P : String) (cP : AConstraint), cfg.actorConstraints P = some cP →
          cP.maxPMRatio = some 0 →
          (∀ q : Pos, q.2.2.1 = Shift.PM → cellVal st.schedule q ≠ some (some P)) →
          (∀ q : Pos, q.2.2.1 = Shift.PM →
            cellVal (fbShifts cfg avail eligCnt wi sk date shs st
              errs).1.schedule q ≠ some (some P)))
  | [], st, errs => by
    refine ⟨[], by simp [fbShifts], ?_, fun hi => hi, pathEq_refl _, ?_, ?_, ?_⟩
    · intro e he
      cases he
    · intro q _
      rfl
    · intro _ _ sh hsh
      cases hsh
    · intro P cP _ _ h q hq
      exact h q hq
  | sh0 :: rest, st, errs => by
    rw [fbShifts_cons]
    obtain ⟨Δ0, s1, s2, s3, s4, s5, s6, s7⟩ :=
      fbScens_post cfg avail eligCnt wi sk date sh0
        (scenOrder cfg avail date sk sh0) st errs
    set st1 := (fbScens cfg avail eligCnt wi sk date sh0
      (scenOrder cfg avail date sk sh0) st errs).1 with hst1
    obtain ⟨Δr, ih1, ih2, ih3, ih4, ih5, ih6, ih7⟩ :=
      fbShifts_post cfg avail eligCnt wi sk date rest st1
        (fbScens cfg avail eligCnt wi sk date sh0
          (scenOrder cfg avail date sk sh0) st errs).2
    refine ⟨Δ0 ++ Δr, ?_, ?_, ?_, pathEq_trans s4 ih4, ?_, ?_, ?_⟩
    · rw [ih1, s1, List.append_assoc]
    · intro e he
      rcases List.mem_append.mp he with he' | he'
      · obtain ⟨g1, g2, g3, g4, g5, g6⟩ := s2 e he'
        exact ⟨g1, g2, g3 ▸ List.mem_cons_self _ _,
          (mem_jsSortBy _ _ _).mp g4, g5, g6⟩
      · obtain ⟨g1, g2, g3, g4, g5, g6⟩ := ih2 e he'
        exact ⟨g1, g2, List.mem_cons_of_mem _ g3, g4, g5, g6⟩
    · intro hi
      exact ih3 (s3 hi)
    · intro q hq
      rw [ih5 q (by
        rintro ⟨q1, q2, q3⟩
        exact hq ⟨q1, q2, List.mem_cons_of_mem _ q3⟩)]
      refine s5 q ?_
      rintro ⟨q1, q2, q3, _⟩
      exact hq ⟨q1, q2, q3 ▸ List.mem_cons_self _ _⟩
    · intro hndsh hndscn sh hsh scn hscn hnull
      have hsh0notin : sh0 ∉ rest := (List.nodup_cons.mp hndsh).1
      rcases List.mem_cons.mp hsh with rfl | hsh'
      · have hndso : (scenOrder cfg avail date sk sh).Nodup :=
          ((jsSortBy_perm _ _).nodup_iff).mpr hndscn
        have hscnso : scn ∈ scenOrder cfg avail date sk sh :=
          (mem_jsSortBy _ _ _).mpr hscn
        have hout := s6 hndso scn hscnso hnull
        have huntouched : cellVal (fbShifts cfg avail eligCnt wi sk date rest st1
            (fbScens cfg avail eligCnt wi sk date sh
              (scenOrder cfg avail date sk sh) st errs).2).1.schedule
            (wi, sk, sh, scn) = cellVal st1.schedule (wi, sk, sh, scn) :=
          ih5 (wi, sk, sh, scn) (by
            rintro ⟨_, _, q3⟩
            exact hsh0notin q3)
        have hΔrnil : Δr.filter (fun e => decide (e.shift = sh ∧ e.scenario = scn)) = [] := by
          rw [List.filter_eq_nil]
          intro e he
          have h3 := (ih2 e he).2.2.1
          simp only [decide_eq_true_eq]
          rintro ⟨heq, _⟩
          rw [heq] at h3
          exact hsh0notin h3
        have hΔ0eq : Δ0.filter (fun e => decide (e.shift = sh ∧ e.scenario = scn)) =
            Δ0.filter (fun e => decide (e.scenario = scn)) := by
          refine List.filter_congr ?_
          intro e he
          have h3 := (s2 e he).2.2.1
          simp [h3]
        rw [List.filter_append, hΔrnil, List.append_nil, hΔ0eq]
        rcases hout with ⟨⟨a, ha, hcell⟩, hcount⟩ | ⟨hcell, hcount⟩
        · exact Or.inl ⟨⟨a, ha, huntouched.trans hcell⟩, hcount⟩
        · exact Or.inr ⟨huntouched.trans hcell, hcount⟩
      · have hshne : sh ≠ sh0 := by
          intro heq
          rw [heq] at hsh'
          exact hsh0notin hsh'
        have hnull1 : cellVal st1.schedule (wi, sk, sh, scn) = some none := by
          rw [s5 (wi, sk, sh, scn) (by
            rintro ⟨_, _, q3, _⟩
            exact hshne q3)]
          exact hnull
        have hout := ih6 (List.nodup_cons.mp hndsh).2 hndscn sh hsh' scn hscn hnull1
        have hΔ0nil : Δ0.filter (fun e => decide (e.shift = sh ∧ e.scenario = scn)) = [] := by
          rw [List.filter_eq_nil]
          intro e he
          have h3 := (s2 e he).2.2.1
          simp only [decide_eq_true_eq]
          rintro ⟨heq, _⟩
          rw [heq] at h3
          exact hshne h3
        rw [List.filter_append, hΔ0nil, List.nil_append]
        exact hout
    · intro P cP hcP hr0 hno
      exact ih7 P cP hcP hr0 (s7 P cP hcP hr0 hno)

end CIT

namespace CIT

theorem fbSlots_cons_none (cfg : Config) (avail : String → String → RawAvail)
    (eligCnt : String → Int) (wi : Nat) (plan : WeekPlan)
    (sk : SlotKey) (rest : List SlotKey) (st : SState) (errs : List ErrRec)
    (h : plan sk = none) :
    fbSlots cfg avail eligCnt wi plan (sk :: rest) st errs =
      fbSlots cfg avail eligCnt wi plan rest st errs := by
  simp only [fbSlots, h]

theorem fbSlots_cons_some (cfg : Config) (avail : String → String → RawAvail)
    (eligCnt : String → Int) (wi : Nat) (plan : WeekPlan)
    (sk : SlotKey) (rest : List SlotKey) (st : SState) (errs : List ErrRec)
    (date : String) (h : plan sk = some date) :
    fbSlots cfg avail eligCnt wi plan (sk :: rest) st errs =
      fbSlots cfg avail eligCnt wi plan rest
        (fbShifts cfg avail eligCnt wi sk date SHIFTS st errs).1
        (fbShifts cfg avail eligCnt wi sk date SHIFTS st errs).2 := by
  simp only [fbSlots, h]

/-- The per-day fallback loop posts. -/
theorem fbSlots_post (cfg : Config) (avail : String → String → RawAvail)
    (eligCnt : String → Int) (wi : Nat) (plan : WeekPlan) :
    ∀ (sks : List SlotKey) (st : SState) (errs : List ErrRec),
      ∃ Δ : List ErrRec,
        (fbSlots cfg avail eligCnt wi plan sks st errs).2 = errs ++ Δ ∧
        (∀ e ∈ Δ, e.weekKey = wi ∧ e.slotKey ∈ sks ∧ e.shift ∈ SHIFTS ∧
          e.scenario ∈ cfg.slotScenarios e.slotKey ∧
          e.approvedActors = cfg.scenarioActors e.scenario ∧ ErrGood e) ∧
        (InvC st.schedule st.wa →
          InvC (fbSlots cfg avail eligCnt wi plan sks st errs).1.schedule
            (fbSlots cfg avail eligCnt wi plan sks st errs).1.wa) ∧
        PathEq st.schedule
          (fbSlots cfg avail eligCnt wi plan sks st errs).1.schedule ∧
        (∀ q : Pos, ¬(q.1 = wi ∧ q.2.1 ∈ sks) →
          cellVal (fbSlots cfg avail eligCnt wi plan sks st errs).1.schedule q =
            cellVal st.schedule q) ∧
        (sks.Nodup →
          ∀ sk ∈ sks, ∀ date : String, plan sk = some date →
            (cfg.slotScenarios sk).Nodup →
            ∀ sh ∈ SHIFTS, ∀ scn ∈ cfg.slotScenarios sk,
              cellVal st.schedule (wi, sk, sh, scn) = some none →
                ((∃ a, a ∈ cfg.scenarioActors scn ∧
                    cellVal (fbSlots cfg avail eligCnt wi plan sks st
                      errs).1.schedule (wi, sk, sh, scn) = some (some a)) ∧
                  (Δ.filter (fun e => decide (e.slotKey = sk ∧ e.shift = sh ∧
                    e.scenario = scn))).length = 0) ∨
                (cellVal (fbSlots cfg avail eligCnt wi plan sks st
                    errs).1.schedule (wi, sk, sh, scn) = some none ∧
                  (Δ.filter (fun e => decide (e.slotKey = sk ∧ e.shift = sh ∧
                    e.scenario = scn))).length = 1)) ∧
        (∀ (P : String) (cP : AConstraint), cfg.actorConstraints P = some cP →
          cP.maxPMRatio = some 0 →
          (∀ q : Pos, q.2.2.1 = Shift.PM → cellVal st.schedule q ≠ some (some P)) →
          (∀ q : Pos, q.2.2.1 = Shift.PM →
            cellVal (fbSlots cfg avail eligCnt wi plan sks st
              errs).1.schedule q ≠ some (some P)))
  | [], st, errs => by
    refine ⟨[], by simp [fbSlots], ?_, fun hi => hi, pathEq_refl _, ?_, ?_, ?_⟩
    · intro e he
      cases he
    · intro q _
      rfl
    · intro _ sk hsk
      cases hsk
    · intro P cP _ _ h q hq
      exact h q hq
  | sk0 :: rest, st, errs => by
    cases hplan : plan sk0 with
    | none =>
      rw [fbSlots_cons_none cfg avail eligCnt wi plan sk0 rest st errs hplan]
      obtain ⟨Δr, ih1, ih2, ih3, ih4, ih5, ih6, ih7⟩ :=
        fbSlots_post cfg avail eligCnt wi plan rest st errs
      refine ⟨Δr, ih1, ?_, ih3, ih4, ?_, ?_, ih7⟩
      · intro e he
        obtain ⟨g1, g2, g3, g4, g5, g6⟩ := ih2 e he
        exact ⟨g1, List.mem_cons_of_mem _ g2, g3, g4, g5, g6⟩
      · intro q hq
        refine ih5 q ?_
        rintro ⟨q1, q2⟩
        exact hq ⟨q1, List.mem_cons_of_mem _ q2⟩
      · intro hnd sk hsk date hdate hndscn
        rcases List.mem_cons.mp hsk with rfl | hsk'
        · rw [hplan] at hdate
          cases hdate
        · exact ih6 (List.nodup_cons.mp hnd).2 sk hsk' date hdate hndscn
    | some date0 =>
      rw [fbSlots_cons_some cfg avail eligCnt wi plan sk0 rest st errs date0 hplan]
      obtain ⟨Δ0, s1, s2, s3, s4, s5, s6, s7⟩ :=
        fbShifts_post cfg avail eligCnt wi sk0 date0 SHIFTS st errs
      set st1 := (fbShifts cfg avail eligCnt wi sk0 date0 SHIFTS st errs).1 with hst1
      obtain ⟨Δr, ih1, ih2, ih3, ih4, ih5, ih6, ih7⟩ :=
        fbSlots_post cfg avail eligCnt wi plan rest st1
          (fbShifts cfg avail eligCnt wi sk0 date0 SHIFTS st errs).2
      refine ⟨Δ0 ++ Δr, ?_, ?_, ?_, pathEq_trans s4 ih4, ?_, ?_, ?_⟩
      · rw [ih1, s1, List.append_assoc]
      · intro e he
        rcases List.mem_append.mp he with he' | he'
        · obtain ⟨g1, g2, g3, g4, g5, g6⟩ := s2 e he'
          exact ⟨g1, g2 ▸ List.mem_cons_self _ _, g3, g2 ▸ g4, g5, g6⟩
        · obtain ⟨g1, g2, g3, g4, g5, g6⟩ := ih2 e he'
          exact ⟨g1, List.mem_cons_of_mem _ g2, g3, g4, g5, g6⟩
      · intro hi
        exact ih3 (s3 hi)
      · intro q hq
        rw [ih5 q (by
          rintro ⟨q1, q2⟩
          exact hq ⟨q1, List.mem_cons_of_mem _ q2⟩)]
        refine s5 q ?_
        rintro ⟨q1, q2, _⟩
        exact hq ⟨q1, q2 ▸ List.mem_cons_self _ _⟩
      · intro hnd sk hsk date hdate hndscn sh hsh scn hscn hnull
        have hsk0notin : sk0 ∉ rest := (List.nodup_cons.mp hnd).1
        rcases List.mem_cons.mp hsk with rfl | hsk'
        · have hout := s6 (by decide) hndscn sh hsh scn hscn hnull
          have huntouched : cellVal (fbSlots cfg avail eligCnt wi plan rest st1
              (fbShifts cfg avail eligCnt wi sk date0 SHIFTS st errs).2).1.schedule
              (wi, sk, sh, scn) = cellVal st1.schedule (wi, sk, sh, scn) :=
            ih5 (wi, sk, sh, scn) (by
              rintro ⟨_, q2⟩
              exact hsk0notin q2)
          have hΔrnil : Δr.filter (fun e => decide (e.slotKey = sk ∧ e.shift = sh ∧
              e.scenario = scn)) = [] := by
            rw [List.filter_eq_nil]
            intro e he
            have h2 := (ih2 e he).2.1
            simp only [decide_eq_true_eq]
            rintro ⟨heq, _⟩
            rw [heq] at h2
            exact hsk0notin h2
          have hΔ0eq : Δ0.filter (fun e => decide (e.slotKey = sk ∧ e.shift = sh ∧
              e.scenario = scn)) =
              Δ0.filter (fun e => decide (e.shift = sh ∧ e.scenario = scn)) := by
            refine List.filter_congr ?_
            intro e he
            have h2 := (s2 e he).2.1
            simp [h2]
          rw [List.filter_append, hΔrnil, List.append_nil, hΔ0eq]
          rcases hout with ⟨⟨a, ha, hcell⟩, hcount⟩ | ⟨hcell, hcount⟩
          · exact Or.inl ⟨⟨a, ha, huntouched.trans hcell⟩, hcount⟩
          · exact Or.inr ⟨huntouched.trans hcell, hcount⟩
        · have hskne : sk ≠ sk0 := by
            intro heq
            rw [heq] at hsk'
            exact hsk0notin hsk'
          have hnull1 : cellVal st1.schedule (wi, sk, sh, scn) = some none := by
            rw [s5 (wi, sk, sh, scn) (by
              rintro ⟨_, q2, _⟩
              exact hskne q2)]
            exact hnull
          have hout := ih6 (List.nodup_cons.mp hnd).2 sk hsk' date hdate hndscn
            sh hsh scn hscn hnull1
          have hΔ0nil : Δ0.filter (fun e => decide (e.slotKey = sk ∧ e.shift = sh ∧
              e.scenario = scn)) = [] := by
            rw [List.filter_eq_nil]
            intro e he
            have h2 := (s2 e he).2.1
            simp only [decide_eq_true_eq]
            rintro ⟨heq, _⟩
            rw [heq] at h2
            exact hskne h2
          rw [List.filter_append, hΔ0nil, List.nil_append]
          exact hout
      · intro P cP hcP hr0 hno
        exact ih7 P cP hcP hr0 (s7 P cP hcP hr0 hno)

end CIT

namespace CIT

/-- Does a diagnostic record address exactly this enumerated position? -/
def errMatch (wi : Nat) (sk : SlotKey) (sh : Shift) (scn : String) (e : ErrRec) : Bool :=
  decide (e.weekKey = wi ∧ e.slotKey = sk ∧ e.shift = sh ∧ e.scenario = scn)

theorem fbWeeks_cons (weeks : List (List WeekDay)) (weekPlans : Nat → Option WeekPlan)
    (avail : String → String → RawAvail) (cfg : Config) (eligCnt : String → Int)
    (wi : Nat) (rest : List Nat) (st : SState) (errs : List ErrRec) :
    fbWeeks weeks weekPlans avail cfg eligCnt (wi :: rest) st errs =
      fbWeeks weeks weekPlans avail cfg eligCnt rest
        (fbSlots cfg avail eligCnt wi (resolvePlan weeks weekPlans cfg wi)
          SLOT_KEYS st errs).1
        (fbSlots cfg avail eligCnt wi (resolvePlan weeks weekPlans cfg wi)
          SLOT_KEYS st errs).2 := by
  simp only [fbWeeks]

/-- The per-week fallback loop posts. -/
theorem fbWeeks_post (weeks : List (List WeekDay)) (weekPlans : Nat → Option WeekPlan)
    (avail : String → String → RawAvail) (cfg : Config) (eligCnt : String → Int) :
    ∀ (wis : List Nat) (st : SState) (errs : List ErrRec),
      ∃ Δ : List ErrRec,
        (fbWeeks weeks weekPlans avail cfg eligCnt wis st errs).2 = errs ++ Δ ∧
        (∀ e ∈ Δ, e.weekKey ∈ wis ∧ e.slotKey ∈ SLOT_KEYS ∧ e.shift ∈ SHIFTS ∧
          e.scenario ∈ cfg.slotScenarios e.slotKey ∧
          e.approvedActors = cfg.scenarioActors e.scenario ∧ ErrGood e) ∧
        (InvC st.schedule st.wa →
          InvC (fbWeeks weeks weekPlans avail cfg eligCnt wis st errs).1.schedule
            (fbWeeks weeks weekPlans avail cfg eligCnt wis st errs).1.wa) ∧
        PathEq st.schedule
          (fbWeeks weeks weekPlans avail cfg eligCnt wis st errs).1.schedule ∧
        (∀ q : Pos, q.1 ∉ wis →
          cellVal (fbWeeks weeks weekPlans avail cfg eligCnt wis st errs).1.schedule q =
            cellVal st.schedule q) ∧
        (wis.Nodup →
          ∀ wi ∈ wis, ∀ sk ∈ SLOT_KEYS, ∀ date : String,
            resolvePlan weeks weekPlans cfg wi sk = some date →
            (cfg.slotScenarios sk).Nodup →
            ∀ sh ∈ SHIFTS, ∀ scn ∈ cfg.slotScenarios sk,
              cellVal st.schedule (wi, sk, sh, scn) = some none →
                ((∃ a, a ∈ cfg.scenarioActors scn ∧
                    cellVal (fbWeeks weeks weekPlans avail cfg eligCnt wis st
                      errs).1.schedule (wi, sk, sh, scn) = some (some a)) ∧
                  (Δ.filter (errMatch wi sk sh scn)).length = 0) ∨
                (cellVal (fbWeeks weeks weekPlans avail cfg eligCnt wis st
                    errs).1.schedule (wi, sk, sh, scn) = some none ∧
                  (Δ.filter (errMatch wi sk sh scn)).length = 1)) ∧
        (∀ (P : String) (cP : AConstraint), cfg.actorConstraints P = some cP →
          cP.maxPMRatio = some 0 →
          (∀ q : Pos, q.2.2.1 = Shift.PM → cellVal st.schedule q ≠ some (some P)) →
          (∀ q : Pos, q.2.2.1 = Shift.PM →
            cellVal (fbWeeks weeks weekPlans avail cfg eligCnt wis st
              errs).1.schedule q ≠ some (some P)))
  | [], st, errs => by
    refine ⟨[], by simp [fbWeeks], ?_, fun hi => hi, pathEq_refl _, ?_, ?_, ?_⟩
    · intro e he
      cases he
    · intro q _
      rfl
    · intro _ wi hwi
      cases hwi
    · intro P cP _ _ h q hq
      exact h q hq
  | wi0 :: rest, st, errs => by
    rw [fbWeeks_cons]
    obtain ⟨Δ0, s1, s2, s3, s4, s5, s6, s7⟩ :=
      fbSlots_post cfg avail eligCnt wi0 (resolvePlan weeks weekPlans cfg wi0)
        SLOT_KEYS st errs
    set st1 := (fbSlots cfg avail eligCnt wi0 (resolvePlan weeks weekPlans cfg wi0)
      SLOT_KEYS st errs).1 with hst1
    obtain ⟨Δr, ih1, ih2, ih3, ih4, ih5, ih6, ih7⟩ :=
      fbWeeks_post weeks weekPlans avail cfg eligCnt rest st1
        (fbSlots cfg avail eligCnt wi0 (resolvePlan weeks weekPlans cfg wi0)
          SLOT_KEYS st errs).2
    refine ⟨Δ0 ++ Δr, ?_, ?_, ?_, pathEq_trans s4 ih4, ?_, ?_, ?_⟩
    · rw [ih1, s1, List.append_assoc]
    · intro e he
      rcases List.mem_append.mp he with he' | he'
      · obtain ⟨g1, g2, g3, g4, g5, g6⟩ := s2 e he'
        exact ⟨g1 ▸ List.mem_cons_self _ _, g2, g3, g4, g5, g6⟩
      · obtain ⟨g1, g2, g3, g4, g5, g6⟩ := ih2 e he'
        exact ⟨List.mem_cons_of_mem _ g1, g2, g3, g4, g5, g6⟩
    · intro hi
      exact ih3 (s3 hi)
    · intro q hq
      rw [ih5 q (fun hmem => hq (List.mem_cons_of_mem _ hmem))]
      refine s5 q ?_
      rintro ⟨q1, _⟩
      exact hq (q1 ▸ List.mem_cons_self _ _)
    · intro hnd wi hwi sk hsk date hdate hndscn sh hsh scn hscn hnull
      have hwi0notin : wi0 ∉ rest := (List.nodup_cons.mp hnd).1
      rcases List.mem_cons.mp hwi with rfl | hwi'
      · have hout := s6 (by decide) sk hsk date hdate hndscn sh hsh scn hscn hnull
        have huntouched : cellVal (fbWeeks weeks weekPlans avail cfg eligCnt rest st1
            (fbSlots cfg avail eligCnt wi (resolvePlan weeks weekPlans cfg wi)
              SLOT_KEYS st errs).2).1.schedule (wi, sk, sh, scn) =
            cellVal st1.schedule (wi, sk, sh, scn) :=
          ih5 (wi, sk, sh, scn) hwi0notin
        have hΔrnil : Δr.filter (errMatch wi sk sh scn) = [] := by
          rw [List.filter_eq_nil]
          intro e he
          have h1 := (ih2 e he).1
          simp only [errMatch, decide_eq_true_eq]
          rintro ⟨heq, _⟩
          rw [heq] at h1
          exact hwi0notin h1
        have hΔ0eq : Δ0.filter (errMatch wi sk sh scn) =
            Δ0.filter (fun e => decide (e.slotKey = sk ∧ e.shift = sh ∧
              e.scenario = scn)) := by
          refine List.filter_congr ?_
          intro e he
          have h1 := (s2 e he).1
          simp [errMatch, h1]
        rw [List.filter_append, hΔrnil, List.append_nil, hΔ0eq]
        rcases hout with ⟨⟨a, ha, hcell⟩, hcount⟩ | ⟨hcell, hcount⟩
        · exact Or.inl ⟨⟨a, ha, huntouched.trans hcell⟩, hcount⟩
        · exact Or.inr ⟨huntouched.trans hcell, hcount⟩
      · have hwine : wi ≠ wi0 := by
          intro heq
          rw [heq] at hwi'
          exact hwi0notin hwi'
        have hnull1 : cellVal st1.schedule (wi, sk, sh, scn) = some none := by
          rw [s5 (wi, sk, sh, scn) (by
            rintro ⟨q1, _⟩
            exact hwine q1)]
          exact hnull
        have hout := ih6 (List.nodup_cons.mp hnd).2 wi hwi' sk hsk date hdate hndscn
          sh hsh scn hscn hnull1
        have hΔ0nil : Δ0.filter (errMatch wi sk sh scn) = [] := by
          rw [List.filter_eq_nil]
          intro e he
          have h1 := (s2 e he).1
          simp only [errMatch, decide_eq_true_eq]
          rintro ⟨heq, _⟩
          rw [heq] at h1
          exact hwine h1
        rw [List.filter_append, hΔ0nil, List.nil_append]
        exact hout
    · intro P cP hcP hr0 hno
      exact ih7 P cP hcP hr0 (s7 P cP hcP hr0 hno)

end CIT

namespace CIT

/-! ## Expansion-counter lemmas -/

theorem btTry_counter_mono (cfg : Config) (avail : String → String → RawAvail)
    (relax : Nat) (next : List Slot → SState → Bool × List Slot × SState)
    (fwdCnt idx : Nat) (slot : Slot)
    (hnext : ∀ sl s, s.backtrackCount ≤ (next sl s).2.2.backtrackCount) :
    ∀ (cands : List String) (slots : List Slot) (st : SState),
      st.backtrackCount ≤
        (btTry cfg avail relax next fwdCnt idx slot cands slots st).2.2.backtrackCount
  | [], slots, st => le_refl _
  | c :: rest, slots, st => by
    have heq : btTry cfg avail relax next fwdCnt idx slot (c :: rest) slots st =
        (let st1 := applyAssign st slot c
         if forwardOk cfg avail relax slots idx fwdCnt st1 then
           match next slots st1 with
           | (true, slots', st') => (true, slots', st')
           | (false, slots', st') =>
             btTry cfg avail relax next fwdCnt idx slot rest slots'
               (undoAssign st' slot c)
         else btTry cfg avail relax next fwdCnt idx slot rest slots
           (undoAssign st1 slot c)) := rfl
    rw [heq]
    set st1 := applyAssign st slot c with hst1
    have hcnt1 : st1.backtrackCount = st.backtrackCount := rfl
    by_cases hfwd : forwardOk cfg avail relax slots idx fwdCnt st1 = true
    · rw [if_pos hfwd]
      have hn := hnext slots st1
      rcases hnx : next slots st1 with ⟨b, slots', st'⟩
      rw [hnx] at hn
      cases b with
      | true =>
        rw [← hcnt1]
        exact hn
      | false =>
        have h2 := btTry_counter_mono cfg avail relax next fwdCnt idx slot hnext
          rest slots' (undoAssign st' slot c)
        have hcnt2 : (undoAssign st' slot c).backtrackCount = st'.backtrackCount := rfl
        rw [hcnt2] at h2
        calc st.backtrackCount = st1.backtrackCount := hcnt1.symm
          _ ≤ st'.backtrackCount := hn
          _ ≤ _ := h2
    · rw [if_neg hfwd]
      have h2 := btTry_counter_mono cfg avail relax next fwdCnt idx slot hnext
        rest slots (undoAssign st1 slot c)
      have hcnt2 : (undoAssign st1 slot c).backtrackCount = st1.backtrackCount := rfl
      rw [hcnt2, hcnt1] at h2
      exact h2

theorem btGo_counter_mono (cfg : Config) (avail : String → String → RawAvail)
    (eligCnt : String → Int) (relax : Nat) :
    ∀ (rem : Nat) (slots : List Slot) (idx : Nat) (st : SState),
      st.backtrackCount ≤
        (btGo cfg avail eligCnt relax rem slots idx st).2.2.backtrackCount
  | 0, slots, idx, st => le_refl _
  | rem + 1, slots, idx, st => by
    simp only [btGo]
    by_cases hbud : 50000 < st.backtrackCount + 1
    · rw [if_pos hbud]
      show st.backtrackCount ≤ st.backtrackCount + 1
      omega
    · rw [if_neg hbud]
      set stb : SState := { st with backtrackCount := st.backtrackCount + 1 }
        with hstb
      set m := mrvScan cfg avail relax slots idx (rem + 1) stb with hmdef
      set slots2 := lswap slots idx m with hs2
      set slot := (slots2.get? idx).getD dSlot with hslot
      set cands := rankCandidates cfg eligCnt
        (getEligible cfg avail slot stb relax) slot.shift stb with hcands
      by_cases hemp : cands.isEmpty = true
      · rw [if_pos hemp]
        show st.backtrackCount ≤ st.backtrackCount + 1
        omega
      · rw [if_neg hemp]
        have hmono := btTry_counter_mono cfg avail relax
          (fun sl s => btGo cfg avail eligCnt relax rem sl (idx + 1) s) rem idx slot
          (fun sl s => btGo_counter_mono cfg avail eligCnt relax rem sl (idx + 1) s)
          cands slots2 stb
        rcases hbt : btTry cfg avail relax
            (fun sl s => btGo cfg avail eligCnt relax rem sl (idx + 1) s)
            rem idx slot cands slots2 stb with ⟨b, slots', st'⟩
        rw [hbt] at hmono
        have hstep : st.backtrackCount ≤ stb.backtrackCount := by
          show st.backtrackCount ≤ st.backtrackCount + 1
          omega
        cases b with
        | true => exact le_trans hstep hmono
        | false => exact le_trans hstep hmono

theorem btGo_counter_succ (cfg : Config) (avail : String → String → RawAvail)
    (eligCnt : String → Int) (relax : Nat) (rem : Nat) (slots : List Slot)
    (idx : Nat) (st : SState) :
    st.backtrackCount + 1 ≤
      (btGo cfg avail eligCnt relax (rem + 1) slots idx st).2.2.backtrackCount := by
  simp only [btGo]
  by_cases hbud : 50000 < st.backtrackCount + 1
  · rw [if_pos hbud]
  · rw [if_neg hbud]
    set stb : SState := { st with backtrackCount := st.backtrackCount + 1 }
      with hstb
    set m := mrvScan cfg avail relax slots idx (rem + 1) stb with hmdef
    set slots2 := lswap slots idx m with hs2
    set slot := (slots2.get? idx).getD dSlot with hslot
    set cands := rankCandidates cfg eligCnt
      (getEligible cfg avail slot stb relax) slot.shift stb with hcands
    by_cases hemp : cands.isEmpty = true
    · rw [if_pos hemp]
    · rw [if_neg hemp]
      have hmono := btTry_counter_mono cfg avail relax
        (fun sl s => btGo cfg avail eligCnt relax rem sl (idx + 1) s) rem idx slot
        (fun sl s => btGo_counter_mono cfg avail eligCnt relax rem sl (idx + 1) s)
        cands slots2 stb
      rcases hbt : btTry cfg avail relax
          (fun sl s => btGo cfg avail eligCnt relax rem sl (idx + 1) s)
          rem idx slot cands slots2 stb with ⟨b, slots', st'⟩
      rw [hbt] at hmono
      cases b with
      | true => exact hmono
      | false => exact hmono

end CIT

namespace CIT

/-! ## PM exclusion for zero-ratio actors (strict level) -/

/-- `P` holds no PM cell of the schedule. -/
def NoPM (P : String) (s : Schedule) : Prop :=
  ∀ q : Pos, q.2.2.1 = Shift.PM → cellVal s q ≠ some (some P)

theorem noPM_applyAssign {P : String} {st : SState} {slot : Slot} {c : String}
    (hst : NoPM P st.schedule) (hc : slot.shift = Shift.PM → c ≠ P) :
    NoPM P (applyAssign st slot c).schedule := by
  intro q hq
  rw [cellVal_applyAssign]
  by_cases hqpos : q = posOf slot ∧ pathOk st.schedule slot.wi slot.slotKey = true
  · rw [if_pos hqpos]
    intro hcontra
    injection hcontra with hcontra'
    injection hcontra' with hcontra''
    have hshPM : slot.shift = Shift.PM := by
      rw [hqpos.1] at hq
      exact hq
    exact hc hshPM hcontra''
  · rw [if_neg hqpos]
    exact hst q hq

theorem noPM_undoAssign {P : String} {st : SState} {slot : Slot} {c : String}
    (hst : NoPM P st.schedule) : NoPM P (undoAssign st slot c).schedule := by
  intro q hq
  rw [cellVal_undoAssign]
  by_cases hqpos : q = posOf slot ∧ pathOk st.schedule slot.wi slot.slotKey = true
  · rw [if_pos hqpos]
    intro hcontra
    cases hcontra
  · rw [if_neg hqpos]
    exact hst q hq

theorem btTry_noPM (cfg : Config) (avail : String → String → RawAvail)
    (relax : Nat) (next : List Slot → SState → Bool × List Slot × SState)
    (fwdCnt idx : Nat) (slot : Slot) (P : String)
    (hnext : ∀ sl s, NoPM P s.schedule → NoPM P (next sl s).2.2.schedule) :
    ∀ (cands : List String) (slots : List Slot) (st : SState),
      (∀ c ∈ cands, slot.shift = Shift.PM → c ≠ P) →
      NoPM P st.schedule →
      NoPM P (btTry cfg avail relax next fwdCnt idx slot cands slots st).2.2.schedule
  | [], slots, st, hcands, hst => hst
  | c :: rest, slots, st, hcands, hst => by
    have heq : btTry cfg avail relax next fwdCnt idx slot (c :: rest) slots st =
        (let st1 := applyAssign st slot c
         if forwardOk cfg avail relax slots idx fwdCnt st1 then
           match next slots st1 with
           | (true, slots', st') => (true, slots', st')
           | (false, slots', st') =>
             btTry cfg avail relax next fwdCnt idx slot rest slots'
               (undoAssign st' slot c)
         else btTry cfg avail relax next fwdCnt idx slot rest slots
           (undoAssign st1 slot c)) := rfl
    rw [heq]
    set st1 := applyAssign st slot c with hst1
    have hnp1 : NoPM P st1.schedule :=
      noPM_applyAssign hst (hcands c (List.mem_cons_self c rest))
    have hcrest : ∀ c' ∈ rest, slot.shift = Shift.PM → c' ≠ P :=
      fun c' h' => hcands c' (List.mem_cons_of_mem c h')
    by_cases hfwd : forwardOk cfg avail relax slots idx fwdCnt st1 = true
    · rw [if_pos hfwd]
      have hn := hnext slots st1 hnp1
      rcases hnx : next slots st1 with ⟨b, slots', st'⟩
      rw [hnx] at hn
      cases b with
      | true => exact hn
      | false =>
        exact btTry_noPM cfg avail relax next fwdCnt idx slot P hnext rest slots'
          (undoAssign st' slot c) hcrest (noPM_undoAssign hn)
    · rw [if_neg hfwd]
      exact btTry_noPM cfg avail relax next fwdCnt idx slot P hnext rest slots
        (undoAssign st1 slot c) hcrest (noPM_undoAssign hnp1)

theorem btGo_noPM (cfg : Config) (avail : String → String → RawAvail)
    (eligCnt : String → Int) (P : String) (cP : AConstraint)
    (hcP : cfg.actorConstraints P = some cP) (hr0 : cP.maxPMRatio = some 0) :
    ∀ (rem : Nat) (slots : List Slot) (idx : Nat) (st : SState),
      NoPM P st.schedule →
      NoPM P (btGo cfg avail eligCnt 0 rem slots idx st).2.2.schedule
  | 0, slots, idx, st, hst => hst
  | rem + 1, slots, idx, st, hst => by
    simp only [btGo]
    by_cases hbud : 50000 < st.backtrackCount + 1
    · rw [if_pos hbud]
      exact hst
    · rw [if_neg hbud]
      set stb : SState := { st with backtrackCount := st.backtrackCount + 1 }
        with hstb
      have hstb2 : NoPM P stb.schedule := hst
      set m := mrvScan cfg avail 0 slots idx (rem + 1) stb with hmdef
      set slots2 := lswap slots idx m with hs2
      set slot := (slots2.get? idx).getD dSlot with hslot
      set cands := rankCandidates cfg eligCnt
        (getEligible cfg avail slot stb 0) slot.shift stb with hcands
      by_cases hemp : cands.isEmpty = true
      · rw [if_pos hemp]
        exact hst
      · rw [if_neg hemp]
        have hcgood : ∀ c ∈ cands, slot.shift = Shift.PM → c ≠ P := by
          intro c hcmem hsh hceq
          have hmem : c ∈ getEligible cfg avail slot stb 0 :=
            mem_rankCandidates.mp hcmem
          rw [hceq] at hmem
          exact getEligible_zero_ratio_pm hcP hr0 hsh hmem
        have hres := btTry_noPM cfg avail 0
          (fun sl s => btGo cfg avail eligCnt 0 rem sl (idx + 1) s) rem idx slot P
          (fun sl s hs => btGo_noPM cfg avail eligCnt P cP hcP hr0 rem sl (idx + 1) s hs)
          cands slots2 stb hcgood hstb2
        rcases hbt : btTry cfg avail 0
            (fun sl s => btGo cfg avail eligCnt 0 rem sl (idx + 1) s)
            rem idx slot cands slots2 stb with ⟨b, slots', st'⟩
        rw [hbt] at hres
        cases b with
        | true => exact hres
        | false => exact hres

/-- The initial skeleton has no PM assignment at all. -/
theorem noPM_freshState (weeks : List (List WeekDay))
    (weekPlans : Nat → Option WeekPlan) (cfg : Config) (P : String) :
    NoPM P (freshState weeks weekPlans cfg).schedule := by
  intro q hq hcell
  have := cellVal_initSchedule_null weeks weekPlans cfg q (some P) hcell
  cases this

end CIT

namespace CIT

/-! ## Whole-run helpers -/

theorem pathOk_fresh_enum (weeks : List (List WeekDay))
    (weekPlans : Nat → Option WeekPlan) (cfg : Config) :
    ∀ s ∈ enumSlots weeks weekPlans cfg,
      pathOk (freshState weeks weekPlans cfg).schedule s.wi s.slotKey = true := by
  intro s hs
  obtain ⟨h1, h2, _⟩ := (mem_enumSlots weeks weekPlans cfg s).mp hs
  exact (pathOk_initSchedule weeks weekPlans cfg s.wi s.slotKey).mpr ⟨h1, s.date, h2⟩

theorem runAttempt_true_post (weeks : List (List WeekDay))
    (weekPlans : Nat → Option WeekPlan) (avail : String → String → RawAvail)
    (cfg : Config) (relax : Nat)
    (h : (runAttempt weeks weekPlans avail cfg relax).1 = true) :
    InvC (runAttempt weeks weekPlans avail cfg relax).2.2.schedule
      (runAttempt weeks weekPlans avail cfg relax).2.2.wa ∧
    AllAssigned (runAttempt weeks weekPlans avail cfg relax).2.2.schedule
      (enumSlots weeks weekPlans cfg) := by
  have hpost := btGo_post cfg avail (eligibleCountF weeks weekPlans avail cfg) relax
    (enumSlots weeks weekPlans cfg).length (enumSlots weeks weekPlans cfg) 0
    (freshState weeks weekPlans cfg) (by omega)
    (by
      rw [List.drop_zero]
      exact pathOk_fresh_enum weeks weekPlans cfg)
  have hsucc := hpost.2.1 h
  rw [List.drop_zero] at hsucc
  exact ⟨hsucc.1 (InvC_freshState weeks weekPlans cfg), hsucc.2.1⟩

theorem fallbackRun_eq (weeks : List (List WeekDay))
    (weekPlans : Nat → Option WeekPlan) (avail : String → String → RawAvail)
    (cfg : Config) :
    fallbackRun weeks weekPlans avail cfg =
      ((fbWeeks weeks weekPlans avail cfg (eligibleCountF weeks weekPlans avail cfg)
        (List.range weeks.length) (freshState weeks weekPlans cfg) []).1.schedule,
       (fbWeeks weeks weekPlans avail cfg (eligibleCountF weeks weekPlans avail cfg)
        (List.range weeks.length) (freshState weeks weekPlans cfg) []).2) := by
  simp only [fallbackRun]

/-- Every branch of `generateSchedule` returns a schedule admitting a
week-assignment registry satisfying the invariant. -/
theorem invC_generateSchedule (weeks : List (List WeekDay))
    (weekPlans : Nat → Option WeekPlan) (avail : String → String → RawAvail)
    (cfg : Config) :
    ∃ wa, InvC (generateSchedule weeks weekPlans avail cfg).1 wa := by
  rw [generateSchedule]
  rcases h0 : runAttempt weeks weekPlans avail cfg 0 with ⟨b0, sl0, st0⟩
  cases b0 with
  | true =>
    refine ⟨st0.wa, ?_⟩
    have hp := (runAttempt_true_post weeks weekPlans avail cfg 0 (by rw [h0])).1
    rw [h0] at hp
    exact hp
  | false =>
    rcases h1 : runAttempt weeks weekPlans avail cfg 1 with ⟨b1, sl1, st1⟩
    cases b1 with
    | true =>
      refine ⟨st1.wa, ?_⟩
      have hp := (runAttempt_true_post weeks weekPlans avail cfg 1 (by rw [h1])).1
      rw [h1] at hp
      exact hp
    | false =>
      rcases h2 : runAttempt weeks weekPlans avail cfg 2 with ⟨b2, sl2, st2⟩
      cases b2 with
      | true =>
        refine ⟨st2.wa, ?_⟩
        have hp := (runAttempt_true_post weeks weekPlans avail cfg 2 (by rw [h2])).1
        rw [h2] at hp
        exact hp
      | false =>
        rcases h3 : runAttempt weeks weekPlans avail cfg 3 with ⟨b3, sl3, st3⟩
        cases b3 with
        | true =>
          refine ⟨st3.wa, ?_⟩
          have hp := (runAttempt_true_post weeks weekPlans avail cfg 3 (by rw [h3])).1
          rw [h3] at hp
          exact hp
        | false =>
          obtain ⟨Δ, _, _, ih3, _⟩ :=
            fbWeeks_post weeks weekPlans avail cfg
              (eligibleCountF weeks weekPlans avail cfg)
              (List.range weeks.length) (freshState weeks weekPlans cfg) []
          refine ⟨(fbWeeks weeks weekPlans avail cfg
            (eligibleCountF weeks weekPlans avail cfg)
            (List.range weeks.length) (freshState weeks weekPlans cfg) []).1.wa, ?_⟩
          rw [fallbackRun_eq]
          exact ih3 (InvC_freshState weeks weekPlans cfg)

end CIT

namespace CIT

/-- C2: in the schedule returned by `generateSchedule` — whichever branch
produced it — no person is assigned to more than one scenario within the
same week and shift, across all training days of that week: two non-null
cells of one week and shift holding the same person name the same
scenario. -/
theorem no_double_booking (weeks : List (List WeekDay))
    (weekPlans : Nat → Option WeekPlan) (avail : String → String → RawAvail)
    (cfg : Config) (wi : Nat) (sk1 sk2 : SlotKey) (sh : Shift)
    (scn1 scn2 a : String)
    (h1 : cellVal (generateSchedule weeks weekPlans avail cfg).1
      (wi, sk1, sh, scn1) = some (some a))
    (h2 : cellVal (generateSchedule weeks weekPlans avail cfg).1
      (wi, sk2, sh, scn2) = some (some a)) :
    scn1 = scn2 := by
  obtain ⟨wa, hw⟩ := invC_generateSchedule weeks weekPlans avail cfg
  exact InvC_no_double hw h1 h2

theorem no_double_booking_witness :
    cellVal (generateSchedule exWeeks exPlans exAvail exCfg).1
      (0, SlotKey.slot1, Shift.AM, "X") = some (some "A") ∧ "X" = "X" := by
  have h : cellVal (generateSchedule exWeeks exPlans exAvail exCfg).1
      (0, SlotKey.slot1, Shift.AM, "X") = some (some "A") := by decide
  exact ⟨h, no_double_booking exWeeks exPlans exAvail exCfg 0 SlotKey.slot1
    SlotKey.slot1 Shift.AM "X" "X" "A" h h⟩

/-- C3: if `generateSchedule` returns with an empty errors list, no person
holds two distinct scenarios of a same-shift conflict-rule pair within the
same week and shift. -/
theorem conflict_pair_exclusive (weeks : List (List WeekDay))
    (weekPlans : Nat → Option WeekPlan) (avail : String → String → RawAvail)
    (cfg : Config) (r : CRule) (hr : r ∈ cfg.conflicts)
    (hscope : r.scope = "same_shift") (scn1 scn2 : String)
    (h1m : scn1 ∈ r.actor_cannot_play) (h2m : scn2 ∈ r.actor_cannot_play)
    (hne : scn1 ≠ scn2)
    (herr : (generateSchedule weeks weekPlans avail cfg).2 = [])
    (wi : Nat) (sk1 sk2 : SlotKey) (sh : Shift) (a : String) :
    ¬(cellVal (generateSchedule weeks weekPlans avail cfg).1
        (wi, sk1, sh, scn1) = some (some a) ∧
      cellVal (generateSchedule weeks weekPlans avail cfg).1
        (wi, sk2, sh, scn2) = some (some a)) := by
  rintro ⟨hc1, hc2⟩
  obtain ⟨wa, hw⟩ := invC_generateSchedule weeks weekPlans avail cfg
  exact hne (InvC_no_double hw hc1 hc2)

def exRule : CRule := { scope := "same_shift", actor_cannot_play := ["X", "Y"] }

theorem conflict_pair_exclusive_witness :
    exRule ∈ exCfg.conflicts ∧ exRule.scope = "same_shift" ∧
    "X" ∈ exRule.actor_cannot_play ∧ "Y" ∈ exRule.actor_cannot_play ∧
    "X" ≠ "Y" ∧ (generateSchedule exWeeks exPlans exAvail exCfg).2 = [] ∧
    ¬(cellVal (generateSchedule exWeeks exPlans exAvail exCfg).1
        (0, SlotKey.slot1, Shift.AM, "X") = some (some "A") ∧
      cellVal (generateSchedule exWeeks exPlans exAvail exCfg).1
        (0, SlotKey.slot1, Shift.AM, "Y") = some (some "A")) := by
  refine ⟨by decide, rfl, by decide, by decide, by decide, by decide, ?_⟩
  exact conflict_pair_exclusive exWeeks exPlans exAvail exCfg exRule (by decide)
    rfl "X" "Y" (by decide) (by decide) (by decide) (by decide)
    0 SlotKey.slot1 SlotKey.slot1 Shift.AM "A"

end CIT

namespace CIT

/-- C6: the expansion counter is incremented once on every `backtrack` call
at an unassigned position, and once it exceeds 50,000 the call returns
failure immediately with nothing else changed; each relaxation-level attempt
starts from the fresh state, whose counter is 0; and when all four attempts
fail the solver proceeds to the greedy fallback. -/
theorem backtrack_budget (cfg : Config) (avail : String → String → RawAvail)
    (eligCnt : String → Int) (relax : Nat) (rem : Nat) (slots : List Slot)
    (idx : Nat) (st : SState) (weeks : List (List WeekDay))
    (weekPlans : Nat → Option WeekPlan) (avail2 : String → String → RawAvail)
    (cfg2 : Config) (relax2 : Nat)
    (hover : 50000 ≤ st.backtrackCount) :
    btGo cfg avail eligCnt relax (rem + 1) slots idx st =
      (false, slots, { st with backtrackCount := st.backtrackCount + 1 }) ∧
    st.backtrackCount + 1 ≤
      (btGo cfg avail eligCnt relax (rem + 1) slots idx st).2.2.backtrackCount ∧
    (freshState weeks weekPlans cfg2).backtrackCount = 0 ∧
    runAttempt weeks weekPlans avail2 cfg2 relax2 =
      btGo cfg2 avail2 (eligibleCountF weeks weekPlans avail2 cfg2) relax2
        (enumSlots weeks weekPlans cfg2).length (enumSlots weeks weekPlans cfg2) 0
        (freshState weeks weekPlans cfg2) ∧
    ((runAttempt weeks weekPlans avail2 cfg2 0).1 = false →
      (runAttempt weeks weekPlans avail2 cfg2 1).1 = false →
      (runAttempt weeks weekPlans avail2 cfg2 2).1 = false →
      (runAttempt weeks weekPlans avail2 cfg2 3).1 = false →
      generateSchedule weeks weekPlans avail2 cfg2 =
        fallbackRun weeks weekPlans avail2 cfg2) := by
  refine ⟨?_, btGo_counter_succ cfg avail eligCnt relax rem slots idx st, rfl,
    rfl, ?_⟩
  · simp only [btGo]
    rw [if_pos (by omega)]
  · intro f0 f1 f2 f3
    rw [generateSchedule]
    rcases h0 : runAttempt weeks weekPlans avail2 cfg2 0 with ⟨b0, sl0, st0⟩
    rw [h0] at f0
    subst f0
    rcases h1 : runAttempt weeks weekPlans avail2 cfg2 1 with ⟨b1, sl1, st1⟩
    rw [h1] at f1
    subst f1
    rcases h2 : runAttempt weeks weekPlans avail2 cfg2 2 with ⟨b2, sl2, st2⟩
    rw [h2] at f2
    subst f2
    rcases h3 : runAttempt weeks weekPlans avail2 cfg2 3 with ⟨b3, sl3, st3⟩
    rw [h3] at f3
    subst f3
    rfl

def exBudgetState : SState :=
  { freshState exWeeks exPlans exCfg with backtrackCount := 50000 }

theorem backtrack_budget_witness :
    50000 ≤ exBudgetState.backtrackCount ∧
    btGo exCfg exAvail (fun _ => 0) 0 (0 + 1) [] 0 exBudgetState =
      (false, [],
        { exBudgetState with backtrackCount := exBudgetState.backtrackCount + 1 }) :=
  ⟨by decide, (backtrack_budget exCfg exAvail (fun _ => 0) 0 0 [] 0 exBudgetState
    exWeeks exPlans exAvail exCfg 0 (by decide)).1⟩

end CIT

namespace CIT

def cCons : AConstraint := { allowedDays := [], maxPMRatio := some 0, preferAM := false }

/-- One actor with `maxPMRatio = 0`, sole approved actor of the only
scenario: level 0 cannot fill the PM slot, level 1 drops the PM cap. -/
def cCfg : Config :=
  { actors := ["P"]
    scenarioActors := fun s => if s = "X" then ["P"] else []
    slotScenarios := fun sk => match sk with | .slot1 => ["X"] | _ => []
    conflicts := []
    actorConstraints := fun a => if a = "P" then some cCons else none
    defaultDays := fun _ => "Tuesday" }

/-- C4 counterexample: an actor whose constraint sets `maxPMRatio = 0` does
appear in a PM assignment of the returned schedule — the PM-ratio rule is
one of the relaxed constraints, and the relax-1 attempt drops it. -/
theorem pm_zero_ratio_counterexample :
    cCfg.actorConstraints "P" = some cCons ∧ cCons.maxPMRatio = some 0 ∧
    cellVal (generateSchedule exWeeks exPlans exAvail cCfg).1
      (0, SlotKey.slot1, Shift.PM, "X") = some (some "P") :=
  ⟨rfl, rfl, by decide⟩

/-- C4 amended: the PM exclusion for a `maxPMRatio = 0` actor holds for
every schedule produced by the strict (relax 0) attempt or by the greedy
fallback — that is, unless a relaxed attempt (level 1–3) produced the
schedule. -/
theorem pm_zero_ratio_amended (weeks : List (List WeekDay))
    (weekPlans : Nat → Option WeekPlan) (avail : String → String → RawAvail)
    (cfg : Config) (P : String) (cP : AConstraint)
    (hcP : cfg.actorConstraints P = some cP) (hr0 : cP.maxPMRatio = some 0)
    (hcase : (runAttempt weeks weekPlans avail cfg 0).1 = true ∨
      ((runAttempt weeks weekPlans avail cfg 1).1 = false ∧
       (runAttempt weeks weekPlans avail cfg 2).1 = false ∧
       (runAttempt weeks weekPlans avail cfg 3).1 = false))
    (q : Pos) (hq : q.2.2.1 = Shift.PM) :
    cellVal (generateSchedule weeks weekPlans avail cfg).1 q ≠ some (some P) := by
  rw [generateSchedule]
  rcases h0 : runAttempt weeks weekPlans avail cfg 0 with ⟨b0, sl0, st0⟩
  cases b0 with
  | true =>
    have hn := btGo_noPM cfg avail (eligibleCountF weeks weekPlans avail cfg) P cP
      hcP hr0 (enumSlots weeks weekPlans cfg).length (enumSlots weeks weekPlans cfg)
      0 (freshState weeks weekPlans cfg) (noPM_freshState weeks weekPlans cfg P)
    have hn2 : NoPM P (runAttempt weeks weekPlans avail cfg 0).2.2.schedule := hn
    rw [h0] at hn2
    exact hn2 q hq
  | false =>
    rcases hcase with hA | ⟨f1, f2, f3⟩
    · rw [h0] at hA
      cases hA
    · rcases h1 : runAttempt weeks weekPlans avail cfg 1 with ⟨b1, sl1, st1⟩
      rw [h1] at f1
      subst f1
      rcases h2 : runAttempt weeks weekPlans avail cfg 2 with ⟨b2, sl2, st2⟩
      rw [h2] at f2
      subst f2
      rcases h3 : runAttempt weeks weekPlans avail cfg 3 with ⟨b3, sl3, st3⟩
      rw [h3] at f3
      subst f3
      show cellVal (fallbackRun weeks weekPlans avail cfg).1 q ≠ some (some P)
      rw [fallbackRun_eq]
      obtain ⟨Δ, _, _, _, _, _, _, ih7⟩ :=
        fbWeeks_post weeks weekPlans avail cfg
          (eligibleCountF weeks weekPlans avail cfg)
          (List.range weeks.length) (freshState weeks weekPlans cfg) []
      exact ih7 P cP hcP hr0
        (fun q' hq' => noPM_freshState weeks weekPlans cfg P q' hq') q hq

/-- `exCfg` plus one uninvolved actor constrained to `maxPMRatio = 0`. -/
def wCfg : Config :=
  { exCfg with actorConstraints := fun a => if a = "C" then some cCons else none }

theorem pm_zero_ratio_amended_witness :
    wCfg.actorConstraints "C" = some cCons ∧ cCons.maxPMRatio = some 0 ∧
    (runAttempt exWeeks exPlans exAvail wCfg 0).1 = true ∧
    cellVal (generateSchedule exWeeks exPlans exAvail wCfg).1
      (0, SlotKey.slot1, Shift.PM, "X") ≠ some (some "C") :=
  ⟨rfl, rfl, by decide,
    pm_zero_ratio_amended exWeeks exPlans exAvail wCfg "C" cCons rfl rfl
      (Or.inl (by decide)) (0, SlotKey.slot1, Shift.PM, "X") rfl⟩

end CIT

namespace CIT

/-! ## Assigned cells always hold approved actors -/

/-- Every non-null cell holds an actor approved for that cell's scenario. -/
def ApprovedCells (cfg : Config) (s : Schedule) : Prop :=
  ∀ (q : Pos) (a : String), cellVal s q = some (some a) →
    a ∈ cfg.scenarioActors q.2.2.2

theorem approvedCells_applyAssign {cfg : Config} {st : SState} {slot : Slot}
    {c : String} (hst : ApprovedCells cfg st.schedule)
    (hc : c ∈ cfg.scenarioActors slot.scenario) :
    ApprovedCells cfg (applyAssign st slot c).schedule := by
  intro q a hcell
  rw [cellVal_applyAssign] at hcell
  by_cases hqpos : q = posOf slot ∧ pathOk st.schedule slot.wi slot.slotKey = true
  · rw [if_pos hqpos] at hcell
    injection hcell with hcell'
    injection hcell' with hcell''
    rw [hqpos.1]
    show a ∈ cfg.scenarioActors slot.scenario
    rw [← hcell'']
    exact hc
  · rw [if_neg hqpos] at hcell
    exact hst q a hcell

theorem approvedCells_undoAssign {cfg : Config} {st : SState} {slot : Slot}
    {c : String} (hst : ApprovedCells cfg st.schedule) :
    ApprovedCells cfg (undoAssign st slot c).schedule := by
  intro q a hcell
  rw [cellVal_undoAssign] at hcell
  by_cases hqpos : q = posOf slot ∧ pathOk st.schedule slot.wi slot.slotKey = true
  · rw [if_pos hqpos] at hcell
    cases hcell
  · rw [if_neg hqpos] at hcell
    exact hst q a hcell

theorem btTry_approved (cfg : Config) (avail : String → String → RawAvail)
    (relax : Nat) (next : List Slot → SState → Bool × List Slot × SState)
    (fwdCnt idx : Nat) (slot : Slot)
    (hnext : ∀ sl s, ApprovedCells cfg s.schedule →
      ApprovedCells cfg (next sl s).2.2.schedule) :
    ∀ (cands : List String) (slots : List Slot) (st : SState),
      (∀ c ∈ cands, c ∈ cfg.scenarioActors slot.scenario) →
      ApprovedCells cfg st.schedule →
      ApprovedCells cfg
        (btTry cfg avail relax next fwdCnt idx slot cands slots st).2.2.schedule
  | [], slots, st, hcands, hst => hst
  | c :: rest, slots, st, hcands, hst => by
    have heq : btTry cfg avail relax next fwdCnt idx slot (c :: rest) slots st =
        (let st1 := applyAssign st slot c
         if forwardOk cfg avail relax slots idx fwdCnt st1 then
           match next slots st1 with
           | (true, slots', st') => (true, slots', st')
           | (false, slots', st') =>
             btTry cfg avail relax next fwdCnt idx slot rest slots'
               (undoAssign st' slot c)
         else btTry cfg avail relax next fwdCnt idx slot rest slots
           (undoAssign st1 slot c)) := rfl
    rw [heq]
    set st1 := applyAssign st slot c with hst1
    have hap1 : ApprovedCells cfg st1.schedule :=
      approvedCells_applyAssign hst (hcands c (List.mem_cons_self c rest))
    have hcrest : ∀ c' ∈ rest, c' ∈ cfg.scenarioActors slot.scenario :=
      fun c' h' => hcands c' (List.mem_cons_of_mem c h')
    by_cases hfwd : forwardOk cfg avail relax slots idx fwdCnt st1 = true
    · rw [if_pos hfwd]
      have hn := hnext slots st1 hap1
      rcases hnx : next slots st1 with ⟨b, slots', st'⟩
      rw [hnx] at hn
      cases b with
      | true => exact hn
      | false =>
        exact btTry_approved cfg avail relax next fwdCnt idx slot hnext rest slots'
          (undoAssign st' slot c) hcrest (approvedCells_undoAssign hn)
    · rw [if_neg hfwd]
      exact btTry_approved cfg avail relax next fwdCnt idx slot hnext rest slots
        (undoAssign st1 slot c) hcrest (approvedCells_undoAssign hap1)

theorem btGo_approved (cfg : Config) (avail : String → String → RawAvail)
    (eligCnt : String → Int) (relax : Nat) :
    ∀ (rem : Nat) (slots : List Slot) (idx : Nat) (st : SState),
      ApprovedCells cfg st.schedule →
      ApprovedCells cfg (btGo cfg avail eligCnt relax rem slots idx st).2.2.schedule
  | 0, slots, idx, st, hst => hst
  | rem + 1, slots, idx, st, hst => by
    simp only [btGo]
    by_cases hbud : 50000 < st.backtrackCount + 1
    · rw [if_pos hbud]
      exact hst
    · rw [if_neg hbud]
      set stb : SState := { st with backtrackCount := st.backtrackCount + 1 }
        with hstb
      have hstb2 : ApprovedCells cfg stb.schedule := hst
      set m := mrvScan cfg avail relax slots idx (rem + 1) stb with hmdef
      set slots2 := lswap slots idx m with hs2
      set slot := (slots2.get? idx).getD dSlot with hslot
      set cands := rankCandidates cfg eligCnt
        (getEligible cfg avail slot stb relax) slot.shift stb with hcands
      by_cases hemp : cands.isEmpty = true
      · rw [if_pos hemp]
        exact hst
      · rw [if_neg hemp]
        have hcgood : ∀ c ∈ cands, c ∈ cfg.scenarioActors slot.scenario :=
          fun c hcmem => getEligible_approved (mem_rankCandidates.mp hcmem)
        have hres := btTry_approved cfg avail relax
          (fun sl s => btGo cfg avail eligCnt relax rem sl (idx + 1) s) rem idx slot
          (fun sl s hs => btGo_approved cfg avail eligCnt relax rem sl (idx + 1) s hs)
          cands slots2 stb hcgood hstb2
        rcases hbt : btTry cfg avail relax
            (fun sl s => btGo cfg avail eligCnt relax rem sl (idx + 1) s)
            rem idx slot cands slots2 stb with ⟨b, slots', st'⟩
        rw [hbt] at hres
        cases b with
        | true => exact hres
        | false => exact hres

theorem approvedCells_freshState (weeks : List (List WeekDay))
    (weekPlans : Nat → Option WeekPlan) (cfg : Config) :
    ApprovedCells cfg (freshState weeks weekPlans cfg).schedule := by
  intro q a hcell
  have := cellVal_initSchedule_null weeks weekPlans cfg q (some a) hcell
  cases this

/-- An enumerated slot whose scenario has no approved actor forces every
relaxation-level attempt to fail. -/
theorem runAttempt_false_of_empty (weeks : List (List WeekDay))
    (weekPlans : Nat → Option WeekPlan) (avail : String → String → RawAvail)
    (cfg : Config) (relax : Nat) (s : Slot)
    (hs : s ∈ enumSlots weeks weekPlans cfg)
    (hempty : cfg.scenarioActors s.scenario = []) :
    (runAttempt weeks weekPlans avail cfg relax).1 = false := by
  cases hres : (runAttempt weeks weekPlans avail cfg relax).1 with
  | false => rfl
  | true =>
    exfalso
    have hall := (runAttempt_true_post weeks weekPlans avail cfg relax hres).2
    obtain ⟨a, ha⟩ := hall s hs
    have hap : ApprovedCells cfg
        (runAttempt weeks weekPlans avail cfg relax).2.2.schedule :=
      btGo_approved cfg avail (eligibleCountF weeks weekPlans avail cfg) relax
        (enumSlots weeks weekPlans cfg).length (enumSlots weeks weekPlans cfg) 0
        (freshState weeks weekPlans cfg)
        (approvedCells_freshState weeks weekPlans cfg)
    have hmem : a ∈ cfg.scenarioActors s.scenario := hap (posOf s) a ha
    rw [hempty] at hmem
    cases hmem

end CIT

namespace CIT

/-- `generateSchedule` either returns a successful attempt's schedule with an
empty error list, or all four attempts failed and it returns the fallback. -/
theorem generateSchedule_cases (weeks : List (List WeekDay))
    (weekPlans : Nat → Option WeekPlan) (avail : String → String → RawAvail)
    (cfg : Config) :
    (∃ relax : Nat, (runAttempt weeks weekPlans avail cfg relax).1 = true ∧
      generateSchedule weeks weekPlans avail cfg =
        ((runAttempt weeks weekPlans avail cfg relax).2.2.schedule, [])) ∨
    ((runAttempt weeks weekPlans avail cfg 0).1 = false ∧
     (runAttempt weeks weekPlans avail cfg 1).1 = false ∧
     (runAttempt weeks weekPlans avail cfg 2).1 = false ∧
     (runAttempt weeks weekPlans avail cfg 3).1 = false ∧
     generateSchedule weeks weekPlans avail cfg =
       fallbackRun weeks weekPlans avail cfg) := by
  rcases h0 : runAttempt weeks weekPlans avail cfg 0 with ⟨b0, sl0, st0⟩
  cases b0 with
  | true =>
    refine Or.inl ⟨0, by rw [h0], ?_⟩
    rw [generateSchedule, h0]
  | false =>
    rcases h1 : runAttempt weeks weekPlans avail cfg 1 with ⟨b1, sl1, st1⟩
    cases b1 with
    | true =>
      refine Or.inl ⟨1, by rw [h1], ?_⟩
      rw [generateSchedule, h0, h1]
    | false =>
      rcases h2 : runAttempt weeks weekPlans avail cfg 2 with ⟨b2, sl2, st2⟩
      cases b2 with
      | true =>
        refine Or.inl ⟨2, by rw [h2], ?_⟩
        rw [generateSchedule, h0, h1, h2]
      | false =>
        rcases h3 : runAttempt weeks weekPlans avail cfg 3 with ⟨b3, sl3, st3⟩
        cases b3 with
        | true =>
          refine Or.inl ⟨3, by rw [h3], ?_⟩
          rw [generateSchedule, h0, h1, h2, h3]
        | false =>
          refine Or.inr ⟨rfl, rfl, rfl, rfl, ?_⟩
          rw [generateSchedule, h0, h1, h2, h3]

/-- C10: every diagnostic `generateSchedule` emits has eliminations covering
the full approved list (each approved actor received a non-null reason from
`explainElim`) and carries the all-blocked suggestion — the computed
`filledCount` is 0 and the "eligible but already placed" branch is never
taken; and `explainElim` returns no reason exactly when the strict
(relaxation 0) eligibility filter accepts the actor. -/
theorem fallback_diagnostics_complete (weeks : List (List WeekDay))
    (weekPlans : Nat → Option WeekPlan) (avail : String → String → RawAvail)
    (cfg : Config) (cfg2 : Config) (avail2 : String → String → RawAvail)
    (a2 : String) (slot2 : Slot) (st2 : SState) :
    (∀ e ∈ (generateSchedule weeks weekPlans avail cfg).2,
      e.eliminations.map Prod.fst = e.approvedActors ∧
      e.suggestion = allBlockedMsg e.approvedActors e.scenario) ∧
    (explainElim cfg2 avail2 a2 slot2 st2 = none ↔
      eligOk cfg2 avail2 slot2 st2 0 a2 = true) := by
  refine ⟨?_, explainElim_none_iff_elig cfg2 avail2 a2 slot2 st2⟩
  rcases generateSchedule_cases weeks weekPlans avail cfg with
    ⟨relax, _, heq⟩ | ⟨_, _, _, _, heq⟩
  · rw [heq]
    intro e he
    cases he
  · rw [heq, fallbackRun_eq]
    obtain ⟨Δ, ih1, ih2, _⟩ := fbWeeks_post weeks weekPlans avail cfg
      (eligibleCountF weeks weekPlans avail cfg) (List.range weeks.length)
      (freshState weeks weekPlans cfg) []
    intro e he
    have he' : e ∈ (fbWeeks weeks weekPlans avail cfg
        (eligibleCountF weeks weekPlans avail cfg) (List.range weeks.length)
        (freshState weeks weekPlans cfg) []).2 := he
    rw [ih1, List.nil_append] at he'
    exact (ih2 e he').2.2.2.2.2

/-- A scenario with an empty approved list on the active slot of the only
week: every attempt fails and the fallback reports both shifts. -/
def eCfg : Config :=
  { actors := []
    scenarioActors := fun _ => []
    slotScenarios := fun sk => match sk with | .slot1 => ["Z"] | _ => []
    conflicts := []
    actorConstraints := fun _ => none
    defaultDays := fun _ => "Tuesday" }

theorem fallback_diagnostics_complete_witness :
    (generateSchedule exWeeks exPlans exAvail eCfg).2.length = 2 ∧
    ∀ e ∈ (generateSchedule exWeeks exPlans exAvail eCfg).2,
      e.eliminations.map Prod.fst = e.approvedActors ∧
      e.suggestion = allBlockedMsg e.approvedActors e.scenario :=
  ⟨by decide, (fallback_diagnostics_complete exWeeks exPlans exAvail eCfg eCfg
    exAvail "A" dSlot (freshState exWeeks exPlans eCfg)).1⟩

end CIT

namespace CIT

/-- C9 counterexample: for a scenario with an empty approved list on an
active slot the diagnostics carry the "All 0 approved actors blocked"
message, not a "no approved actors for <scenario>" message. -/
theorem empty_approved_message_counterexample :
    eCfg.scenarioActors "Z" = [] ∧ "Z" ∈ eCfg.slotScenarios SlotKey.slot1 ∧
    resolvePlan exWeeks exPlans eCfg 0 SlotKey.slot1 = some "2026-03-02" ∧
    (generateSchedule exWeeks exPlans exAvail eCfg).2.length = 2 ∧
    ∀ e ∈ (generateSchedule exWeeks exPlans exAvail eCfg).2,
      e.suggestion ≠ "No approved actors for Z" ∧
      e.suggestion ≠ "no approved actors for Z" := by
  refine ⟨rfl, by decide, by decide, by decide, by decide⟩

/-- C9 amended: a scenario with an empty approved list on an active
training-day slot is always reported unfilled (null) for each shift, with
exactly one diagnostic per (week, slot, shift) whose approved list is empty
and whose suggestion is the all-blocked message (`generateSchedule` is a
total function, so it cannot throw). -/
theorem empty_approved_amended (weeks : List (List WeekDay))
    (weekPlans : Nat → Option WeekPlan) (avail : String → String → RawAvail)
    (cfg : Config) (wi : Nat) (sk : SlotKey) (scn : String) (date : String)
    (hwi : wi < weeks.length)
    (hplan : resolvePlan weeks weekPlans cfg wi sk = some date)
    (hscn : scn ∈ cfg.slotScenarios sk)
    (hempty : cfg.scenarioActors scn = [])
    (hnd : (cfg.slotScenarios sk).Nodup)
    (sh : Shift) :
    cellVal (generateSchedule weeks weekPlans avail cfg).1 (wi, sk, sh, scn) =
      some none ∧
    ((generateSchedule weeks weekPlans avail cfg).2.filter
      (errMatch wi sk sh scn)).length = 1 ∧
    ∀ e ∈ (generateSchedule weeks weekPlans avail cfg).2.filter
      (errMatch wi sk sh scn),
      e.approvedActors = [] ∧ e.suggestion = allBlockedMsg [] scn := by
  have hslot : (⟨wi, sk, sh, scn, date⟩ : Slot) ∈ enumSlots weeks weekPlans cfg :=
    (mem_enumSlots weeks weekPlans cfg _).mpr ⟨hwi, hplan, hscn⟩
  have hfail : ∀ relax, (runAttempt weeks weekPlans avail cfg relax).1 = false :=
    fun relax =>
      runAttempt_false_of_empty weeks weekPlans avail cfg relax _ hslot hempty
  have heq : generateSchedule weeks weekPlans avail cfg =
      fallbackRun weeks weekPlans avail cfg := by
    rcases generateSchedule_cases weeks weekPlans avail cfg with
      ⟨relax, htrue, _⟩ | ⟨_, _, _, _, h⟩
    · rw [hfail relax] at htrue
      cases htrue
    · exact h
  rw [heq, fallbackRun_eq]
  obtain ⟨Δ, ih1, ih2, _, _, _, ih6, _⟩ := fbWeeks_post weeks weekPlans avail cfg
    (eligibleCountF weeks weekPlans avail cfg) (List.range weeks.length)
    (freshState weeks weekPlans cfg) []
  have hskmem : sk ∈ SLOT_KEYS := by
    cases sk <;> simp [SLOT_KEYS]
  have hshmem : sh ∈ SHIFTS := by
    cases sh <;> simp [SHIFTS]
  have hnull : cellVal (freshState weeks weekPlans cfg).schedule
      (wi, sk, sh, scn) = some none :=
    cellVal_initSchedule_mem weeks weekPlans cfg wi sk sh scn date hwi hplan hscn
  have hout := ih6 (List.nodup_range _) wi (List.mem_range.mpr hwi) sk hskmem date
    hplan hnd sh hshmem scn hscn hnull
  have herrs : (fbWeeks weeks weekPlans avail cfg
      (eligibleCountF weeks weekPlans avail cfg) (List.range weeks.length)
      (freshState weeks weekPlans cfg) []).2 = Δ := by
    rw [ih1]
    exact List.nil_append Δ
  rcases hout with ⟨⟨a, ha, _⟩, _⟩ | ⟨hcell, hcount⟩
  · rw [hempty] at ha
    cases ha
  · refine ⟨hcell, ?_, ?_⟩
    · show ((fbWeeks weeks weekPlans avail cfg
        (eligibleCountF weeks weekPlans avail cfg) (List.range weeks.length)
        (freshState weeks weekPlans cfg) []).2.filter
          (errMatch wi sk sh scn)).length = 1
      rw [herrs]
      exact hcount
    · intro e he
      have he' : e ∈ Δ.filter (errMatch wi sk sh scn) := by
        rw [← herrs]
        exact he
      obtain ⟨hmem, hmatch⟩ := List.mem_filter.mp he'
      have hescn : e.scenario = scn := by
        have := of_decide_eq_true hmatch
        exact this.2.2.2
      have happ := (ih2 e hmem).2.2.2.2.1
      have hgood := (ih2 e hmem).2.2.2.2.2
      have happ2 : e.approvedActors = [] := by
        rw [happ, hescn, hempty]
      refine ⟨happ2, ?_⟩
      rw [hgood.2, happ2, hescn]

theorem empty_approved_amended_witness :
    0 < exWeeks.length ∧
    resolvePlan exWeeks exPlans eCfg 0 SlotKey.slot1 = some "2026-03-02" ∧
    "Z" ∈ eCfg.slotScenarios SlotKey.slot1 ∧
    eCfg.scenarioActors "Z" = [] ∧
    (eCfg.slotScenarios SlotKey.slot1).Nodup ∧
    (cellVal (generateSchedule exWeeks exPlans exAvail eCfg).1
        (0, SlotKey.slot1, Shift.AM, "Z") = some none ∧
      ((generateSchedule exWeeks exPlans exAvail eCfg).2.filter
        (errMatch 0 SlotKey.slot1 Shift.AM "Z")).length = 1 ∧
      ∀ e ∈ (generateSchedule exWeeks exPlans exAvail eCfg).2.filter
        (errMatch 0 SlotKey.slot1 Shift.AM "Z"),
        e.approvedActors = [] ∧ e.suggestion = allBlockedMsg [] "Z") :=
  ⟨by decide, by decide, by decide, rfl, by decide,
    empty_approved_amended exWeeks exPlans exAvail eCfg 0 SlotKey.slot1 "Z"
      "2026-03-02" (by decide) (by decide) (by decide) rfl (by decide) Shift.AM⟩

end CIT

namespace CIT

/-- The slot-1 scenario list names the same scenario twice. -/
def dCfg : Config :=
  { actors := []
    scenarioActors := fun _ => []
    slotScenarios := fun sk => match sk with | .slot1 => ["Z", "Z"] | _ => []
    conflicts := []
    actorConstraints := fun _ => none
    defaultDays := fun _ => "Tuesday" }

/-- C1 counterexample: with a duplicated scenario in a slot's scenario list,
one unfilled (week, slot, shift, scenario) position receives two diagnostic
records, not exactly one. -/
theorem completeness_counterexample :
    cellVal (generateSchedule exWeeks exPlans exAvail dCfg).1
      (0, SlotKey.slot1, Shift.AM, "Z") = some none ∧
    ((generateSchedule exWeeks exPlans exAvail dCfg).2.filter
      (errMatch 0 SlotKey.slot1 Shift.AM "Z")).length = 2 := by
  refine ⟨by decide, by decide⟩

/-- C1 amended: when no slot's scenario list repeats a scenario, every
enumerated slot of the result either holds a non-null person, with no
diagnostic for its position, or is null with exactly one diagnostic for its
position. -/
theorem completeness_or_explained (weeks : List (List WeekDay))
    (weekPlans : Nat → Option WeekPlan) (avail : String → String → RawAvail)
    (cfg : Config) (hnd : ∀ sk : SlotKey, (cfg.slotScenarios sk).Nodup)
    (s : Slot) (hs : s ∈ enumSlots weeks weekPlans cfg) :
    (∃ a, cellVal (generateSchedule weeks weekPlans avail cfg).1 (posOf s) =
        some (some a) ∧
      ((generateSchedule weeks weekPlans avail cfg).2.filter
        (errMatch s.wi s.slotKey s.shift s.scenario)).length = 0) ∨
    (cellVal (generateSchedule weeks weekPlans avail cfg).1 (posOf s) =
        some none ∧
      ((generateSchedule weeks weekPlans avail cfg).2.filter
        (errMatch s.wi s.slotKey s.shift s.scenario)).length = 1) := by
  rcases generateSchedule_cases weeks weekPlans avail cfg with
    ⟨relax, htrue, heq⟩ | ⟨_, _, _, _, heq⟩
  · obtain ⟨a, ha⟩ :=
      (runAttempt_true_post weeks weekPlans avail cfg relax htrue).2 s hs
    rw [heq]
    exact Or.inl ⟨a, ha, rfl⟩
  · obtain ⟨hwi, hplan, hscn⟩ := (mem_enumSlots weeks weekPlans cfg s).mp hs
    rw [heq, fallbackRun_eq]
    obtain ⟨Δ, ih1, _, _, _, _, ih6, _⟩ := fbWeeks_post weeks weekPlans avail cfg
      (eligibleCountF weeks weekPlans avail cfg) (List.range weeks.length)
      (freshState weeks weekPlans cfg) []
    have hskmem : s.slotKey ∈ SLOT_KEYS := by
      cases h : s.slotKey <;> simp [SLOT_KEYS]
    have hshmem : s.shift ∈ SHIFTS := by
      cases h : s.shift <;> simp [SHIFTS]
    have hnull : cellVal (freshState weeks weekPlans cfg).schedule
        (s.wi, s.slotKey, s.shift, s.scenario) = some none :=
      cellVal_initSchedule_mem weeks weekPlans cfg s.wi s.slotKey s.shift
        s.scenario s.date hwi hplan hscn
    have hout := ih6 (List.nodup_range _) s.wi (List.mem_range.mpr hwi)
      s.slotKey hskmem s.date hplan (hnd s.slotKey) s.shift hshmem
      s.scenario hscn hnull
    have herrs : (fbWeeks weeks weekPlans avail cfg
        (eligibleCountF weeks weekPlans avail cfg) (List.range weeks.length)
        (freshState weeks weekPlans cfg) []).2 = Δ := by
      rw [ih1]
      exact List.nil_append Δ
    rcases hout with ⟨⟨a, _, hcell⟩, hcount⟩ | ⟨hcell, hcount⟩
    · refine Or.inl ⟨a, hcell, ?_⟩
      show ((fbWeeks weeks weekPlans avail cfg
        (eligibleCountF weeks weekPlans avail cfg) (List.range weeks.length)
        (freshState weeks weekPlans cfg) []).2.filter
          (errMatch s.wi s.slotKey s.shift s.scenario)).length = 0
      rw [herrs]
      exact hcount
    · refine Or.inr ⟨hcell, ?_⟩
      show ((fbWeeks weeks weekPlans avail cfg
        (eligibleCountF weeks weekPlans avail cfg) (List.range weeks.length)
        (freshState weeks weekPlans cfg) []).2.filter
          (errMatch s.wi s.slotKey s.shift s.scenario)).length = 1
      rw [herrs]
      exact hcount

theorem completeness_or_explained_witness :
    (∀ sk : SlotKey, (exCfg.slotScenarios sk).Nodup) ∧
    (⟨0, SlotKey.slot1, Shift.AM, "X", "2026-03-02"⟩ : Slot) ∈
      enumSlots exWeeks exPlans exCfg ∧
    ((∃ a, cellVal (generateSchedule exWeeks exPlans exAvail exCfg).1
        (0, SlotKey.slot1, Shift.AM, "X") = some (some a) ∧
      ((generateSchedule exWeeks exPlans exAvail exCfg).2.filter
        (errMatch 0 SlotKey.slot1 Shift.AM "X")).length = 0) ∨
    (cellVal (generateSchedule exWeeks exPlans exAvail exCfg).1
        (0, SlotKey.slot1, Shift.AM, "X") = some none ∧
      ((generateSchedule exWeeks exPlans exAvail exCfg).2.filter
        (errMatch 0 SlotKey.slot1 Shift.AM "X")).length = 1)) :=
  ⟨by intro sk; cases sk <;> decide, by decide,
    completeness_or_explained exWeeks exPlans exAvail exCfg
      (by intro sk; cases sk <;> decide)
      ⟨0, SlotKey.slot1, Shift.AM, "X", "2026-03-02"⟩ (by decide)⟩

end CIT
